import Mathlib

/-!
# Beat detection (`bpm.c`): a shallow embedding and its verified properties

The program reads a sequence of samples, and for every full second of audio
(44100 samples) squares the samples of that second (`calculateSample`), sums them
into 43 blocks of 1024 samples (`getBlocks`), takes the mean and variance of the block
energies (`getAvg`, `getVariance`), derives a threshold and counts beats.

Modelling conventions.

* C `float`/`double` values are modelled by exact rationals `ℚ` in the first model of
  the program (the definitions `readAt` .. `main`), which is used for the statements about
  indices, the beat state machine, the BPM expression and exact sums.
* The statements that depend on the rounding of `float` and `double` operations (constant
  input, the threshold policy, the saturated detector) are about a second model,
  `Binary32`, of the same functions, in which every `float` operation is rounded to
  IEEE 754 binary32 and the assignment of `c` is evaluated in binary64 (rounding to
  nearest, ties to even; each operation rounded to its type, no fused multiply-add;
  overflow to an infinity; NaN propagation).
* C `long` values (taken to be 64 bits wide) are modelled by `Int`; the only narrowing
  to `int` in the program is in the final BPM expression and is modelled by `toInt32`
  (two's-complement wraparound).
* `sampleArray` is modelled by the list of the `totalSamples` values that were read from
  the file; every access is checked, and an access outside `0 .. totalSamples - 1`
  yields `Fault.indexOutOfRange`.
* A loop `for (; i < hi; i++)` whose body changes neither `i` nor `hi` executes its body
  exactly `(hi - i).toNat` times; loops are structural recursions on that count.
-/

namespace Bpm

/-! ## Constants -/

/-- The constant `SAMPLES_PER_SECOND`, defined as 44100. -/
abbrev SAMPLES_PER_SECOND : Int := 44100

/-- The constant `SAMPLES_PER_BLOCK`, defined as 1024. -/
abbrev SAMPLES_PER_BLOCK : Int := 1024

/-- The constant `BLOCKS`, defined as 43. -/
abbrev BLOCKS : Nat := 43

/-! ## Faults and checked array access -/

/-- The two ways in which the C program can leave defined behaviour: an access to
`sampleArray` outside the loaded samples, and an integer division by zero. -/
inductive Fault where
  | indexOutOfRange
  | divisionByZero
  deriving DecidableEq, Repr

/-- Checked read of `sampleArray[i]`. -/
def readAt (sampleArray : List ℚ) (i : Int) : Except Fault ℚ :=
  if 0 ≤ i ∧ i < sampleArray.length then .ok (sampleArray.getD i.toNat 0)
  else .error .indexOutOfRange

/-- Checked write `sampleArray[i] = v`. -/
def writeAt (sampleArray : List ℚ) (i : Int) (v : ℚ) : Except Fault (List ℚ) :=
  if 0 ≤ i ∧ i < sampleArray.length then .ok (sampleArray.set i.toNat v)
  else .error .indexOutOfRange

/-! ## `calculateSample` -/

/-- The loop of `calculateSample`: `n` iterations of
`sampleArray[i] = (sampleArray[i] * sampleArray[i]) * 2; i++`. -/
def calculateSampleLoop : Nat → Int → List ℚ → Except Fault (List ℚ)
  | 0, _, sampleArray => .ok sampleArray
  | n + 1, i, sampleArray => do
      let x ← readAt sampleArray i
      let sampleArray ← writeAt sampleArray i ((x * x) * 2)
      calculateSampleLoop n (i + 1) sampleArray

/-- The function `float * calculateSample(float sampleArray[], long samples)`: the loop runs from
`i = samples - SAMPLES_PER_SECOND` while `i < samples`. -/
def calculateSample (sampleArray : List ℚ) (samples : Int) : Except Fault (List ℚ) :=
  let i := samples - SAMPLES_PER_SECOND
  calculateSampleLoop (samples - i).toNat i sampleArray

/-! ## `getBlocks` -/

/-- The inner loop of `getBlocks`: `n` iterations of `sum += sampleArray[i]; i++`. -/
def sumLoop (sampleArray : List ℚ) : Nat → Int → ℚ → Except Fault ℚ
  | 0, _, sum => .ok sum
  | n + 1, i, sum => do
      let x ← readAt sampleArray i
      sumLoop sampleArray n (i + 1) (sum + x)

/-- The outer loop of `getBlocks` with `k` blocks still to do.  The inner loop
`for (; i < samplesPerBlock; i++)` runs `(samplesPerBlock - i).toNat` times and leaves
`i` advanced by that count; then `samplesPerBlock += SAMPLES_PER_BLOCK`, the sum is
stored in `ej[j]` and `sum` is reset to 0.  The entries `ej[0], ej[1], ...` are
returned in order. -/
def getBlocksLoop (sampleArray : List ℚ) : Nat → Int → Int → Except Fault (List ℚ)
  | 0, _, _ => .ok []
  | k + 1, i, samplesPerBlock => do
      let n := (samplesPerBlock - i).toNat
      let sum ← sumLoop sampleArray n i 0
      let rest ← getBlocksLoop sampleArray k (i + n) (samplesPerBlock + SAMPLES_PER_BLOCK)
      .ok (sum :: rest)

/-- The function
`float * getBlocks(float ej[], float sampleArray[], long samplesPerBlock, long samples)`.
All `BLOCKS` entries of `ej` are overwritten, so the result does not depend on the old
contents of `ej`; the new contents are returned. -/
def getBlocks (sampleArray : List ℚ) (samplesPerBlock samples : Int) :
    Except Fault (List ℚ) :=
  getBlocksLoop sampleArray BLOCKS (samples - SAMPLES_PER_SECOND) samplesPerBlock

/-- The indices visited by the inner loop of `getBlocks`: `n` consecutive indices
from `i`. -/
def sumLoopIndices : Nat → Int → List Int
  | 0, _ => []
  | n + 1, i => i :: sumLoopIndices n (i + 1)

/-- The indices of `sampleArray` read by the loops of `getBlocksLoop`, block by block
(the same control flow as `getBlocksLoop`, without the array). -/
def getBlocksLoopIndices : Nat → Int → Int → List (List Int)
  | 0, _, _ => []
  | k + 1, i, samplesPerBlock =>
      let n := (samplesPerBlock - i).toNat
      sumLoopIndices n i ::
        getBlocksLoopIndices k (i + n) (samplesPerBlock + SAMPLES_PER_BLOCK)

/-- The indices of `sampleArray` read by `getBlocks`, block by block. -/
def getBlocksIndices (samplesPerBlock samples : Int) : List (List Int) :=
  getBlocksLoopIndices BLOCKS (samples - SAMPLES_PER_SECOND) samplesPerBlock

/-- The indices written (and read) by `calculateSample`. -/
def calculateSampleIndices (samples : Int) : List Int :=
  let i := samples - SAMPLES_PER_SECOND
  sumLoopIndices (samples - i).toNat i

/-! ## `getAvg` and `getVariance` -/

/-- The function `float getAvg(float ej[])`. -/
def getAvg (ej : List ℚ) : ℚ :=
  (List.range BLOCKS).foldl (fun avg i => avg + ej.getD i 0) 0 / BLOCKS

/-- The function `float getVariance(float ej[], float avg)`. -/
def getVariance (ej : List ℚ) (avg : ℚ) : ℚ :=
  (List.range BLOCKS).foldl
    (fun variance i => variance + ((avg - ej.getD i 0) * (avg - ej.getD i 0)) / BLOCKS) 0

/-! ## The beat loop of `main` -/

/-- The body of the beat loop for one block energy `e = ej[j]`, on the pair
`(beats, peak)`. -/
def beatRule (threshold : ℚ) (st : Int × Int) (e : ℚ) : Int × Int :=
  if e > threshold then
    if st.2 + 1 = 4 then (st.1 + 1, 0) else (st.1, st.2 + 1)
  else (st.1, 0)

/-- The beat loop `for (j = 0; j < BLOCKS; j++)` of `main`, where `threshold` is the
value of `c * avg`. -/
def beatLoop (ej : List ℚ) (threshold : ℚ) (beats peak : Int) : Int × Int :=
  (List.range BLOCKS).foldl (fun st j => beatRule threshold st (ej.getD j 0)) (beats, peak)

/-! ## `main` -/

/-- Ghost record of one execution of the window body of `main`: the values of the
local variables when the beat loop of that window has finished (before
`samples += SAMPLES_PER_SECOND`). -/
structure WindowRecord where
  samples : Int
  samplesPerBlock : Int
  ej : List ℚ
  avg : ℚ
  variance : ℚ
  c : ℚ
  beats : Int
  peak : Int

/-- The variables of `main` that live across iterations of the driver loop, with the
ghost `log` of the windows processed so far (oldest first). -/
structure MainState where
  sampleArray : List ℚ
  samples : Int
  samplesPerBlock : Int
  beats : Int
  peak : Int
  log : List WindowRecord

/-- The part of the window body of `main` after the call of `getBlocks` (from
`avg = getAvg(ej)` to `samplesPerBlock += SAMPLES_PER_SECOND`), given the array left by
`calculateSample` and the block energies left by `getBlocks`. -/
def windowRest (s : MainState) (sampleArray ej : List ℚ) : MainState :=
  let avg := getAvg ej
  let variance := getVariance ej avg
  let c : ℚ := -0.0000015 * variance + 1.5142857
  let st := beatLoop ej (c * avg) s.beats s.peak
  { sampleArray := sampleArray
    samples := s.samples + SAMPLES_PER_SECOND
    samplesPerBlock := s.samplesPerBlock + SAMPLES_PER_SECOND
    beats := st.1
    peak := st.2
    log := s.log ++ [{ samples := s.samples, samplesPerBlock := s.samplesPerBlock,
                       ej := ej, avg := avg, variance := variance, c := c,
                       beats := st.1, peak := st.2 }] }

/-- The body of `if (i == samples - 1) { ... }` in `main`. -/
def windowBody (s : MainState) : Except Fault MainState := do
  let sampleArray ← calculateSample s.sampleArray s.samples
  let ej ← getBlocks sampleArray s.samplesPerBlock s.samples
  .ok (windowRest s sampleArray ej)

/-- The driver loop `for (i = 0; i < totalSamples; i++)` of `main`, with `n` iterations
still to do. -/
def mainLoop : Nat → Int → MainState → Except Fault MainState
  | 0, _, s => .ok s
  | n + 1, i, s =>
      if i = s.samples - 1 then do
        let s ← windowBody s
        mainLoop n (i + 1) s
      else mainLoop n (i + 1) s

/-- The state of `main` when the driver loop starts: the samples read from the file
and the initial values of the declarations of `main`. -/
def initialState (input : List ℚ) : MainState :=
  { sampleArray := input
    samples := SAMPLES_PER_SECOND
    samplesPerBlock := SAMPLES_PER_BLOCK
    beats := 0
    peak := 0
    log := [] }

/-- The driver loop of `main` on the samples `input`; `totalSamples` is the number of
values read, `input.length`. -/
def run (input : List ℚ) : Except Fault MainState :=
  mainLoop input.length 0 (initialState input)

/-- Conversion of a `long` to `int` (32 bits, two's complement). -/
def toInt32 (x : Int) : Int :=
  (x + 2147483648) % 4294967296 - 2147483648

/-- The expression `(int)(beats * SAMPLES_PER_SECOND * 60) / totalSamples` as stored in
`int bpm`: the product is narrowed to `int`, the division is the truncating C division
(with divisor 0 a fault), and the quotient is stored in an `int`. -/
def bpmExpr (beats totalSamples : Int) : Except Fault Int :=
  if totalSamples = 0 then .error .divisionByZero
  else .ok (toInt32 (Int.tdiv (toInt32 (beats * SAMPLES_PER_SECOND * 60)) totalSamples))

/-- The value of `bpm` printed by `main` for the samples `input`. -/
def main (input : List ℚ) : Except Fault Int := do
  let s ← run input
  bpmExpr s.beats input.length


/-! ## Closed forms used in the statements

These definitions are not translations of code: they are the closed forms that the
theorems below prove the code to compute. -/

/-- The energy `(x * x) * 2` that `calculateSample` stores for a sample `x`. -/
def energy (x : ℚ) : ℚ := (x * x) * 2

/-- The array in which the first `N` entries of `input` have been replaced by their
energies. -/
def energized (input : List ℚ) (N : Nat) : List ℚ :=
  (input.take N).map energy ++ input.drop N

/-- The sum of the energies of the 1024 samples of `input` at the indices
`44100 * w + 1024 * j + t`, `t = 0 .. 1023`. -/
def blockEnergy (input : List ℚ) (w j : Nat) : ℚ :=
  ∑ t in Finset.range 1024, energy (input.getD (44100 * w + 1024 * j + t) 0)

/-- The 43 block energies of window `w` of `input`. -/
def windowEnergies (input : List ℚ) (w : Nat) : List ℚ :=
  (List.range BLOCKS).map (blockEnergy input w)

/-- The state of `main` after `W` windows of `input`, computed without array accesses. -/
def stateAfter (input : List ℚ) : Nat → MainState
  | 0 => initialState input
  | W + 1 =>
      windowRest (stateAfter input W) (energized input (44100 * (W + 1)))
        (windowEnergies input W)

/-- The reading of one block by the inner loop of `getBlocks`, over a given list of
indices. -/
def sumOver (sampleArray : List ℚ) (indices : List Int) : Except Fault ℚ :=
  indices.foldlM (fun sum i => do let x ← readAt sampleArray i; pure (sum + x)) 0

/-- The ghost record that the window body logs for window `w` of `input`, in closed
form. -/
def recordAfter (input : List ℚ) (w : Nat) : WindowRecord :=
  let s := stateAfter input w
  let ej := windowEnergies input w
  let avg := getAvg ej
  let variance := getVariance ej avg
  let c : ℚ := -0.0000015 * variance + 1.5142857
  let st := beatLoop ej (c * avg) s.beats s.peak
  { samples := s.samples, samplesPerBlock := s.samplesPerBlock,
    ej := ej, avg := avg, variance := variance, c := c,
    beats := st.1, peak := st.2 }

/-- All indices read by the call of `getBlocks` logged in `r`, in the order in which
they are read. -/
def readSpan (r : WindowRecord) : List Int :=
  (getBlocksIndices r.samplesPerBlock r.samples).flatten

/-- A test signal of `seconds` seconds: in every second the first 1024 samples have
amplitude 2 and the remaining 43076 samples are 0. -/
def pulseInput (seconds : Nat) : List ℚ :=
  (List.range (44100 * seconds)).map (fun k => if k % 44100 < 1024 then 2 else 0)

/-! ## Further notions used in the statements about the beat state -/

/-- The body of the beat loop of `main` as a function of the outcome `above` of the
comparison `ej[j] > (c * avg)`: if the outcome is true, `peak++` and a beat is counted
when `peak` reaches 4; otherwise `peak = 0`. -/
def outcomeStep (st : Int × Int) (above : Bool) : Int × Int :=
  if above then
    if st.2 + 1 = 4 then (st.1 + 1, 0) else (st.1, st.2 + 1)
  else (st.1, 0)

/-- The outcomes of the comparison `ej[j] > threshold` for the entries of `ej`, in
order. -/
def outcomes (ej : List ℚ) (threshold : ℚ) : List Bool :=
  ej.map (fun e => decide (e > threshold))

/-- The beat loop of `main` stopped after its first `k` block steps (`beatLoop` is the
case `k = BLOCKS`). -/
def beatLoopUpTo (k : Nat) (ej : List ℚ) (threshold : ℚ) (beats peak : Int) : Int × Int :=
  (List.range k).foldl (fun st j => beatRule threshold st (ej.getD j 0)) (beats, peak)

/-- The values of `(beats, peak)` with which the window at position `w` of the log
starts: the initial values for the first window, the values logged at the end of the
previous window otherwise. -/
def entryState (log : List WindowRecord) : Nat → Int × Int
  | 0 => (0, 0)
  | w + 1 =>
      match log[w]? with
      | some r => (r.beats, r.peak)
      | none => (0, 0)

/-- The number of entries among the first `k` of `ej` that are strictly above
`threshold`. -/
def aboveCount (ej : List ℚ) (threshold : ℚ) (k : Nat) : Nat :=
  ((ej.take k).filter (fun e => decide (e > threshold))).length

/-- The number of blocks, over all windows of a log, whose energy is strictly above the
threshold of their window. -/
def aboveTotal (log : List WindowRecord) : Nat :=
  (log.map (fun r => aboveCount r.ej (r.c * r.avg) BLOCKS)).sum

/-! ## Binary floating-point arithmetic

The statements that depend on the rounding of the C `float` and `double` operations use
the following model of IEEE 754 arithmetic with rounding to nearest, ties to even: every
operation computes the exact rational result and rounds it to the format.  The sign of
zero is not represented; it is not observable in this program, which never divides by a
variable and only compares values with `>`. -/

/-- The floor of the binary logarithm of `n`, by recursion on `fuel`. -/
def log2Fuel : Nat → Nat → Nat
  | 0, _ => 0
  | fuel + 1, n => if n < 2 then 0 else log2Fuel fuel (n / 2) + 1

/-- The floor of the binary logarithm of a natural number (0 for 0). -/
def natLog2 (n : Nat) : Nat := log2Fuel n n

/-- The binary exponent of a positive rational `x`: the `k` with `2 ^ k ≤ x < 2 ^ (k + 1)`. -/
def ilog2 (x : ℚ) : ℤ :=
  let k : ℤ := (natLog2 x.num.natAbs : ℤ) - (natLog2 x.den : ℤ)
  if (2 : ℚ) ^ k ≤ x then k else k - 1

/-- Rounding of a rational to the nearest integer, ties to the even integer. -/
def rne (m : ℚ) : ℤ :=
  if m - ⌊m⌋ < 1 / 2 then ⌊m⌋
  else if 1 / 2 < m - ⌊m⌋ then ⌊m⌋ + 1
  else if ⌊m⌋ % 2 = 0 then ⌊m⌋ else ⌊m⌋ + 1

/-- A binary floating-point format: precision in bits, least and greatest exponent. -/
structure Format where
  prec : Nat
  emin : ℤ
  emax : ℤ

/-- The format of C `float` (IEEE 754 binary32). -/
def binary32 : Format := { prec := 24, emin := -126, emax := 127 }

/-- The format of C `double` (IEEE 754 binary64). -/
def binary64 : Format := { prec := 53, emin := -1022, emax := 1023 }

/-- The unit in the last place used for rounding `x` in the format: `2 ^ (e - prec + 1)`
where `e` is the exponent of `x`, or `emin` for values below the normal range. -/
def Format.ulp (f : Format) (x : ℚ) : ℚ :=
  (2 : ℚ) ^ (max (ilog2 |x|) f.emin - ((f.prec : ℤ) - 1))

/-- Rounding of a rational to the nearest value of the format (ties to even), with
unbounded exponent range above. -/
def Format.round (f : Format) (x : ℚ) : ℚ :=
  (rne (x / f.ulp x) : ℚ) * f.ulp x

/-- A floating-point datum: a finite value, an infinity or a NaN. -/
inductive Fp where
  | fin (q : ℚ)
  | pinf
  | ninf
  | nan

/-- The result of an operation whose exact value is `x`: the rounded value, or an
infinity when the rounded value exceeds the range of the format. -/
def Format.ofRat (f : Format) (x : ℚ) : Fp :=
  if (2 : ℚ) ^ (f.emax + 1) ≤ |f.round x| then
    if 0 < x then Fp.pinf else Fp.ninf
  else Fp.fin (f.round x)

/-- Floating-point addition. -/
def Fp.add (f : Format) : Fp → Fp → Fp
  | .fin a, .fin b => f.ofRat (a + b)
  | .nan, _ => .nan
  | _, .nan => .nan
  | .pinf, .ninf => .nan
  | .ninf, .pinf => .nan
  | .pinf, _ => .pinf
  | _, .pinf => .pinf
  | .ninf, _ => .ninf
  | _, .ninf => .ninf

/-- Floating-point subtraction. -/
def Fp.sub (f : Format) : Fp → Fp → Fp
  | .fin a, .fin b => f.ofRat (a - b)
  | .nan, _ => .nan
  | _, .nan => .nan
  | .pinf, .pinf => .nan
  | .ninf, .ninf => .nan
  | .pinf, _ => .pinf
  | _, .ninf => .pinf
  | .ninf, _ => .ninf
  | _, .pinf => .ninf

/-- The product of an infinity of sign `pos` with the finite value `a`. -/
def Fp.infTimes (pos : Bool) (a : ℚ) : Fp :=
  if a = 0 then .nan
  else if decide (0 < a) = pos then .pinf else .ninf

/-- Floating-point multiplication. -/
def Fp.mul (f : Format) : Fp → Fp → Fp
  | .fin a, .fin b => f.ofRat (a * b)
  | .nan, _ => .nan
  | _, .nan => .nan
  | .pinf, .fin b => Fp.infTimes true b
  | .ninf, .fin b => Fp.infTimes false b
  | .fin a, .pinf => Fp.infTimes true a
  | .fin a, .ninf => Fp.infTimes false a
  | .pinf, .pinf => .pinf
  | .ninf, .ninf => .pinf
  | .pinf, .ninf => .ninf
  | .ninf, .pinf => .ninf

/-- Floating-point division by the positive integer constant `n` (converted to the
format, where it is exact). -/
def Fp.divNat (f : Format) (x : Fp) (n : Nat) : Fp :=
  match x with
  | .fin a => f.ofRat (a / n)
  | .pinf => .pinf
  | .ninf => .ninf
  | .nan => .nan

/-- Conversion of a datum to the format `f` (exact from `float` to `double`, rounding
from `double` to `float`). -/
def Fp.convert (f : Format) (x : Fp) : Fp :=
  match x with
  | .fin a => f.ofRat a
  | .pinf => .pinf
  | .ninf => .ninf
  | .nan => .nan

/-- The comparison `x > y`; it is false when an operand is a NaN. -/
def Fp.gt : Fp → Fp → Bool
  | .fin a, .fin b => decide (b < a)
  | .nan, _ => false
  | _, .nan => false
  | .pinf, .pinf => false
  | .pinf, _ => true
  | .ninf, _ => false
  | .fin _, .pinf => false
  | .fin _, .ninf => true

/-- A datum that is not negative: a finite value `≥ 0`, `+∞`, or a NaN. -/
def Fp.notNeg : Fp → Bool
  | .fin q => decide (0 ≤ q)
  | .pinf => true
  | .ninf => false
  | .nan => true

namespace Binary32

/-! ## The program in binary32 arithmetic

The same functions as above, with every `float` operation rounded to binary32 and the
assignment of `c` evaluated in `double` and stored in a `float`. -/

/-- Checked read of `sampleArray[i]`. -/
def readAt (sampleArray : List Fp) (i : Int) : Except Fault Fp :=
  if 0 ≤ i ∧ i < sampleArray.length then .ok (sampleArray.getD i.toNat (Fp.fin 0))
  else .error .indexOutOfRange

/-- Checked write `sampleArray[i] = v`. -/
def writeAt (sampleArray : List Fp) (i : Int) (v : Fp) : Except Fault (List Fp) :=
  if 0 ≤ i ∧ i < sampleArray.length then .ok (sampleArray.set i.toNat v)
  else .error .indexOutOfRange

/-- The loop of `calculateSample`: `n` iterations of
`sampleArray[i] = (sampleArray[i] * sampleArray[i]) * 2; i++`. -/
def calculateSampleLoop : Nat → Int → List Fp → Except Fault (List Fp)
  | 0, _, sampleArray => .ok sampleArray
  | n + 1, i, sampleArray => do
      let x ← readAt sampleArray i
      let sampleArray ← writeAt sampleArray i
        (Fp.mul binary32 (Fp.mul binary32 x x) (Fp.fin 2))
      calculateSampleLoop n (i + 1) sampleArray

/-- The function `calculateSample`. -/
def calculateSample (sampleArray : List Fp) (samples : Int) : Except Fault (List Fp) :=
  let i := samples - SAMPLES_PER_SECOND
  calculateSampleLoop (samples - i).toNat i sampleArray

/-- The inner loop of `getBlocks`: `n` iterations of `sum += sampleArray[i]; i++`. -/
def sumLoop (sampleArray : List Fp) : Nat → Int → Fp → Except Fault Fp
  | 0, _, sum => .ok sum
  | n + 1, i, sum => do
      let x ← readAt sampleArray i
      sumLoop sampleArray n (i + 1) (Fp.add binary32 sum x)

/-- The outer loop of `getBlocks` with `k` blocks still to do. -/
def getBlocksLoop (sampleArray : List Fp) : Nat → Int → Int → Except Fault (List Fp)
  | 0, _, _ => .ok []
  | k + 1, i, samplesPerBlock => do
      let n := (samplesPerBlock - i).toNat
      let sum ← sumLoop sampleArray n i (Fp.fin 0)
      let rest ← getBlocksLoop sampleArray k (i + n) (samplesPerBlock + SAMPLES_PER_BLOCK)
      .ok (sum :: rest)

/-- The function `getBlocks`. -/
def getBlocks (sampleArray : List Fp) (samplesPerBlock samples : Int) :
    Except Fault (List Fp) :=
  getBlocksLoop sampleArray BLOCKS (samples - SAMPLES_PER_SECOND) samplesPerBlock

/-- The function `getAvg`: the sum is accumulated in a `float`, then `avg = avg/BLOCKS`. -/
def getAvg (ej : List Fp) : Fp :=
  Fp.divNat binary32
    ((List.range BLOCKS).foldl (fun avg i => Fp.add binary32 avg (ej.getD i (Fp.fin 0)))
      (Fp.fin 0))
    BLOCKS

/-- The function `getVariance`:
`variance += ((avg - ej[i]) * (avg - ej[i])) / BLOCKS`. -/
def getVariance (ej : List Fp) (avg : Fp) : Fp :=
  (List.range BLOCKS).foldl
    (fun variance i =>
      Fp.add binary32 variance
        (Fp.divNat binary32
          (Fp.mul binary32 (Fp.sub binary32 avg (ej.getD i (Fp.fin 0)))
            (Fp.sub binary32 avg (ej.getD i (Fp.fin 0))))
          BLOCKS))
    (Fp.fin 0)

/-- The assignment `c = -0.0000015 * variance + 1.5142857` of `main`: the constants are
`double` literals, `variance` is converted to `double`, the product and the sum are
rounded to `double`, and the result is converted to the `float` variable `c`. -/
def sensitivity (variance : Fp) : Fp :=
  Fp.convert binary32
    (Fp.add binary64
      (Fp.mul binary64 (binary64.ofRat (-0.0000015)) (Fp.convert binary64 variance))
      (binary64.ofRat 1.5142857))

/-- The body of the beat loop for one block energy `e = ej[j]`, on the pair
`(beats, peak)`. -/
def beatRule (threshold : Fp) (st : Int × Int) (e : Fp) : Int × Int :=
  if Fp.gt e threshold then
    if st.2 + 1 = 4 then (st.1 + 1, 0) else (st.1, st.2 + 1)
  else (st.1, 0)

/-- The beat loop `for (j = 0; j < BLOCKS; j++)` of `main`, where `threshold` is the
value of the `float` product `c * avg`. -/
def beatLoop (ej : List Fp) (threshold : Fp) (beats peak : Int) : Int × Int :=
  (List.range BLOCKS).foldl
    (fun st j => beatRule threshold st (ej.getD j (Fp.fin 0))) (beats, peak)

/-- Ghost record of one execution of the window body of `main`. -/
structure WindowRecord where
  samples : Int
  samplesPerBlock : Int
  ej : List Fp
  avg : Fp
  variance : Fp
  c : Fp
  beats : Int
  peak : Int

/-- The variables of `main` that live across iterations of the driver loop, with the
ghost `log` of the windows processed so far (oldest first). -/
structure MainState where
  sampleArray : List Fp
  samples : Int
  samplesPerBlock : Int
  beats : Int
  peak : Int
  log : List WindowRecord

/-- The part of the window body of `main` after the call of `getBlocks`. -/
def windowRest (s : MainState) (sampleArray ej : List Fp) : MainState :=
  let avg := getAvg ej
  let variance := getVariance ej avg
  let c := sensitivity variance
  let st := beatLoop ej (Fp.mul binary32 c avg) s.beats s.peak
  { sampleArray := sampleArray
    samples := s.samples + SAMPLES_PER_SECOND
    samplesPerBlock := s.samplesPerBlock + SAMPLES_PER_SECOND
    beats := st.1
    peak := st.2
    log := s.log ++ [{ samples := s.samples, samplesPerBlock := s.samplesPerBlock,
                       ej := ej, avg := avg, variance := variance, c := c,
                       beats := st.1, peak := st.2 }] }

/-- The body of `if (i == samples - 1) { ... }` in `main`. -/
def windowBody (s : MainState) : Except Fault MainState := do
  let sampleArray ← calculateSample s.sampleArray s.samples
  let ej ← getBlocks sampleArray s.samplesPerBlock s.samples
  .ok (windowRest s sampleArray ej)

/-- The driver loop of `main`, with `n` iterations still to do. -/
def mainLoop : Nat → Int → MainState → Except Fault MainState
  | 0, _, s => .ok s
  | n + 1, i, s =>
      if i = s.samples - 1 then do
        let s ← windowBody s
        mainLoop n (i + 1) s
      else mainLoop n (i + 1) s

/-- The state of `main` when the driver loop starts. -/
def initialState (input : List Fp) : MainState :=
  { sampleArray := input
    samples := SAMPLES_PER_SECOND
    samplesPerBlock := SAMPLES_PER_BLOCK
    beats := 0
    peak := 0
    log := [] }

/-- The driver loop of `main` on the samples `input`. -/
def run (input : List Fp) : Except Fault MainState :=
  mainLoop input.length 0 (initialState input)

/-- The value of `bpm` printed by `main` for the samples `input`. -/
def main (input : List Fp) : Except Fault Int := do
  let s ← run input
  bpmExpr s.beats input.length

/-! ### Closed forms used in the statements about binary32 arithmetic -/

/-- The value `(x * x) * 2` that `calculateSample` stores for a sample `x`. -/
def energy (x : Fp) : Fp := Fp.mul binary32 (Fp.mul binary32 x x) (Fp.fin 2)

/-- The array in which the first `N` entries of `input` have been replaced by their
energies. -/
def energized (input : List Fp) (N : Nat) : List Fp :=
  (input.take N).map energy ++ input.drop N

/-- The `float` sum, accumulated from `0` in the order of the indices, of the energies of
the 1024 samples of `input` at the indices `44100 * w + 1024 * j + t`, `t = 0 .. 1023`. -/
def blockEnergy (input : List Fp) (w j : Nat) : Fp :=
  (List.range 1024).foldl
    (fun sum t => Fp.add binary32 sum (energy (input.getD (44100 * w + 1024 * j + t) (Fp.fin 0))))
    (Fp.fin 0)

/-- The 43 block energies of window `w` of `input`. -/
def windowEnergies (input : List Fp) (w : Nat) : List Fp :=
  (List.range BLOCKS).map (blockEnergy input w)

/-- The state of `main` after `W` windows of `input`, computed without array accesses. -/
def stateAfter (input : List Fp) : Nat → MainState
  | 0 => initialState input
  | W + 1 =>
      windowRest (stateAfter input W) (energized input (44100 * (W + 1)))
        (windowEnergies input W)

/-- The ghost record that the window body logs for window `w` of `input`, in closed
form. -/
def recordAfter (input : List Fp) (w : Nat) : WindowRecord :=
  let s := stateAfter input w
  let ej := windowEnergies input w
  let avg := getAvg ej
  let variance := getVariance ej avg
  let c := sensitivity variance
  let st := beatLoop ej (Fp.mul binary32 c avg) s.beats s.peak
  { samples := s.samples, samplesPerBlock := s.samplesPerBlock,
    ej := ej, avg := avg, variance := variance, c := c,
    beats := st.1, peak := st.2 }

/-- The values of `(beats, peak)` with which the window at position `w` of the log
starts: the initial values for the first window, the values logged at the end of the
previous window otherwise. -/
def entryState (log : List WindowRecord) : Nat → Int × Int
  | 0 => (0, 0)
  | w + 1 =>
      match log[w]? with
      | some r => (r.beats, r.peak)
      | none => (0, 0)

/-- The value of `c` for a finite variance `v`: the product and the sum of the assignment
are rounded to `double` and the result is rounded to `float`. -/
def sensitivityValue (v : ℚ) : ℚ :=
  binary32.round
    (binary64.round
      (binary64.round (binary64.round (-0.0000015) * binary64.round v)
        + binary64.round 1.5142857))

/-- The term `((avg - e) * (avg - e)) / BLOCKS` that `getVariance` adds for the block
energy `e`. -/
def varianceTerm (avg e : Fp) : Fp :=
  Fp.divNat binary32
    (Fp.mul binary32 (Fp.sub binary32 avg e) (Fp.sub binary32 avg e)) BLOCKS

/-- The block energy of a constant signal of amplitude `a`: the `float` sum, accumulated
from `0`, of 1024 copies of the energy of `a`. -/
def constantEnergy (a : Fp) : Fp :=
  (List.range 1024).foldl (fun sum _ => Fp.add binary32 sum (energy a)) (Fp.fin 0)

/-! ### Evaluation of binary32 operations on natural numbers

The following functions compute binary32 roundings with natural-number arithmetic only;
they are proved below to agree with `Format.round`, and are used to evaluate concrete
windows. -/

/-- The application `f n`, by cases on `n` (so that `n` is evaluated first). -/
def strictNat {α : Type} (f : Nat → α) (n : Nat) : α :=
  match n with
  | 0 => f 0
  | k + 1 => f (k + 1)

/-- One step of the binary search for the binary logarithm: if `n ≥ 2 ^ k`, shift `n` by
`k` bits and add `k` to the exponent `acc`. -/
def lgStep (k : Nat) (cont : Nat → Nat → Nat) (n acc : Nat) : Nat :=
  if n < 2 ^ k then cont n acc else strictNat (fun m => cont m (acc + k)) (n >>> k)

/-- The floor of the binary logarithm of `n`, for `0 < n < 2 ^ 256`, by binary search. -/
def log2Bin (n : Nat) : Nat :=
  lgStep 128 (lgStep 64 (lgStep 32 (lgStep 16 (lgStep 8 (lgStep 4 (lgStep 2
    (lgStep 1 (fun _ acc => acc)))))))) n 0

/-- The binary32 rounding of `n / d` for a quotient of at least `2 ^ 23` and below
`2 ^ 256`, where the rounded value is a natural number. -/
def roundDivNat (n d : Nat) : Nat :=
  strictNat (fun e =>
    strictNat (fun u =>
      strictNat (fun f =>
        strictNat (fun r =>
          if 2 * r < d * u then f * u
          else if d * u < 2 * r then (f + 1) * u
          else if f % 2 = 0 then f * u else (f + 1) * u) (n % (d * u))) (n / (d * u)))
      (2 ^ (e - 23))) (log2Bin (n / d))

/-- The binary32 rounding of the natural number `n < 2 ^ 256`. -/
def roundNat (n : Nat) : Nat :=
  if n < 2 ^ 24 then n else roundDivNat n 1

/-- The binary32 sum `((s + v) + v) + ...` with `n` terms `v < 2 ^ 128`, starting from
`s < 2 ^ 128`, or `none` if a partial sum overflows. -/
def sumNat (v : Nat) : Nat → Nat → Option Nat
  | 0, s => some s
  | n + 1, s =>
      strictNat (fun t => if t < 2 ^ 128 then sumNat v n t else none) (roundNat (s + v))

end Binary32

/-! # Theorems -/

/-! ## Loops over the 43-entry energy array -/

theorem range_map_getD (l : List ℚ) :
    (List.range l.length).map (fun j => l.getD j 0) = l := by
  apply List.ext_getElem
  · simp
  · intro n h1 h2
    simp [List.getD_eq_getElem?_getD, List.getElem?_eq_getElem h2]

theorem range_foldl_getD {β : Type} (f : β → ℚ → β) (init : β) (l : List ℚ) (n : Nat)
    (h : l.length = n) :
    (List.range n).foldl (fun st j => f st (l.getD j 0)) init = l.foldl f init := by
  subst h
  conv_rhs => rw [← range_map_getD l]
  rw [List.foldl_map]

theorem beatLoop_eq_foldl (ej : List ℚ) (threshold : ℚ) (beats peak : Int)
    (h : ej.length = BLOCKS) :
    beatLoop ej threshold beats peak = ej.foldl (beatRule threshold) (beats, peak) :=
  range_foldl_getD (beatRule threshold) (beats, peak) ej BLOCKS h

theorem foldl_beatRule_low (threshold : ℚ) (lows : List ℚ)
    (h : ∀ e ∈ lows, e ≤ threshold) (beats : Int) :
    lows.foldl (beatRule threshold) (beats, 0) = (beats, 0) := by
  induction lows with
  | nil => rfl
  | cons e t ih =>
    have he : ¬ e > threshold := not_lt.mpr (h e (List.mem_cons_self e t))
    simp only [List.foldl_cons, beatRule, he, if_false]
    exact ih (fun x hx => h x (List.mem_cons_of_mem e hx))

theorem foldl_beatRule_high (threshold : ℚ) (highs : List ℚ)
    (h : ∀ e ∈ highs, e > threshold) :
    ∀ beats peak : Int, 0 ≤ peak → peak < 4 →
      highs.foldl (beatRule threshold) (beats, peak)
        = (beats + (peak + highs.length) / 4, (peak + highs.length) % 4) := by
  induction highs with
  | nil =>
    intro beats peak h0 h4
    simp only [List.foldl_nil, List.length_nil, Nat.cast_zero, add_zero]
    have h1 : peak / 4 = 0 := by omega
    have h2 : peak % 4 = peak := by omega
    rw [h1, h2, add_zero]
  | cons e t ih =>
    intro beats peak h0 h4
    have he : e > threshold := h e (List.mem_cons_self e t)
    have ht : ∀ x ∈ t, x > threshold := fun x hx => h x (List.mem_cons_of_mem e hx)
    simp only [List.foldl_cons, beatRule, he, if_true, List.length_cons, Nat.cast_add,
      Nat.cast_one]
    by_cases hp : peak + 1 = 4
    · rw [if_pos hp, ih ht (beats + 1) 0 (by omega) (by omega)]
      refine Prod.ext ?_ ?_ <;> simp only <;> omega
    · rw [if_neg hp, ih ht beats (peak + 1) (by omega) (by omega)]
      refine Prod.ext ?_ ?_ <;> simp only <;> omega

theorem beatLoop_low_high (threshold : ℚ) (lows highs : List ℚ) (beats : Int)
    (hlen : lows.length + highs.length = 43)
    (hlow : ∀ e ∈ lows, e ≤ threshold) (hhigh : ∀ e ∈ highs, e > threshold) :
    beatLoop (lows ++ highs) threshold beats 0
      = (beats + (highs.length : Int) / 4, (highs.length : Int) % 4) := by
  rw [beatLoop_eq_foldl _ _ _ _ (by simpa using hlen), List.foldl_append,
    foldl_beatRule_low threshold lows hlow, foldl_beatRule_high threshold highs hhigh beats 0
      (le_refl 0) (by norm_num)]
  simp

/-! ## Array loops -/

theorem readAt_ok (a : List ℚ) (m : Nat) (h : m < a.length) :
    readAt a (m : Int) = .ok (a.getD m 0) := by
  have h1 : (0 : Int) ≤ (m : Int) ∧ (m : Int) < (a.length : Int) :=
    ⟨Int.natCast_nonneg m, by exact_mod_cast h⟩
  simp only [readAt, if_pos h1, Int.toNat_ofNat]

theorem writeAt_ok (a : List ℚ) (m : Nat) (v : ℚ) (h : m < a.length) :
    writeAt a (m : Int) v = .ok (a.set m v) := by
  have h1 : (0 : Int) ≤ (m : Int) ∧ (m : Int) < (a.length : Int) :=
    ⟨Int.natCast_nonneg m, by exact_mod_cast h⟩
  simp only [writeAt, if_pos h1, Int.toNat_ofNat]

theorem sumLoop_ok (a : List ℚ) :
    ∀ (n m : Nat) (sum : ℚ), m + n ≤ a.length →
      sumLoop a n (m : Int) sum = .ok (sum + ∑ t in Finset.range n, a.getD (m + t) 0) := by
  intro n
  induction n with
  | zero => intro m sum _; simp [sumLoop]
  | succ n ih =>
    intro m sum h
    have hm : m < a.length := by omega
    have hcast : ((m : Int) + 1) = ((m + 1 : Nat) : Int) := by push_cast; rfl
    simp only [sumLoop, readAt_ok a m hm, bind, Except.bind]
    rw [hcast, ih (m + 1) (sum + a.getD m 0) (by omega), Finset.sum_range_succ']
    congr 1
    have : ∀ t, m + 1 + t = m + (t + 1) := fun t => by omega
    simp only [this, add_zero]
    ring

theorem calculateSampleLoop_ok :
    ∀ (n m : Nat) (a : List ℚ), m + n ≤ a.length →
      ∃ b, calculateSampleLoop n (m : Int) a = .ok b ∧ b.length = a.length ∧
        ∀ k, b.getD k 0 = if m ≤ k ∧ k < m + n then energy (a.getD k 0) else a.getD k 0 := by
  intro n
  induction n with
  | zero =>
    intro m a _
    refine ⟨a, rfl, rfl, fun k => ?_⟩
    have : ¬ (m ≤ k ∧ k < m + 0) := by omega
    rw [if_neg this]
  | succ n ih =>
    intro m a h
    have hm : m < a.length := by omega
    have hcast : ((m : Int) + 1) = ((m + 1 : Nat) : Int) := by push_cast; rfl
    obtain ⟨b, hb, hlen, hget⟩ := ih (m + 1) (a.set m (energy (a.getD m 0)))
      (by rw [List.length_set]; omega)
    refine ⟨b, ?_, by rw [hlen, List.length_set], fun k => ?_⟩
    · simp only [calculateSampleLoop, readAt_ok a m hm, writeAt_ok a m _ hm, bind, Except.bind]
      rw [hcast]
      exact hb
    · rw [hget k]
      simp only [List.getD_eq_getElem?_getD, List.getElem?_set]
      by_cases hk : m = k
      · subst hk
        have h1 : ¬ (m + 1 ≤ m ∧ m < m + 1 + n) := by omega
        have h2 : m ≤ m ∧ m < m + (n + 1) := by omega
        simp [h1, h2, hm, energy, List.getElem?_eq_getElem hm]
      · by_cases hr : m + 1 ≤ k ∧ k < m + 1 + n
        · have h2 : m ≤ k ∧ k < m + (n + 1) := by omega
          simp [hr, h2, hk]
        · have h2 : ¬ (m ≤ k ∧ k < m + (n + 1)) := by omega
          simp [hr, h2, hk]

theorem list_eq_of_getD (l1 l2 : List ℚ) (hlen : l1.length = l2.length)
    (h : ∀ k, l1.getD k 0 = l2.getD k 0) : l1 = l2 := by
  apply List.ext_getElem hlen
  intro n h1 h2
  have := h n
  simpa [List.getD_eq_getElem?_getD, List.getElem?_eq_getElem h1,
    List.getElem?_eq_getElem h2] using this

theorem energy_zero : energy 0 = 0 := by simp [energy]

theorem energized_length (input : List ℚ) (N : Nat) :
    (energized input N).length = input.length := by
  simp only [energized, List.length_append, List.length_map, List.length_take,
    List.length_drop]
  omega

theorem energized_getD (input : List ℚ) (N k : Nat) :
    (energized input N).getD k 0
      = if k < N then energy (input.getD k 0) else input.getD k 0 := by
  simp only [energized, List.getD_eq_getElem?_getD]
  by_cases hk : k < N
  · rw [if_pos hk]
    by_cases hl : k < input.length
    · rw [List.getElem?_append_left (by simp; omega)]
      simp [List.getElem?_take, hk, List.getElem?_eq_getElem hl]
    · rw [List.getElem?_append_right (by simp; omega)]
      have h1 : input[k]? = none := List.getElem?_eq_none (by omega)
      have h2 : input[N + (k - (List.map energy (List.take N input)).length)]? = none :=
        List.getElem?_eq_none (by simp; omega)
      rw [List.getElem?_drop, h1, h2]
      simp [energy_zero]
  · rw [if_neg hk]
    rw [List.getElem?_append_right (by simp; omega)]
    simp only [List.length_map, List.length_take, List.getElem?_drop]
    by_cases hl : N ≤ input.length
    · rw [min_eq_left hl]
      congr 2; omega
    · rw [min_eq_right (by omega)]
      have h1 : input[k]? = none := List.getElem?_eq_none (by omega)
      have h2 : input[N + (k - input.length)]? = none := List.getElem?_eq_none (by omega)
      rw [h1, h2]

theorem energized_zero (input : List ℚ) : energized input 0 = input := by
  simp [energized]

theorem calculateSample_eq_loop (a : List ℚ) (N : Nat) :
    calculateSample a ((N : Int) + 44100) = calculateSampleLoop 44100 N a := by
  have h1 : (N : Int) + 44100 - SAMPLES_PER_SECOND = (N : Int) := by
    simp only [SAMPLES_PER_SECOND]; omega
  have h2 : ((N : Int) + 44100 - (N : Int)).toNat = 44100 := by omega
  show calculateSampleLoop
      ((N : Int) + 44100 - ((N : Int) + 44100 - SAMPLES_PER_SECOND)).toNat
      ((N : Int) + 44100 - SAMPLES_PER_SECOND) a = _
  rw [h1]
  rw [h2]

theorem calculateSample_energized (input : List ℚ) (N : Nat)
    (h : N + 44100 ≤ input.length) :
    calculateSample (energized input N) ((N : Int) + 44100)
      = .ok (energized input (N + 44100)) := by
  obtain ⟨b, hb, hlen, hget⟩ := calculateSampleLoop_ok 44100 N (energized input N)
    (by rw [energized_length]; exact h)
  refine (calculateSample_eq_loop _ N).trans (hb.trans ?_)
  have hbe : b = energized input (N + 44100) := by
    apply list_eq_of_getD
    · rw [hlen, energized_length, energized_length]
    · intro k
      rw [hget k, energized_getD, energized_getD]
      by_cases h3 : N ≤ k ∧ k < N + 44100
      · have h4 : ¬ k < N := by omega
        rw [if_pos h3, if_neg h4, if_pos h3.2]
      · rw [if_neg h3]
        by_cases h4 : k < N
        · rw [if_pos h4, if_pos (by omega)]
        · rw [if_neg h4, if_neg (by omega)]
  rw [hbe]

/-! ## The block sums of `getBlocks` -/

theorem getBlocksLoop_succ (a : List ℚ) (k : Nat) (i spb : Int) :
    getBlocksLoop a (k + 1) i spb
      = (sumLoop a (spb - i).toNat i 0 >>= fun sum =>
          getBlocksLoop a k (i + (spb - i).toNat) (spb + SAMPLES_PER_BLOCK) >>= fun rest =>
            .ok (sum :: rest)) := rfl

theorem getBlocksLoop_ok (a : List ℚ) :
    ∀ (k m : Nat), m + 1024 * k ≤ a.length →
      getBlocksLoop a k (m : Int) ((m : Int) + 1024)
        = .ok ((List.range k).map
            (fun j => ∑ t in Finset.range 1024, a.getD (m + 1024 * j + t) 0)) := by
  intro k
  induction k with
  | zero => intro m _; rfl
  | succ k ih =>
    intro m h
    have h1 : ((m : Int) + 1024 - (m : Int)).toNat = 1024 := by omega
    have h2 : (m : Int) + ((1024 : Nat) : Int) = ((m + 1024 : Nat) : Int) := by push_cast; rfl
    have h3 : (m : Int) + 1024 + SAMPLES_PER_BLOCK = ((m + 1024 : Nat) : Int) + 1024 := by
      simp only [SAMPLES_PER_BLOCK]; push_cast; rfl
    have h4 := sumLoop_ok a 1024 m 0 (by omega)
    have h5 := ih (m + 1024) (by omega)
    rw [getBlocksLoop_succ]
    rw [h1]
    rw [h2]
    rw [h3]
    rw [h4]
    rw [h5]
    simp only [bind, Except.bind, zero_add]
    rw [List.range_succ_eq_map, List.map_cons, List.map_map]
    have hmap : List.map
          (fun j => ∑ t in Finset.range 1024, a.getD (m + 1024 + 1024 * j + t) 0)
          (List.range k)
        = List.map ((fun j => ∑ t in Finset.range 1024, a.getD (m + 1024 * j + t) 0)
            ∘ Nat.succ) (List.range k) :=
      by
        apply List.map_congr_left
        intro j _
        apply Finset.sum_congr rfl
        intro t _
        have e : m + 1024 + 1024 * j + t = m + 1024 * (j + 1) + t := by ring
        simp only [Function.comp, Nat.succ_eq_add_one, e]
    rw [hmap]
    simp only [Nat.mul_zero, Nat.add_zero]

theorem getBlocks_energized (input : List ℚ) (w : Nat)
    (h : 44100 * (w + 1) ≤ input.length) :
    getBlocks (energized input (44100 * (w + 1))) (1024 + 44100 * (w : Int))
        (44100 * ((w : Int) + 1))
      = .ok (windowEnergies input w) := by
  have h1 : 44100 * ((w : Int) + 1) - SAMPLES_PER_SECOND = ((44100 * w : Nat) : Int) := by
    simp only [SAMPLES_PER_SECOND]; push_cast; ring
  have h2 : 1024 + 44100 * (w : Int) = ((44100 * w : Nat) : Int) + 1024 := by
    push_cast; ring
  show getBlocksLoop _ BLOCKS (44100 * ((w : Int) + 1) - SAMPLES_PER_SECOND) _ = _
  have h3 := getBlocksLoop_ok (energized input (44100 * (w + 1))) BLOCKS (44100 * w)
    (by rw [energized_length]; simp only [BLOCKS]; omega)
  rw [h1]
  rw [h2]
  rw [h3]
  apply congrArg Except.ok
  apply List.map_congr_left
  intro j hj
  have hj' : j < 43 := List.mem_range.mp hj
  apply Finset.sum_congr rfl
  intro t ht
  have ht' : t < 1024 := Finset.mem_range.mp ht
  rw [energized_getD, if_pos (by omega)]

theorem windowEnergies_length (input : List ℚ) (w : Nat) :
    (windowEnergies input w).length = BLOCKS := by
  simp [windowEnergies]

/-! ## The indices read by `getBlocks` -/

theorem sumLoopIndices_eq : ∀ (n : Nat) (i : Int),
    sumLoopIndices n i = (List.range n).map (fun (t : Nat) => i + (t : Int)) := by
  intro n
  induction n with
  | zero => intro i; rfl
  | succ n ih =>
    intro i
    rw [sumLoopIndices, ih (i + 1), List.range_succ_eq_map, List.map_cons, List.map_map]
    simp only [Nat.cast_zero, add_zero, List.cons.injEq, true_and]
    apply List.map_congr_left
    intro t _
    simp only [Function.comp, Nat.succ_eq_add_one]
    push_cast
    ring

theorem getBlocksLoopIndices_succ (k : Nat) (i spb : Int) :
    getBlocksLoopIndices (k + 1) i spb
      = sumLoopIndices (spb - i).toNat i ::
          getBlocksLoopIndices k (i + (spb - i).toNat) (spb + SAMPLES_PER_BLOCK) := rfl

theorem getBlocksLoopIndices_eq :
    ∀ (k : Nat) (m : Int),
      getBlocksLoopIndices k m (m + 1024)
        = (List.range k).map
            (fun (j : Nat) => (List.range 1024).map
              (fun (t : Nat) => m + 1024 * (j : Int) + (t : Int))) := by
  intro k
  induction k with
  | zero => intro m; rfl
  | succ k ih =>
    intro m
    have h1 : (m + 1024 - m).toNat = 1024 := by omega
    have h3 : m + 1024 + SAMPLES_PER_BLOCK = (m + ((1024 : Nat) : Int)) + 1024 := by
      simp only [SAMPLES_PER_BLOCK]; push_cast; rfl
    have h5 := ih (m + ((1024 : Nat) : Int))
    rw [getBlocksLoopIndices_succ]
    rw [h1]
    rw [h3]
    rw [h5]
    rw [sumLoopIndices_eq]
    rw [List.range_succ_eq_map k, List.map_cons, List.map_map]
    simp only [Nat.cast_zero, mul_zero, add_zero, List.cons.injEq, true_and]
    apply List.map_congr_left
    intro j _
    simp only [Function.comp_apply, Nat.succ_eq_add_one]
    apply List.map_congr_left
    intro t _
    push_cast
    ring

theorem getBlocksIndices_window (w : Nat) :
    getBlocksIndices (1024 + 44100 * (w : Int)) (44100 * ((w : Int) + 1))
      = (List.range BLOCKS).map (fun (j : Nat) => (List.range 1024).map
          (fun (t : Nat) => 44100 * (w : Int) + 1024 * (j : Int) + (t : Int))) := by
  have h1 : 44100 * ((w : Int) + 1) - SAMPLES_PER_SECOND = 44100 * (w : Int) := by
    simp only [SAMPLES_PER_SECOND]; ring
  have h2 : 1024 + 44100 * (w : Int) = 44100 * (w : Int) + 1024 := by ring
  show getBlocksLoopIndices BLOCKS (44100 * ((w : Int) + 1) - SAMPLES_PER_SECOND) _ = _
  rw [h1]
  rw [h2]
  rw [getBlocksLoopIndices_eq]

theorem sumLoop_eq_foldlM (a : List ℚ) : ∀ (n : Nat) (i : Int) (sum : ℚ),
    sumLoop a n i sum
      = (sumLoopIndices n i).foldlM
          (fun sum i => do let x ← readAt a i; pure (sum + x)) sum := by
  intro n
  induction n with
  | zero => intro i sum; rfl
  | succ n ih =>
    intro i sum
    simp only [sumLoop, sumLoopIndices, List.foldlM_cons, bind_assoc, pure_bind]
    congr 1
    funext x
    exact ih (i + 1) (sum + x)

/-- The block energies computed by `getBlocksLoop` are the sums read at the indices
listed by `getBlocksLoopIndices`. -/
theorem getBlocksLoop_eq_mapM (a : List ℚ) : ∀ (k : Nat) (i spb : Int),
    getBlocksLoop a k i spb = (getBlocksLoopIndices k i spb).mapM (sumOver a) := by
  intro k
  induction k with
  | zero => intro i spb; rfl
  | succ k ih =>
    intro i spb
    rw [getBlocksLoop_succ, getBlocksLoopIndices_succ, List.mapM_cons, ih, sumOver,
      sumLoop_eq_foldlM]
    rfl

/-- The block energies computed by `getBlocks` are the sums read at the indices listed by
`getBlocksIndices`. -/
theorem getBlocks_eq_mapM (a : List ℚ) (samplesPerBlock samples : Int) :
    getBlocks a samplesPerBlock samples
      = (getBlocksIndices samplesPerBlock samples).mapM (sumOver a) :=
  getBlocksLoop_eq_mapM a BLOCKS _ _

/-! ## The driver loop -/

theorem windowRest_sampleArray (s : MainState) (a ej : List ℚ) :
    (windowRest s a ej).sampleArray = a := rfl

theorem windowRest_samples (s : MainState) (a ej : List ℚ) :
    (windowRest s a ej).samples = s.samples + 44100 := rfl

theorem windowRest_samplesPerBlock (s : MainState) (a ej : List ℚ) :
    (windowRest s a ej).samplesPerBlock = s.samplesPerBlock + 44100 := rfl

theorem stateAfter_succ (input : List ℚ) (W : Nat) :
    stateAfter input (W + 1)
      = windowRest (stateAfter input W) (energized input (44100 * (W + 1)))
          (windowEnergies input W) := rfl

theorem stateAfter_samples (input : List ℚ) (W : Nat) :
    (stateAfter input W).samples = 44100 * ((W : Int) + 1) := by
  induction W with
  | zero => rfl
  | succ W ih =>
    rw [stateAfter_succ, windowRest_samples, ih]
    push_cast
    ring

theorem stateAfter_samplesPerBlock (input : List ℚ) (W : Nat) :
    (stateAfter input W).samplesPerBlock = 1024 + 44100 * (W : Int) := by
  induction W with
  | zero => rfl
  | succ W ih =>
    rw [stateAfter_succ, windowRest_samplesPerBlock, ih]
    push_cast
    ring

theorem stateAfter_sampleArray (input : List ℚ) (W : Nat) :
    (stateAfter input W).sampleArray = energized input (44100 * W) := by
  cases W with
  | zero => exact (energized_zero input).symm
  | succ W => rw [stateAfter_succ, windowRest_sampleArray]

theorem bind_ok {α β : Type} (x : α) (f : α → Except Fault β) :
    (Except.ok x >>= f) = f x := rfl

theorem windowBody_eq (s : MainState) :
    windowBody s
      = (calculateSample s.sampleArray s.samples >>= fun sampleArray =>
          getBlocks sampleArray s.samplesPerBlock s.samples >>= fun ej =>
            .ok (windowRest s sampleArray ej)) := rfl

theorem calculateSample_window (input : List ℚ) (W : Nat)
    (h : 44100 * (W + 1) ≤ input.length) :
    calculateSample (energized input (44100 * W)) (44100 * ((W : Int) + 1))
      = .ok (energized input (44100 * (W + 1))) := by
  have h1 : (44100 : Int) * ((W : Int) + 1) = ((44100 * W : Nat) : Int) + 44100 := by
    push_cast; ring
  have h2 := calculateSample_energized input (44100 * W) (by omega)
  have h3 : 44100 * W + 44100 = 44100 * (W + 1) := by ring
  rw [h3, ← h1] at h2
  exact h2

theorem windowBody_stateAfter (input : List ℚ) (W : Nat)
    (h : 44100 * (W + 1) ≤ input.length) :
    windowBody (stateAfter input W) = .ok (stateAfter input (W + 1)) := by
  have h2 := calculateSample_window input W h
  have h4 := getBlocks_energized input W h
  rw [windowBody_eq]
  rw [stateAfter_sampleArray, stateAfter_samples, stateAfter_samplesPerBlock, h2]
  rw [bind_ok, h4, bind_ok, stateAfter_succ]

theorem mainLoop_succ (n : Nat) (i : Int) (s : MainState) :
    mainLoop (n + 1) i s
      = if i = s.samples - 1 then windowBody s >>= fun s => mainLoop n (i + 1) s
        else mainLoop n (i + 1) s := rfl

theorem mainLoop_skip : ∀ (n : Nat) (i : Int) (s : MainState),
    i + n ≤ s.samples - 1 → mainLoop n i s = .ok s := by
  intro n
  induction n with
  | zero => intro i s _; rfl
  | succ n ih =>
    intro i s h
    have hne : ¬ i = s.samples - 1 := by push_cast at h; omega
    rw [mainLoop_succ, if_neg hne]
    exact ih (i + 1) s (by push_cast at h; omega)

theorem mainLoop_add : ∀ (a b : Nat) (i : Int) (s : MainState),
    mainLoop (a + b) i s = mainLoop a i s >>= fun s => mainLoop b (i + a) s := by
  intro a
  induction a with
  | zero =>
    intro b i s
    simp only [Nat.zero_add, Nat.cast_zero, add_zero]
    rfl
  | succ a ih =>
    intro b i s
    have e : a + 1 + b = (a + b) + 1 := by omega
    have ei : ∀ s, mainLoop b (i + 1 + (a : Int)) s = mainLoop b (i + ((a + 1 : Nat) : Int)) s := by
      intro s; congr 1; push_cast; ring
    rw [e, mainLoop_succ, mainLoop_succ]
    by_cases hi : i = s.samples - 1
    · rw [if_pos hi, if_pos hi]
      cases hw : windowBody s with
      | error e => rfl
      | ok s1 =>
        simp only [bind, Except.bind]
        rw [ih b (i + 1) s1]
        simp only [bind, Except.bind, ei]
    · rw [if_neg hi, if_neg hi, ih b (i + 1) s]
      simp only [bind, Except.bind, ei]

/-- From the start of window `w`, with `n` iterations left and enough samples for
`n / 44100` more windows, the driver loop ends in `stateAfter input (w + n / 44100)`. -/
theorem mainLoop_stateAfter (input : List ℚ) :
    ∀ (q w n : Nat), n / 44100 = q → 44100 * w + n ≤ input.length →
      mainLoop n (44100 * (w : Int)) (stateAfter input w)
        = .ok (stateAfter input (w + q)) := by
  intro q
  induction q with
  | zero =>
    intro w n hq _
    have hn : n < 44100 := by omega
    exact mainLoop_skip n _ _ (by rw [stateAfter_samples]; omega)
  | succ q ih =>
    intro w n hq hlen
    obtain ⟨n1, rfl⟩ : ∃ n1, n = 44099 + (n1 + 1) := ⟨n - 44100, by omega⟩
    rw [mainLoop_add, mainLoop_skip 44099 _ _ (by rw [stateAfter_samples]; push_cast; omega),
      bind_ok]
    have hi : 44100 * (w : Int) + ((44099 : Nat) : Int) = (stateAfter input w).samples - 1 := by
      rw [stateAfter_samples]; push_cast; ring
    rw [mainLoop_succ, if_pos hi, windowBody_stateAfter input w (by omega), bind_ok]
    have hi2 : 44100 * (w : Int) + ((44099 : Nat) : Int) + 1 = 44100 * ((w + 1 : Nat) : Int) := by
      push_cast; ring
    rw [hi2, ih (w + 1) n1 (by omega) (by omega)]
    have : w + 1 + q = w + (q + 1) := by omega
    rw [this]

/-- The driver loop never faults, and it ends in the closed-form state after
`totalSamples / 44100` windows. -/
theorem run_eq (input : List ℚ) :
    run input = .ok (stateAfter input (input.length / 44100)) := by
  have h := mainLoop_stateAfter input (input.length / 44100) 0 input.length rfl (by omega)
  simpa [run, stateAfter] using h

/-! ## The log of processed windows -/

theorem windowRest_log (s : MainState) (a ej : List ℚ) :
    (windowRest s a ej).log
      = s.log ++ [{ samples := s.samples, samplesPerBlock := s.samplesPerBlock, ej := ej,
                    avg := getAvg ej, variance := getVariance ej (getAvg ej),
                    c := -0.0000015 * getVariance ej (getAvg ej) + 1.5142857,
                    beats := (beatLoop ej ((-0.0000015 * getVariance ej (getAvg ej)
                      + 1.5142857) * getAvg ej) s.beats s.peak).1,
                    peak := (beatLoop ej ((-0.0000015 * getVariance ej (getAvg ej)
                      + 1.5142857) * getAvg ej) s.beats s.peak).2 }] := rfl

theorem stateAfter_log_succ (input : List ℚ) (W : Nat) :
    (stateAfter input (W + 1)).log = (stateAfter input W).log ++ [recordAfter input W] := rfl

theorem stateAfter_log (input : List ℚ) (W : Nat) :
    (stateAfter input W).log = (List.range W).map (recordAfter input) := by
  induction W with
  | zero => rfl
  | succ W ih =>
    rw [stateAfter_log_succ, ih, List.range_succ, List.map_append, List.map_singleton]

theorem stateAfter_log_length (input : List ℚ) (W : Nat) :
    (stateAfter input W).log.length = W := by
  rw [stateAfter_log, List.length_map, List.length_range]

theorem stateAfter_log_getElem? (input : List ℚ) (W w : Nat) :
    (stateAfter input W).log[w]? = if w < W then some (recordAfter input w) else none := by
  rw [stateAfter_log, List.getElem?_map]
  by_cases h : w < W
  · rw [if_pos h, List.getElem?_range h]; rfl
  · rw [if_neg h, List.getElem?_eq_none (by simpa using h)]; rfl

theorem mem_stateAfter_log (input : List ℚ) (W : Nat) (r : WindowRecord) :
    r ∈ (stateAfter input W).log ↔ ∃ w, w < W ∧ r = recordAfter input w := by
  rw [stateAfter_log, List.mem_map]
  constructor
  · rintro ⟨w, hw, rfl⟩
    exact ⟨w, List.mem_range.mp hw, rfl⟩
  · rintro ⟨w, hw, rfl⟩
    exact ⟨w, List.mem_range.mpr hw, rfl⟩

theorem recordAfter_samples (input : List ℚ) (w : Nat) :
    (recordAfter input w).samples = 44100 * ((w : Int) + 1) :=
  stateAfter_samples input w

theorem recordAfter_samplesPerBlock (input : List ℚ) (w : Nat) :
    (recordAfter input w).samplesPerBlock = 1024 + 44100 * (w : Int) :=
  stateAfter_samplesPerBlock input w

theorem recordAfter_ej (input : List ℚ) (w : Nat) :
    (recordAfter input w).ej = windowEnergies input w := rfl

theorem recordAfter_avg (input : List ℚ) (w : Nat) :
    (recordAfter input w).avg = getAvg (windowEnergies input w) := rfl

theorem recordAfter_variance (input : List ℚ) (w : Nat) :
    (recordAfter input w).variance
      = getVariance (windowEnergies input w) (getAvg (windowEnergies input w)) := rfl

theorem recordAfter_c (input : List ℚ) (w : Nat) :
    (recordAfter input w).c = -0.0000015 * (recordAfter input w).variance + 1.5142857 := rfl

theorem recordAfter_beats_peak (input : List ℚ) (w : Nat) :
    ((recordAfter input w).beats, (recordAfter input w).peak)
      = beatLoop (windowEnergies input w) ((recordAfter input w).c * (recordAfter input w).avg)
          (stateAfter input w).beats (stateAfter input w).peak := rfl

theorem stateAfter_succ_beats (input : List ℚ) (W : Nat) :
    (stateAfter input (W + 1)).beats = (recordAfter input W).beats := rfl

theorem stateAfter_succ_peak (input : List ℚ) (W : Nat) :
    (stateAfter input (W + 1)).peak = (recordAfter input W).peak := rfl

/-! ## Statistics of a constant window -/

theorem foldl_add_replicate (g : ℚ → ℚ) (e : ℚ) : ∀ (n : Nat) (init : ℚ),
    (List.replicate n e).foldl (fun acc x => acc + g x) init = init + n * g e := by
  intro n
  induction n with
  | zero => intro init; simp
  | succ n ih =>
    intro init
    rw [List.replicate_succ, List.foldl_cons, ih]
    push_cast
    ring

theorem getAvg_replicate (e : ℚ) : getAvg (List.replicate BLOCKS e) = e := by
  unfold getAvg
  rw [range_foldl_getD (fun acc x => acc + x) 0 (List.replicate BLOCKS e) BLOCKS
    (List.length_replicate _ _)]
  rw [foldl_add_replicate (fun x => x) e BLOCKS 0]
  simp only [BLOCKS]
  norm_num

theorem getVariance_replicate (e : ℚ) : getVariance (List.replicate BLOCKS e) e = 0 := by
  unfold getVariance
  rw [range_foldl_getD (fun acc x => acc + ((e - x) * (e - x)) / BLOCKS) 0
    (List.replicate BLOCKS e) BLOCKS (List.length_replicate _ _)]
  rw [foldl_add_replicate (fun x => ((e - x) * (e - x)) / BLOCKS) e BLOCKS 0]
  simp

theorem beatLoop_replicate_low (e threshold : ℚ) (beats : Int) (h : e ≤ threshold) :
    beatLoop (List.replicate BLOCKS e) threshold beats 0 = (beats, 0) := by
  rw [beatLoop_eq_foldl _ _ _ _ (List.length_replicate _ _)]
  exact foldl_beatRule_low threshold _ (fun x hx => by rw [List.eq_of_mem_replicate hx]; exact h)
    beats

/-! ## Constant input -/

theorem getD_of_const (input : List ℚ) (a : ℚ) (h : ∀ x ∈ input, x = a) (k : Nat)
    (hk : k < input.length) : input.getD k 0 = a := by
  rw [List.getD_eq_getElem?_getD, List.getElem?_eq_getElem hk]
  exact h _ (List.getElem_mem hk)

theorem energy_nonneg (x : ℚ) : 0 ≤ energy x := by
  unfold energy
  have := mul_self_nonneg x
  linarith

theorem blockEnergy_const (input : List ℚ) (a : ℚ) (h : ∀ x ∈ input, x = a) (w j : Nat)
    (hw : 44100 * (w + 1) ≤ input.length) (hj : j < 43) :
    blockEnergy input w j = 1024 * energy a := by
  unfold blockEnergy
  have hsum : ∑ t in Finset.range 1024, energy (input.getD (44100 * w + 1024 * j + t) 0)
      = ∑ _t in Finset.range 1024, energy a := by
    apply Finset.sum_congr rfl
    intro t ht
    have ht' : t < 1024 := Finset.mem_range.mp ht
    rw [getD_of_const input a h _ (by omega)]
  rw [hsum, Finset.sum_const, Finset.card_range, nsmul_eq_mul]
  norm_num

theorem windowEnergies_const (input : List ℚ) (a : ℚ) (h : ∀ x ∈ input, x = a) (w : Nat)
    (hw : 44100 * (w + 1) ≤ input.length) :
    windowEnergies input w = List.replicate BLOCKS (1024 * energy a) := by
  unfold windowEnergies
  rw [List.eq_replicate_iff]
  refine ⟨by simp, ?_⟩
  intro e he
  obtain ⟨j, hj, rfl⟩ := List.mem_map.mp he
  exact blockEnergy_const input a h w j hw (List.mem_range.mp hj)

theorem recordAfter_const (input : List ℚ) (a : ℚ) (h : ∀ x ∈ input, x = a) (w : Nat)
    (hw : 44100 * (w + 1) ≤ input.length)
    (hb : (stateAfter input w).beats = 0) (hp : (stateAfter input w).peak = 0) :
    (recordAfter input w).ej = List.replicate BLOCKS (1024 * energy a)
      ∧ (recordAfter input w).avg = 1024 * energy a
      ∧ (recordAfter input w).variance = 0
      ∧ (recordAfter input w).c = 1.5142857
      ∧ (recordAfter input w).beats = 0
      ∧ (recordAfter input w).peak = 0 := by
  have hej := windowEnergies_const input a h w hw
  have havg : (recordAfter input w).avg = 1024 * energy a := by
    rw [recordAfter_avg, hej, getAvg_replicate]
  have hvar : (recordAfter input w).variance = 0 := by
    rw [recordAfter_variance, hej, getAvg_replicate, getVariance_replicate]
  have hc : (recordAfter input w).c = 1.5142857 := by
    rw [recordAfter_c, hvar]; norm_num
  have hE : 0 ≤ 1024 * energy a := mul_nonneg (by norm_num) (energy_nonneg a)
  have hthr : 1024 * energy a ≤ (recordAfter input w).c * (recordAfter input w).avg := by
    rw [hc, havg]
    nlinarith
  have hbp := recordAfter_beats_peak input w
  rw [hej, hb, hp, beatLoop_replicate_low _ _ 0 hthr] at hbp
  have hb' : (recordAfter input w).beats = 0 := congrArg Prod.fst hbp
  have hp' : (recordAfter input w).peak = 0 := congrArg Prod.snd hbp
  exact ⟨by rw [recordAfter_ej, hej], havg, hvar, hc, hb', hp'⟩

theorem stateAfter_const (input : List ℚ) (a : ℚ) (h : ∀ x ∈ input, x = a) :
    ∀ W, 44100 * W ≤ input.length →
      (stateAfter input W).beats = 0 ∧ (stateAfter input W).peak = 0 := by
  intro W
  induction W with
  | zero => intro _; exact ⟨rfl, rfl⟩
  | succ W ih =>
    intro hW
    obtain ⟨hb, hp⟩ := ih (by omega)
    obtain ⟨_, _, _, _, hb', hp'⟩ := recordAfter_const input a h W hW hb hp
    exact ⟨by rw [stateAfter_succ_beats, hb'], by rw [stateAfter_succ_peak, hp']⟩

theorem toInt32_zero : toInt32 0 = 0 := by
  unfold toInt32
  norm_num

theorem bpmExpr_zero (totalSamples : Int) (h : totalSamples ≠ 0) :
    bpmExpr 0 totalSamples = .ok 0 := by
  unfold bpmExpr
  rw [if_neg h]
  simp only [zero_mul, toInt32_zero, Int.zero_tdiv]

theorem main_eq (input : List ℚ) :
    main input = bpmExpr (stateAfter input (input.length / 44100)).beats input.length := by
  unfold main
  rw [run_eq, bind_ok]

/-! ## The spans of indices read by `getBlocks` -/

theorem flatten_blocks (m : Int) (n : Nat) : ∀ k : Nat,
    ((List.range k).map (fun (j : Nat) => (List.range n).map
        (fun (t : Nat) => m + (n : Int) * (j : Int) + (t : Int)))).flatten
      = (List.range (n * k)).map (fun (t : Nat) => m + (t : Int)) := by
  intro k
  induction k with
  | zero => simp
  | succ k ih =>
    rw [List.range_succ, List.map_append, List.flatten_append, ih, Nat.mul_succ,
      List.range_add, List.map_append, List.map_map]
    simp only [List.map_cons, List.map_nil, List.flatten_cons, List.flatten_nil,
      List.append_nil, List.append_cancel_left_eq]
    apply List.map_congr_left
    intro t _
    simp only [Function.comp_apply]
    push_cast
    ring

theorem readSpan_recordAfter (input : List ℚ) (w : Nat) :
    readSpan (recordAfter input w)
      = (List.range 44032).map (fun (t : Nat) => 44100 * (w : Int) + (t : Int)) := by
  unfold readSpan
  rw [recordAfter_samples, recordAfter_samplesPerBlock, getBlocksIndices_window]
  have h := flatten_blocks (44100 * (w : Int)) 1024 43
  simp only [Nat.cast_ofNat] at h
  exact h

theorem mem_readSpan_recordAfter (input : List ℚ) (w : Nat) (i : Int) :
    i ∈ readSpan (recordAfter input w)
      ↔ 44100 * (w : Int) ≤ i ∧ i ≤ 44100 * (w : Int) + 44031 := by
  rw [readSpan_recordAfter, List.mem_map]
  constructor
  · rintro ⟨t, ht, rfl⟩
    have := List.mem_range.mp ht
    omega
  · intro h
    refine ⟨(i - 44100 * (w : Int)).toNat, List.mem_range.mpr (by omega), by omega⟩

theorem head?_readSpan_recordAfter (input : List ℚ) (w : Nat) :
    (readSpan (recordAfter input w)).head? = some (44100 * (w : Int)) := by
  rw [readSpan_recordAfter, List.head?_map, List.head?_range]
  simp

theorem getLast?_readSpan_recordAfter (input : List ℚ) (w : Nat) :
    (readSpan (recordAfter input w)).getLast? = some (44100 * (w : Int) + 44031) := by
  rw [readSpan_recordAfter, List.getLast?_eq_getElem?, List.getElem?_map, List.length_map,
    List.length_range, List.getElem?_range (by norm_num)]
  simp

/-- The array computed by `calculateSampleLoop` is the result of reading and writing at
the indices listed by `sumLoopIndices`. -/
theorem calculateSampleLoop_eq_foldlM : ∀ (n : Nat) (i : Int) (a : List ℚ),
    calculateSampleLoop n i a
      = (sumLoopIndices n i).foldlM
          (fun a i => do let x ← readAt a i; writeAt a i ((x * x) * 2)) a := by
  intro n
  induction n with
  | zero => intro i a; rfl
  | succ n ih =>
    intro i a
    simp only [calculateSampleLoop, sumLoopIndices, List.foldlM_cons, bind_assoc]
    apply bind_congr
    intro x
    apply bind_congr
    intro b
    exact ih (i + 1) b

/-- The array computed by `calculateSample` is the result of reading and writing at the
indices listed by `calculateSampleIndices`. -/
theorem calculateSample_eq_foldlM (a : List ℚ) (samples : Int) :
    calculateSample a samples
      = (calculateSampleIndices samples).foldlM
          (fun a i => do let x ← readAt a i; writeAt a i ((x * x) * 2)) a :=
  calculateSampleLoop_eq_foldlM _ _ a

theorem mem_calculateSampleIndices (samples i : Int) :
    i ∈ calculateSampleIndices samples ↔ samples - 44100 ≤ i ∧ i < samples := by
  have h2 : (samples - (samples - SAMPLES_PER_SECOND)).toNat = 44100 := by
    simp only [SAMPLES_PER_SECOND]; omega
  show i ∈ sumLoopIndices (samples - (samples - SAMPLES_PER_SECOND)).toNat
    (samples - SAMPLES_PER_SECOND) ↔ _
  rw [h2, sumLoopIndices_eq, List.mem_map]
  simp only [SAMPLES_PER_SECOND]
  constructor
  · rintro ⟨t, ht, rfl⟩
    have := List.mem_range.mp ht
    omega
  · intro h
    exact ⟨(i - (samples - 44100)).toNat, List.mem_range.mpr (by omega), by omega⟩

theorem mem_getBlocksIndices_flatten (r : WindowRecord) (i : Int) :
    (∃ blk ∈ getBlocksIndices r.samplesPerBlock r.samples, i ∈ blk) ↔ i ∈ readSpan r := by
  unfold readSpan
  rw [List.mem_flatten]

theorem window_le_length (input : List ℚ) (w : Nat) (hw : w < input.length / 44100) :
    44100 * (w + 1) ≤ input.length := by
  have : 44100 * (w + 1) ≤ 44100 * (input.length / 44100) := Nat.mul_le_mul_left _ hw
  have := Nat.mul_div_le input.length 44100
  omega

/-! ## Claim C1: debounce -/

/-- Claim C1 (BeatCounter debounce).  For every threshold, if a 43-entry window of block
energies consists of `n` entries `≤ threshold` followed by `k` entries `> threshold`
(`n + k = 43`), the beat loop started with `peak = 0` adds exactly `k / 4` beats and
leaves `peak = k % 4`.  In particular 39 low entries followed by 4 high entries add
exactly one beat, and 35 low entries followed by 8 high entries add exactly two. -/
theorem beatLoop_debounce (threshold : ℚ) (beats : Int) (lows highs : List ℚ) (low high : ℚ)
    (hlen : lows.length + highs.length = 43)
    (hlow : ∀ e ∈ lows, e ≤ threshold) (hhigh : ∀ e ∈ highs, e > threshold)
    (hl : low ≤ threshold) (hh : high > threshold) :
    beatLoop (lows ++ highs) threshold beats 0
        = (beats + (highs.length : Int) / 4, (highs.length : Int) % 4)
      ∧ beatLoop (List.replicate 39 low ++ List.replicate 4 high) threshold beats 0
        = (beats + 1, 0)
      ∧ beatLoop (List.replicate 35 low ++ List.replicate 8 high) threshold beats 0
        = (beats + 2, 0) := by
  refine ⟨beatLoop_low_high threshold lows highs beats hlen hlow hhigh, ?_, ?_⟩
  · have h := beatLoop_low_high threshold (List.replicate 39 low) (List.replicate 4 high)
      beats (by simp) (fun e he => by rw [List.eq_of_mem_replicate he]; exact hl)
      (fun e he => by rw [List.eq_of_mem_replicate he]; exact hh)
    simpa using h
  · have h := beatLoop_low_high threshold (List.replicate 35 low) (List.replicate 8 high)
      beats (by simp) (fun e he => by rw [List.eq_of_mem_replicate he]; exact hl)
      (fun e he => by rw [List.eq_of_mem_replicate he]; exact hh)
    simpa using h

/-- Witness for C1: threshold 1, a window of 40 entries 0 followed by 3 entries 5 (and
the two example windows with low 0 and high 5). -/
theorem beatLoop_debounce_witness :
    beatLoop (List.replicate 40 0 ++ List.replicate 3 5) 1 7 0 = (7, 3)
      ∧ beatLoop (List.replicate 39 0 ++ List.replicate 4 5) 1 7 0 = (8, 0)
      ∧ beatLoop (List.replicate 35 0 ++ List.replicate 8 5) 1 7 0 = (9, 0) := by
  have h := beatLoop_debounce 1 7 (List.replicate 40 0) (List.replicate 3 5) 0 5
    (by simp) (fun e he => by rw [List.eq_of_mem_replicate he]; norm_num)
    (fun e he => by rw [List.eq_of_mem_replicate he]; norm_num) (by norm_num) (by norm_num)
  simpa using h

/-! ## Claim C2: the BPM expression -/

/-- When the product `beats * 44100 * 60` fits in an `int`, the BPM expression is the
floor of the exact quotient. -/
theorem bpmExpr_small (beats totalSamples : Int) (hb : 0 ≤ beats)
    (hfit : beats * 44100 * 60 < 2147483648) (ht : 0 < totalSamples) :
    bpmExpr beats totalSamples = .ok (beats * 44100 * 60 / totalSamples) := by
  have hprod : 0 ≤ beats * 44100 * 60 := by positivity
  have h1 : toInt32 (beats * 44100 * 60) = beats * 44100 * 60 := by
    unfold toInt32; omega
  have h2 : Int.tdiv (beats * 44100 * 60) totalSamples = beats * 44100 * 60 / totalSamples :=
    Int.tdiv_eq_ediv hprod ht.le
  have h3 : 0 ≤ beats * 44100 * 60 / totalSamples := Int.ediv_nonneg hprod ht.le
  have h4 : beats * 44100 * 60 / totalSamples ≤ beats * 44100 * 60 :=
    Int.ediv_le_self _ hprod
  have h5 : toInt32 (beats * 44100 * 60 / totalSamples) = beats * 44100 * 60 / totalSamples := by
    unfold toInt32; omega
  unfold bpmExpr
  rw [if_neg ht.ne']
  simp only [SAMPLES_PER_SECOND]
  rw [h1, h2, h5]

/-- With 817 beats over 76 seconds (`totalSamples = 3351600`) the product
`817 * 44100 * 60 = 2161782000` does not fit in an `int`: the expression evaluates
to -636, while the floor of the exact quotient is 645. -/
theorem bpmExpr_overflow :
    bpmExpr 817 3351600 = .ok (-636)
      ∧ (817 : Int) * 44100 * 60 / 3351600 = 645
      ∧ toInt32 (817 * 44100 * 60) = -2133185296 := by
  refine ⟨?_, by norm_num, ?_⟩
  · rfl
  · rfl

/-! ### A saturated detector: the pulse signal -/

theorem beatLoop_all_high (ej : List ℚ) (threshold : ℚ) (beats peak : Int)
    (hlen : ej.length = BLOCKS) (hhigh : ∀ e ∈ ej, e > threshold)
    (h0 : 0 ≤ peak) (h4 : peak < 4) :
    beatLoop ej threshold beats peak = (beats + (peak + 43) / 4, (peak + 43) % 4) := by
  rw [beatLoop_eq_foldl _ _ _ _ hlen, foldl_beatRule_high threshold ej hhigh beats peak h0 h4,
    hlen]
  rfl

theorem pulseInput_length (seconds : Nat) : (pulseInput seconds).length = 44100 * seconds := by
  unfold pulseInput
  rw [List.length_map, List.length_range]

theorem pulseInput_getD (seconds k : Nat) (hk : k < 44100 * seconds) :
    (pulseInput seconds).getD k 0 = if k % 44100 < 1024 then 2 else 0 := by
  unfold pulseInput
  rw [List.getD_eq_getElem?_getD, List.getElem?_map, List.getElem?_range hk,
    Option.map_some', Option.getD_some]

theorem blockEnergy_pulse (seconds w j : Nat) (hw : w < seconds) (hj : j < 43) :
    blockEnergy (pulseInput seconds) w j = if j = 0 then 8192 else 0 := by
  unfold blockEnergy
  have hsum : ∑ t in Finset.range 1024,
        energy ((pulseInput seconds).getD (44100 * w + 1024 * j + t) 0)
      = ∑ _t in Finset.range 1024, (if j = 0 then (8 : ℚ) else 0) := by
    apply Finset.sum_congr rfl
    intro t ht
    have ht' : t < 1024 := Finset.mem_range.mp ht
    have hlt : 44100 * w + 1024 * j + t < 44100 * seconds := by
      have : 44100 * (w + 1) ≤ 44100 * seconds := Nat.mul_le_mul_left _ hw
      omega
    have hmod : (44100 * w + 1024 * j + t) % 44100 = 1024 * j + t := by omega
    rw [pulseInput_getD seconds _ hlt, hmod]
    by_cases hj0 : j = 0
    · subst hj0
      rw [if_pos (by omega), if_pos rfl]
      unfold energy; norm_num
    · rw [if_neg (by omega), if_neg hj0, energy_zero]
  rw [hsum, Finset.sum_const, Finset.card_range, nsmul_eq_mul]
  by_cases hj0 : j = 0
  · rw [if_pos hj0, if_pos hj0]; norm_num
  · rw [if_neg hj0, if_neg hj0, mul_zero]

theorem windowEnergies_pulse (seconds w : Nat) (hw : w < seconds) :
    windowEnergies (pulseInput seconds) w = 8192 :: List.replicate 42 0 := by
  unfold windowEnergies
  have h1 : (List.range BLOCKS).map (blockEnergy (pulseInput seconds) w)
      = (List.range BLOCKS).map (fun j => if j = 0 then (8192 : ℚ) else 0) := by
    apply List.map_congr_left
    intro j hj
    exact blockEnergy_pulse seconds w j hw (List.mem_range.mp hj)
  rw [h1]
  rfl

theorem getAvg_pulse : getAvg (8192 :: List.replicate 42 0) = 8192 / 43 := by
  unfold getAvg
  rw [range_foldl_getD (fun acc x => acc + x) 0 (8192 :: List.replicate 42 0) BLOCKS
    (by rw [List.length_cons, List.length_replicate]), List.foldl_cons,
    foldl_add_replicate (fun x => x) 0 42]
  norm_num

theorem getVariance_pulse :
    getVariance (8192 :: List.replicate 42 0) (8192 / 43) = 2818572288 / 1849 := by
  unfold getVariance
  rw [range_foldl_getD (fun acc x => acc + ((8192 / 43 - x) * (8192 / 43 - x)) / BLOCKS) 0
    (8192 :: List.replicate 42 0) BLOCKS
    (by rw [List.length_cons, List.length_replicate]), List.foldl_cons,
    foldl_add_replicate (fun x => ((8192 / 43 - x) * (8192 / 43 - x)) / BLOCKS) 0 42]
  norm_num

theorem recordAfter_pulse (seconds w : Nat) (hw : w < seconds)
    (h0 : 0 ≤ (stateAfter (pulseInput seconds) w).peak)
    (h4 : (stateAfter (pulseInput seconds) w).peak < 4) :
    (recordAfter (pulseInput seconds) w).c * (recordAfter (pulseInput seconds) w).avg < 0
      ∧ (recordAfter (pulseInput seconds) w).beats
          = (stateAfter (pulseInput seconds) w).beats
            + ((stateAfter (pulseInput seconds) w).peak + 43) / 4
      ∧ (recordAfter (pulseInput seconds) w).peak
          = ((stateAfter (pulseInput seconds) w).peak + 43) % 4 := by
  have hej := windowEnergies_pulse seconds w hw
  have havg : (recordAfter (pulseInput seconds) w).avg = 8192 / 43 := by
    rw [recordAfter_avg, hej, getAvg_pulse]
  have hvar : (recordAfter (pulseInput seconds) w).variance = 2818572288 / 1849 := by
    rw [recordAfter_variance, hej, getAvg_pulse, getVariance_pulse]
  have hthr : (recordAfter (pulseInput seconds) w).c * (recordAfter (pulseInput seconds) w).avg
      < 0 := by
    rw [recordAfter_c, hvar, havg]; norm_num
  have hhigh : ∀ e ∈ (8192 :: List.replicate 42 (0 : ℚ)),
      e > (recordAfter (pulseInput seconds) w).c * (recordAfter (pulseInput seconds) w).avg := by
    intro e he
    rcases List.mem_cons.mp he with rfl | he'
    · exact lt_trans hthr (by norm_num)
    · rw [List.eq_of_mem_replicate he']; exact hthr
  have hbp := recordAfter_beats_peak (pulseInput seconds) w
  rw [hej, beatLoop_all_high _ _ _ _ (by rw [List.length_cons, List.length_replicate]) hhigh
    h0 h4] at hbp
  exact ⟨hthr, congrArg Prod.fst hbp, congrArg Prod.snd hbp⟩

theorem stateAfter_pulse (seconds : Nat) : ∀ W, W ≤ seconds →
    (stateAfter (pulseInput seconds) W).beats = 43 * (W : Int) / 4
      ∧ (stateAfter (pulseInput seconds) W).peak = 43 * (W : Int) % 4 := by
  intro W
  induction W with
  | zero => intro _; exact ⟨rfl, rfl⟩
  | succ W ih =>
    intro hW
    obtain ⟨hb, hp⟩ := ih (by omega)
    obtain ⟨_, hb', hp'⟩ := recordAfter_pulse seconds W (by omega)
      (by rw [hp]; omega) (by rw [hp]; omega)
    rw [stateAfter_succ_beats, stateAfter_succ_peak, hb', hp', hb, hp]
    push_cast
    constructor <;> omega

/-- Claim C2, at a failing input.  On 76 seconds of the pulse signal
(`totalSamples = 3351600`) the driver counts 817 beats; the product
`817 * 44100 * 60 = 2161782000` does not fit in an `int` and is narrowed to -2133185296,
so the program stores -636 in `bpm`, while the floor of the exact quotient
`beats * 44100 * 60 / totalSamples` is 645. -/
theorem bpm_formula_overflow :
    (pulseInput 76).length = 3351600
      ∧ (∃ s, run (pulseInput 76) = .ok s ∧ s.beats = 817)
      ∧ main (pulseInput 76) = .ok (-636)
      ∧ toInt32 (817 * SAMPLES_PER_SECOND * 60) = -2133185296
      ∧ (817 : Int) * SAMPLES_PER_SECOND * 60 / 3351600 = 645 := by
  have hlen : (pulseInput 76).length = 3351600 := by rw [pulseInput_length]
  have hW : (pulseInput 76).length / 44100 = 76 := by rw [hlen]
  have hb : (stateAfter (pulseInput 76) 76).beats = 817 := by
    rw [(stateAfter_pulse 76 76 (le_refl _)).1]; norm_num
  refine ⟨hlen, ⟨stateAfter (pulseInput 76) 76, ?_, hb⟩, ?_, rfl, by norm_num⟩
  · have h := run_eq (pulseInput 76)
    rw [hW] at h
    exact h
  · rw [main_eq, hW, hb, hlen]
    rfl

/-! ## Claim C3: empty input -/

/-- Counterexample to claim C3 as stated: on the empty sample sequence the program does
not reject the input; the driver loop ends normally and the final expression is
evaluated with `totalSamples = 0`, which is the division fault. -/
theorem empty_input_not_rejected :
    run [] = .ok (initialState [])
      ∧ bpmExpr (initialState []).beats 0 = .error .divisionByZero
      ∧ main [] = .error .divisionByZero :=
  ⟨rfl, rfl, rfl⟩

/-- Claim C3, amended.  When the sample sequence has length 0, the program makes no
check of the input: the driver loop runs no iteration, the final division by
`totalSamples = 0` is evaluated (a division fault, undefined behaviour in C), and no BPM
value is produced. -/
theorem empty_input_division_fault (input : List ℚ) (h : input.length = 0) :
    run input = .ok (initialState input)
      ∧ main input = .error .divisionByZero
      ∧ ¬ ∃ bpm, main input = .ok bpm := by
  have hnil : input = [] := List.length_eq_zero.mp h
  subst hnil
  refine ⟨rfl, rfl, ?_⟩
  rintro ⟨bpm, hb⟩
  have : (Except.error Fault.divisionByZero : Except Fault Int) = .ok bpm := hb
  cases this

/-- Witness for the amended C3: the empty sequence. -/
theorem empty_input_division_fault_witness :
    ([] : List ℚ).length = 0 ∧ main [] = .error .divisionByZero :=
  ⟨rfl, (empty_input_division_fault [] rfl).2.1⟩

/-! ## Claims C4 and C6: zero input and one second of ones -/

theorem constant_run (a : ℚ) (input : List ℚ) (hconst : ∀ x ∈ input, x = a) :
    ∃ s, run input = .ok s
      ∧ s.log.length = input.length / 44100
      ∧ (∀ r ∈ s.log,
          r.ej = List.replicate 43 (1024 * energy a)
          ∧ r.avg = getAvg r.ej ∧ r.avg = 1024 * energy a
          ∧ r.variance = getVariance r.ej r.avg ∧ r.variance = 0
          ∧ r.c = 1.5142857)
      ∧ s.beats = 0 := by
  have hW : 44100 * (input.length / 44100) ≤ input.length := Nat.mul_div_le _ _
  refine ⟨stateAfter input (input.length / 44100), run_eq input,
    stateAfter_log_length input _, ?_, (stateAfter_const input a hconst _ hW).1⟩
  intro r hr
  obtain ⟨w, hw, rfl⟩ := (mem_stateAfter_log input _ r).mp hr
  have hw' : 44100 * (w + 1) ≤ input.length := by
    have : 44100 * (w + 1) ≤ 44100 * (input.length / 44100) := Nat.mul_le_mul_left _ hw
    omega
  obtain ⟨hb, hp⟩ := stateAfter_const input a hconst w (by omega)
  obtain ⟨hej, havg, hvar, hc, _, _⟩ := recordAfter_const input a hconst w hw' hb hp
  exact ⟨hej, rfl, havg, rfl, hvar, hc⟩

/-- Claim C4 (all-zero input).  For every sample sequence of positive length whose
samples are all 0, the driver runs without fault and in every window it processes the
43 block energies are 0, `getAvg` returns 0, `getVariance` returns 0, the threshold
`c * avg` is 0 and no block energy is strictly above it; the final beat count is 0 and
the BPM is 0. -/
theorem all_zero_input (input : List ℚ) (hpos : 0 < input.length)
    (hzero : ∀ x ∈ input, x = 0) :
    ∃ s, run input = .ok s
      ∧ s.log.length = input.length / 44100
      ∧ (∀ r ∈ s.log,
          r.ej = List.replicate 43 0
          ∧ getAvg r.ej = 0 ∧ r.avg = 0
          ∧ getVariance r.ej r.avg = 0 ∧ r.variance = 0
          ∧ r.c * r.avg = 0
          ∧ ∀ e ∈ r.ej, ¬ e > r.c * r.avg)
      ∧ s.beats = 0
      ∧ main input = .ok 0 := by
  obtain ⟨s, hrun, hlen, hrec, hbeats⟩ := constant_run 0 input hzero
  have hmain : main input = .ok 0 := by
    have hs : stateAfter input (input.length / 44100) = s := by
      have := (run_eq input).symm.trans hrun
      exact Except.ok.inj this
    rw [main_eq, hs, hbeats]
    exact bpmExpr_zero _ (by exact_mod_cast hpos.ne')
  refine ⟨s, hrun, hlen, ?_, hbeats, hmain⟩
  intro r hr
  obtain ⟨hej, havg, havg0, hvar, hvar0, _⟩ := hrec r hr
  have hE : (1024 : ℚ) * energy 0 = 0 := by rw [energy_zero, mul_zero]
  rw [hE] at hej havg0
  refine ⟨hej, by rw [← havg, havg0], havg0, by rw [← hvar, hvar0], hvar0,
    by rw [havg0, mul_zero], ?_⟩
  intro e he
  rw [hej] at he
  rw [List.eq_of_mem_replicate he, havg0, mul_zero]
  exact lt_irrefl 0

/-- Witness for C4: two seconds of silence. -/
theorem all_zero_input_witness :
    (0 < (List.replicate 88200 (0 : ℚ)).length ∧ ∀ x ∈ List.replicate 88200 (0 : ℚ), x = 0)
      ∧ main (List.replicate 88200 0) = .ok 0 := by
  have h1 : 0 < (List.replicate 88200 (0 : ℚ)).length := by
    rw [List.length_replicate]; norm_num
  have h2 : ∀ x ∈ List.replicate 88200 (0 : ℚ), x = 0 := fun x hx => List.eq_of_mem_replicate hx
  obtain ⟨s, _, _, _, _, hmain⟩ := all_zero_input (List.replicate 88200 0) h1 h2
  exact ⟨⟨h1, h2⟩, hmain⟩

theorem energy_one : energy 1 = 2 := by
  unfold energy; norm_num

theorem energized_replicate_all (n : Nat) (a : ℚ) :
    energized (List.replicate n a) n = List.replicate n (energy a) := by
  unfold energized
  rw [List.take_replicate, List.drop_replicate, Nat.min_self, Nat.sub_self,
    List.map_replicate, List.replicate_zero, List.append_nil]

/-- Claim C6 (boundary scenario).  For the input of exactly 44100 samples all equal to 1:
`calculateSample` turns every sample into 2; `getBlocks` yields 2048 for each of the 43
blocks; the driver processes exactly one window, in which `getAvg` returns 2048 and
`getVariance` returns 0; the beat count is 0 and the final BPM is 0. -/
theorem one_second_of_ones :
    calculateSample (List.replicate 44100 1) 44100 = .ok (List.replicate 44100 2)
      ∧ getBlocks (List.replicate 44100 2) 1024 44100 = .ok (List.replicate 43 2048)
      ∧ ∃ s r, run (List.replicate 44100 1) = .ok s
          ∧ s.log = [r]
          ∧ s.sampleArray = List.replicate 44100 2
          ∧ r.samples = 44100 ∧ r.samplesPerBlock = 1024
          ∧ r.ej = List.replicate 43 2048
          ∧ getAvg r.ej = 2048 ∧ r.avg = 2048
          ∧ getVariance r.ej r.avg = 0 ∧ r.variance = 0
          ∧ s.beats = 0
          ∧ main (List.replicate 44100 1) = .ok 0 := by
  have hlen : (List.replicate 44100 (1 : ℚ)).length = 44100 := List.length_replicate _ _
  have hW : (List.replicate 44100 (1 : ℚ)).length / 44100 = 1 := by rw [hlen]
  have hconst : ∀ x ∈ List.replicate 44100 (1 : ℚ), x = 1 :=
    fun x hx => List.eq_of_mem_replicate hx
  have hen : energized (List.replicate 44100 (1 : ℚ)) 44100 = List.replicate 44100 2 := by
    rw [energized_replicate_all, energy_one]
  have hE : (1024 : ℚ) * energy 1 = 2048 := by rw [energy_one]; norm_num
  have hcs : calculateSample (List.replicate 44100 1) 44100 = .ok (List.replicate 44100 2) := by
    have h := calculateSample_window (List.replicate 44100 1) 0 (by rw [hlen])
    rw [Nat.mul_zero, energized_zero, Nat.zero_add, Nat.mul_one, hen] at h
    have e : (44100 : Int) * (((0 : Nat) : Int) + 1) = 44100 := by norm_num
    rw [e] at h
    exact h
  have hej : windowEnergies (List.replicate 44100 1) 0 = List.replicate 43 2048 := by
    rw [windowEnergies_const _ 1 hconst 0 (by rw [hlen]), hE]
  have hgb : getBlocks (List.replicate 44100 2) 1024 44100 = .ok (List.replicate 43 2048) := by
    have h := getBlocks_energized (List.replicate 44100 1) 0 (by rw [hlen])
    rw [Nat.zero_add, Nat.mul_one, hen, hej] at h
    have e1 : (1024 : Int) + 44100 * ((0 : Nat) : Int) = 1024 := by norm_num
    have e2 : (44100 : Int) * (((0 : Nat) : Int) + 1) = 44100 := by norm_num
    rw [e1, e2] at h
    exact h
  refine ⟨hcs, hgb, stateAfter (List.replicate 44100 1) 1,
    recordAfter (List.replicate 44100 1) 0, ?_, ?_, ?_, ?_, ?_, ?_⟩
  · have h := run_eq (List.replicate 44100 1)
    rw [hW] at h
    exact h
  · rw [stateAfter_log]; rfl
  · rw [stateAfter_sampleArray, Nat.mul_one, hen]
  · rw [recordAfter_samples]; norm_num
  · rw [recordAfter_samplesPerBlock]; norm_num
  · obtain ⟨h1, h2, h3, _, h5, _⟩ := recordAfter_const (List.replicate 44100 1) 1 hconst 0
      (by rw [hlen]) rfl rfl
    rw [hE] at h1 h2
    refine ⟨h1, ?_, h2, ?_, h3, ?_, ?_⟩
    · rw [h1]; exact getAvg_replicate 2048
    · rw [h1, h2]; exact getVariance_replicate 2048
    · rw [stateAfter_succ_beats, h5]
    · rw [main_eq, hW, stateAfter_succ_beats, h5]
      exact bpmExpr_zero _ (by rw [hlen]; norm_num)

/-! ## Claim C7: bounds of the array accesses -/

/-- Claim C7 (aggregator bounds).  For every sample sequence the driver runs without an
out-of-range access (every read and write of `sampleArray` is checked in the model), and
in every window it processes, every index read by `getBlocks` and every index written by
`calculateSample` lies in `0 .. totalSamples - 1`. -/
theorem accesses_in_bounds (input : List ℚ) :
    ∃ s, run input = .ok s
      ∧ s.sampleArray.length = input.length
      ∧ s.log.length = input.length / 44100
      ∧ ∀ r ∈ s.log,
          (∀ blk ∈ getBlocksIndices r.samplesPerBlock r.samples, ∀ i ∈ blk,
              0 ≤ i ∧ i ≤ (input.length : Int) - 1)
          ∧ (∀ i ∈ calculateSampleIndices r.samples,
              0 ≤ i ∧ i ≤ (input.length : Int) - 1) := by
  refine ⟨stateAfter input (input.length / 44100), run_eq input, ?_,
    stateAfter_log_length input _, ?_⟩
  · rw [stateAfter_sampleArray, energized_length]
  · intro r hr
    obtain ⟨w, hw, rfl⟩ := (mem_stateAfter_log input _ r).mp hr
    have hlen := window_le_length input w hw
    constructor
    · intro blk hblk i hi
      have hmem := (mem_getBlocksIndices_flatten (recordAfter input w) i).mp ⟨blk, hblk, hi⟩
      rw [mem_readSpan_recordAfter] at hmem
      omega
    · intro i hi
      rw [mem_calculateSampleIndices, recordAfter_samples] at hi
      omega

/-! ## Claim C8: block layout -/

theorem two_seconds_length : (List.replicate 88200 (0 : ℚ)).length / 44100 = 2 := by
  rw [List.length_replicate]

theorem two_seconds_log :
    (stateAfter (List.replicate 88200 0) 2).log
      = [recordAfter (List.replicate 88200 0) 0, recordAfter (List.replicate 88200 0) 1] := by
  rw [stateAfter_log]; rfl

/-- Counterexample to claim C9 as stated: on two seconds of samples the driver processes
two windows; the last index read in window 0 is 44031 and the first index read in
window 1 is 44100, which is not one past 44031. -/
theorem block_pointer_continuation_fails :
    ∃ s r0 r1 first last, run (List.replicate 88200 0) = .ok s
      ∧ s.log = [r0, r1]
      ∧ (readSpan r0).getLast? = some last
      ∧ (readSpan r1).head? = some first
      ∧ first ≠ last + 1 := by
  refine ⟨stateAfter (List.replicate 88200 0) 2, recordAfter (List.replicate 88200 0) 0,
    recordAfter (List.replicate 88200 0) 1, 44100 * ((1 : Nat) : Int),
    44100 * ((0 : Nat) : Int) + 44031, ?_, two_seconds_log,
    getLast?_readSpan_recordAfter _ 0, head?_readSpan_recordAfter _ 1, by norm_num⟩
  have h := run_eq (List.replicate 88200 0)
  rw [two_seconds_length] at h
  exact h

/-- Claim C9, amended.  For every two consecutive windows `w` and `w + 1` processed by
the driver, the first index read by `getBlocks` in window `w + 1` is the nominal start
`44100 * (w + 1)` of that window; the last index read in window `w` is
`44100 * w + 44031`, so the first index of window `w + 1` is 68 more than one past the
last index of window `w`: the pointer restarts at `samples - SAMPLES_PER_SECOND` in every
call. -/
theorem block_pointer_restart (input : List ℚ) :
    ∃ s, run input = .ok s
      ∧ s.log.length = input.length / 44100
      ∧ ∀ (w : Nat) (r0 r1 : WindowRecord), s.log[w]? = some r0 → s.log[w + 1]? = some r1 →
          ∃ first last, (readSpan r0).getLast? = some last
            ∧ (readSpan r1).head? = some first
            ∧ first = SAMPLES_PER_SECOND * ((w : Int) + 1)
            ∧ first = (last + 1) + 68 := by
  refine ⟨stateAfter input (input.length / 44100), run_eq input,
    stateAfter_log_length input _, ?_⟩
  intro w r0 r1 h0 h1
  rw [stateAfter_log_getElem?] at h0 h1
  by_cases hw : w + 1 < input.length / 44100
  · rw [if_pos (by omega)] at h0
    rw [if_pos hw] at h1
    have e0 : r0 = recordAfter input w := (Option.some.inj h0).symm
    have e1 : r1 = recordAfter input (w + 1) := (Option.some.inj h1).symm
    subst e0 e1
    refine ⟨44100 * ((w + 1 : Nat) : Int), 44100 * (w : Int) + 44031,
      getLast?_readSpan_recordAfter _ w, head?_readSpan_recordAfter _ (w + 1), ?_, ?_⟩
    · simp only [SAMPLES_PER_SECOND]; push_cast; ring
    · push_cast; ring
  · rw [if_neg hw] at h1
    exact absurd h1 (by simp)

/-- Counterexample to claim C10 as stated: on two seconds of samples the number of
indices skipped between the span of window 0 (last index 44031) and the span of window 1
(first index 44100) is 68, which is not at most `43 * 1024 - 44100 = -68`. -/
theorem skipped_indices_exceed_stated_bound :
    ∃ s r0 r1 first last, run (List.replicate 88200 0) = .ok s
      ∧ s.log = [r0, r1]
      ∧ (readSpan r0).getLast? = some last
      ∧ (readSpan r1).head? = some first
      ∧ ¬ (first - (last + 1) ≤ (BLOCKS : Int) * SAMPLES_PER_BLOCK - SAMPLES_PER_SECOND) := by
  refine ⟨stateAfter (List.replicate 88200 0) 2, recordAfter (List.replicate 88200 0) 0,
    recordAfter (List.replicate 88200 0) 1, 44100 * ((1 : Nat) : Int),
    44100 * ((0 : Nat) : Int) + 44031, ?_, two_seconds_log,
    getLast?_readSpan_recordAfter _ 0, head?_readSpan_recordAfter _ 1, by norm_num⟩
  have h := run_eq (List.replicate 88200 0)
  rw [two_seconds_length] at h
  exact h

/-- Claim C10, amended.  For every two consecutive windows `w` and `w + 1` processed by
the driver, the span of indices read by `getBlocks` in window `w + 1` does not overlap
the span read in window `w` (every index of window `w` is smaller than every index of
window `w + 1`), and the number of indices skipped between the two spans is at most
`SAMPLES_PER_SECOND - BLOCKS * SAMPLES_PER_BLOCK = 44100 - 43 * 1024 = 68`; it is
exactly 68. -/
theorem spans_disjoint_gap (input : List ℚ) :
    ∃ s, run input = .ok s
      ∧ s.log.length = input.length / 44100
      ∧ ∀ (w : Nat) (r0 r1 : WindowRecord), s.log[w]? = some r0 → s.log[w + 1]? = some r1 →
          (∀ i ∈ readSpan r0, ∀ k ∈ readSpan r1, i < k)
          ∧ ∃ first last, (readSpan r0).getLast? = some last
              ∧ (readSpan r1).head? = some first
              ∧ first - (last + 1) ≤ SAMPLES_PER_SECOND - (BLOCKS : Int) * SAMPLES_PER_BLOCK
              ∧ first - (last + 1) = 68 := by
  refine ⟨stateAfter input (input.length / 44100), run_eq input,
    stateAfter_log_length input _, ?_⟩
  intro w r0 r1 h0 h1
  rw [stateAfter_log_getElem?] at h0 h1
  by_cases hw : w + 1 < input.length / 44100
  · rw [if_pos (by omega)] at h0
    rw [if_pos hw] at h1
    have e0 : r0 = recordAfter input w := (Option.some.inj h0).symm
    have e1 : r1 = recordAfter input (w + 1) := (Option.some.inj h1).symm
    subst e0 e1
    constructor
    · intro i hi k hk
      rw [mem_readSpan_recordAfter] at hi hk
      push_cast at hk
      omega
    · refine ⟨44100 * ((w + 1 : Nat) : Int), 44100 * (w : Int) + 44031,
        getLast?_readSpan_recordAfter _ w, head?_readSpan_recordAfter _ (w + 1), ?_, ?_⟩
      · simp only [SAMPLES_PER_SECOND, SAMPLES_PER_BLOCK, BLOCKS]; push_cast; omega
      · push_cast; ring
  · rw [if_neg hw] at h1
    exact absurd h1 (by simp)

/-! ## Mean and variance as sums -/

theorem foldl_add_map (g : ℚ → ℚ) : ∀ (l : List ℚ) (init : ℚ),
    l.foldl (fun acc x => acc + g x) init = init + (l.map g).sum := by
  intro l
  induction l with
  | nil => intro init; simp
  | cons x t ih =>
    intro init
    rw [List.foldl_cons, ih, List.map_cons, List.sum_cons]
    ring

theorem sum_map_div (g : ℚ → ℚ) (c : ℚ) : ∀ l : List ℚ,
    (l.map (fun x => g x / c)).sum = (l.map g).sum / c := by
  intro l
  induction l with
  | nil => simp
  | cons x t ih =>
    rw [List.map_cons, List.sum_cons, ih, List.map_cons, List.sum_cons]
    ring

theorem sum_map_range (f : Nat → ℚ) : ∀ n : Nat,
    ((List.range n).map f).sum = ∑ i in Finset.range n, f i := by
  intro n
  induction n with
  | zero => simp
  | succ n ih =>
    rw [List.range_succ, List.map_append, List.sum_append, ih, Finset.sum_range_succ]
    simp

theorem getAvg_eq_sum (v : List ℚ) (h : v.length = BLOCKS) : getAvg v = v.sum / 43 := by
  unfold getAvg
  rw [range_foldl_getD (fun acc x => acc + x) 0 v BLOCKS h, foldl_add_map (fun x => x) v 0,
    List.map_id', zero_add]
  norm_num

theorem getVariance_eq_sum (v : List ℚ) (m : ℚ) (h : v.length = BLOCKS) :
    getVariance v m = (v.map (fun x => (m - x) * (m - x))).sum / 43 := by
  unfold getVariance
  rw [range_foldl_getD (fun acc x => acc + ((m - x) * (m - x)) / BLOCKS) 0 v BLOCKS h,
    foldl_add_map (fun x => ((m - x) * (m - x)) / BLOCKS) v 0, zero_add,
    sum_map_div (fun x => (m - x) * (m - x)) BLOCKS v]
  norm_num

/-! ## The beat state at the start of a window -/

theorem log_getElem?_eq (input : List ℚ) (W w : Nat) (r : WindowRecord)
    (h : (stateAfter input W).log[w]? = some r) : w < W ∧ r = recordAfter input w := by
  rw [stateAfter_log_getElem?] at h
  by_cases hw : w < W
  · rw [if_pos hw] at h
    exact ⟨hw, (Option.some.inj h).symm⟩
  · rw [if_neg hw] at h
    exact absurd h (by simp)

theorem entryState_stateAfter (input : List ℚ) (W w : Nat) (h : w ≤ W) :
    entryState (stateAfter input W).log w
      = ((stateAfter input w).beats, (stateAfter input w).peak) := by
  cases w with
  | zero => rfl
  | succ w =>
    have hlog : (stateAfter input W).log[w]? = some (recordAfter input w) := by
      rw [stateAfter_log_getElem?, if_pos (by omega)]
    show (match (stateAfter input W).log[w]? with
      | some r => (r.beats, r.peak)
      | none => (0, 0)) = _
    rw [hlog]
    rfl

theorem recordAfter_loop (input : List ℚ) (W w : Nat) (hw : w < W) :
    ((recordAfter input w).beats, (recordAfter input w).peak)
      = beatLoop (recordAfter input w).ej ((recordAfter input w).c * (recordAfter input w).avg)
          (entryState (stateAfter input W).log w).1
          (entryState (stateAfter input W).log w).2 := by
  rw [entryState_stateAfter input W w (by omega)]
  exact recordAfter_beats_peak input w

theorem beatRule_eq_outcomeStep (threshold : ℚ) (st : Int × Int) (e : ℚ) :
    beatRule threshold st e = outcomeStep st (decide (e > threshold)) := by
  unfold beatRule outcomeStep
  by_cases h : e > threshold
  · simp [h]
  · simp [h]

/-! ## The argument `samplesPerBlock` of `getBlocks` -/

/-- The value of `samplesPerBlock` passed to `getBlocks` in window `w` is
`1024 + 44100 * w`, whose remainder modulo 1024 is that of `68 * w`. -/
theorem samplesPerBlock_mod (input : List ℚ) :
    ∃ s, run input = .ok s
      ∧ ∀ (w : Nat) (r : WindowRecord), s.log[w]? = some r →
          r.samplesPerBlock = 1024 + 44100 * (w : Int)
          ∧ r.samplesPerBlock % 1024 = (68 * (w : Int)) % 1024 := by
  refine ⟨stateAfter input (input.length / 44100), run_eq input, ?_⟩
  intro w r hr
  obtain ⟨_, rfl⟩ := log_getElem?_eq input _ w r hr
  rw [recordAfter_samplesPerBlock]
  exact ⟨rfl, by omega⟩

/-! ## The beat loop over comparison outcomes and over prefixes -/

theorem foldl_beatRule_eq_outcomes (threshold : ℚ) (ej : List ℚ) (st : Int × Int) :
    ej.foldl (beatRule threshold) st = (outcomes ej threshold).foldl outcomeStep st := by
  unfold outcomes
  rw [List.foldl_map]
  have : beatRule threshold = fun st e => outcomeStep st (decide (e > threshold)) := by
    funext st e
    exact beatRule_eq_outcomeStep threshold st e
  rw [this]

theorem beatLoop_eq_outcomes (ej : List ℚ) (threshold : ℚ) (beats peak : Int)
    (h : ej.length = BLOCKS) :
    beatLoop ej threshold beats peak
      = (outcomes ej threshold).foldl outcomeStep (beats, peak) := by
  rw [beatLoop_eq_foldl ej threshold beats peak h, foldl_beatRule_eq_outcomes]

theorem range_map_getD_take (l : List ℚ) (k : Nat) (hk : k ≤ l.length) :
    (List.range k).map (fun j => l.getD j 0) = l.take k := by
  have h := range_map_getD (l.take k)
  rw [List.length_take, min_eq_left hk] at h
  rw [← h]
  apply List.map_congr_left
  intro j hj
  have hj' : j < k := List.mem_range.mp hj
  rw [List.getD_eq_getElem?_getD, List.getD_eq_getElem?_getD, List.getElem?_take_of_lt hj']

theorem beatLoopUpTo_eq_foldl (k : Nat) (ej : List ℚ) (threshold : ℚ) (beats peak : Int)
    (hk : k ≤ ej.length) :
    beatLoopUpTo k ej threshold beats peak
      = (ej.take k).foldl (beatRule threshold) (beats, peak) := by
  unfold beatLoopUpTo
  rw [← range_map_getD_take ej k hk, List.foldl_map]

theorem beatLoopUpTo_blocks (ej : List ℚ) (threshold : ℚ) (beats peak : Int) :
    beatLoopUpTo BLOCKS ej threshold beats peak = beatLoop ej threshold beats peak := rfl

theorem recordAfter_ej_length (input : List ℚ) (w : Nat) :
    (recordAfter input w).ej.length = BLOCKS := windowEnergies_length input w

/-! ## The invariant of the beat state -/

theorem foldl_beatRule_invariant (threshold : ℚ) : ∀ (l : List ℚ) (beats peak : Int),
    0 ≤ peak → peak ≤ 3 →
      0 ≤ (l.foldl (beatRule threshold) (beats, peak)).2
      ∧ (l.foldl (beatRule threshold) (beats, peak)).2 ≤ 3
      ∧ beats ≤ (l.foldl (beatRule threshold) (beats, peak)).1
      ∧ 4 * (l.foldl (beatRule threshold) (beats, peak)).1
          + (l.foldl (beatRule threshold) (beats, peak)).2
        ≤ 4 * beats + peak + ((l.filter (fun e => decide (e > threshold))).length : Int) := by
  intro l
  induction l with
  | nil =>
    intro beats peak h0 h3
    simp only [List.foldl_nil, List.filter_nil, List.length_nil, Nat.cast_zero]
    omega
  | cons e t ih =>
    intro beats peak h0 h3
    rw [List.foldl_cons]
    by_cases he : e > threshold
    · have hf : (List.filter (fun e => decide (e > threshold)) (e :: t)).length
          = (List.filter (fun e => decide (e > threshold)) t).length + 1 := by
        rw [List.filter_cons_of_pos (by simpa using he), List.length_cons]
      rw [hf]
      by_cases hp : peak + 1 = 4
      · have hstep : beatRule threshold (beats, peak) e = (beats + 1, 0) := by
          simp [beatRule, he, hp]
        rw [hstep]
        obtain ⟨a1, a2, a3, a4⟩ := ih (beats + 1) 0 (le_refl 0) (by norm_num)
        push_cast
        omega
      · have hstep : beatRule threshold (beats, peak) e = (beats, peak + 1) := by
          simp [beatRule, he, hp]
        rw [hstep]
        obtain ⟨a1, a2, a3, a4⟩ := ih beats (peak + 1) (by omega) (by omega)
        push_cast
        omega
    · have hf : (List.filter (fun e => decide (e > threshold)) (e :: t)).length
          = (List.filter (fun e => decide (e > threshold)) t).length := by
        rw [List.filter_cons_of_neg (by simpa using he)]
      have hstep : beatRule threshold (beats, peak) e = (beats, 0) := by
        simp [beatRule, he]
      rw [hf, hstep]
      obtain ⟨a1, a2, a3, a4⟩ := ih beats 0 (le_refl 0) (by norm_num)
      omega

theorem beatLoopUpTo_invariant (k : Nat) (ej : List ℚ) (threshold : ℚ) (beats peak : Int)
    (hk : k ≤ ej.length) (h0 : 0 ≤ peak) (h3 : peak ≤ 3) :
    0 ≤ (beatLoopUpTo k ej threshold beats peak).2
      ∧ (beatLoopUpTo k ej threshold beats peak).2 ≤ 3
      ∧ beats ≤ (beatLoopUpTo k ej threshold beats peak).1
      ∧ 4 * (beatLoopUpTo k ej threshold beats peak).1
          + (beatLoopUpTo k ej threshold beats peak).2
        ≤ 4 * beats + peak + (aboveCount ej threshold k : Int) := by
  rw [beatLoopUpTo_eq_foldl k ej threshold beats peak hk]
  exact foldl_beatRule_invariant threshold (ej.take k) beats peak h0 h3

theorem aboveCount_le (ej : List ℚ) (threshold : ℚ) (k : Nat) :
    aboveCount ej threshold k ≤ k := by
  unfold aboveCount
  exact le_trans (List.length_filter_le _ _) (by rw [List.length_take]; exact min_le_left _ _)

theorem aboveTotal_append_singleton (log : List WindowRecord) (r : WindowRecord) :
    aboveTotal (log ++ [r]) = aboveTotal log + aboveCount r.ej (r.c * r.avg) BLOCKS := by
  unfold aboveTotal
  rw [List.map_append, List.sum_append, List.map_singleton, List.sum_singleton]

theorem aboveTotal_stateAfter_le (input : List ℚ) (W : Nat) :
    aboveTotal (stateAfter input W).log ≤ 43 * W := by
  induction W with
  | zero => exact Nat.zero_le _
  | succ W ih =>
    rw [stateAfter_log_succ, aboveTotal_append_singleton]
    have := aboveCount_le (recordAfter input W).ej
      ((recordAfter input W).c * (recordAfter input W).avg) BLOCKS
    have hB : BLOCKS = 43 := rfl
    omega

theorem recordAfter_loop_state (input : List ℚ) (w : Nat) :
    beatLoop (recordAfter input w).ej ((recordAfter input w).c * (recordAfter input w).avg)
        (stateAfter input w).beats (stateAfter input w).peak
      = ((recordAfter input w).beats, (recordAfter input w).peak) :=
  (recordAfter_beats_peak input w).symm

theorem stateAfter_invariant (input : List ℚ) (W : Nat) :
    0 ≤ (stateAfter input W).peak ∧ (stateAfter input W).peak ≤ 3
      ∧ 0 ≤ (stateAfter input W).beats
      ∧ 4 * (stateAfter input W).beats + (stateAfter input W).peak
          ≤ (aboveTotal (stateAfter input W).log : Int) := by
  induction W with
  | zero => exact ⟨le_refl _, (by show (0 : Int) ≤ 3; norm_num), le_refl _, le_refl _⟩
  | succ W ih =>
    obtain ⟨i0, i3, ib, it⟩ := ih
    have hinv := beatLoopUpTo_invariant BLOCKS (recordAfter input W).ej
      ((recordAfter input W).c * (recordAfter input W).avg)
      (stateAfter input W).beats (stateAfter input W).peak
      (by rw [recordAfter_ej_length]) i0 i3
    rw [beatLoopUpTo_blocks, recordAfter_loop_state] at hinv
    obtain ⟨a0, a3, ab, at4⟩ := hinv
    rw [stateAfter_succ_beats, stateAfter_succ_peak, stateAfter_log_succ,
      aboveTotal_append_singleton]
    push_cast
    exact ⟨a0, a3, by omega, by omega⟩

theorem stateAfter_log_take (input : List ℚ) (W w : Nat) (h : w ≤ W) :
    (stateAfter input W).log.take w = (stateAfter input w).log := by
  rw [stateAfter_log, stateAfter_log, ← List.map_take, List.take_range, min_eq_left h]

/-! ## The indices written by `calculateSample` -/

theorem windowEnergies_congr (input1 input2 : List ℚ) (w : Nat)
    (h : ∀ i, i < 44100 * (w + 1) → i % 44100 < 44032 → input1.getD i 0 = input2.getD i 0) :
    windowEnergies input1 w = windowEnergies input2 w := by
  unfold windowEnergies
  apply List.map_congr_left
  intro j hj
  have hj' : j < 43 := List.mem_range.mp hj
  unfold blockEnergy
  apply Finset.sum_congr rfl
  intro t ht
  have ht' : t < 1024 := Finset.mem_range.mp ht
  have hmod : (44100 * w + 1024 * j + t) % 44100 = 1024 * j + t := by omega
  rw [h (44100 * w + 1024 * j + t) (by omega) (by rw [hmod]; omega)]

theorem windowRest_beats (s : MainState) (a ej : List ℚ) :
    (windowRest s a ej).beats
      = (beatLoop ej ((-0.0000015 * getVariance ej (getAvg ej) + 1.5142857) * getAvg ej)
          s.beats s.peak).1 := rfl

theorem windowRest_peak (s : MainState) (a ej : List ℚ) :
    (windowRest s a ej).peak
      = (beatLoop ej ((-0.0000015 * getVariance ej (getAvg ej) + 1.5142857) * getAvg ej)
          s.beats s.peak).2 := rfl

/-- The beat state and the log after `W` windows depend on the input only through the
block energies of the windows. -/
theorem stateAfter_congr (input1 input2 : List ℚ) :
    ∀ W, (∀ w, w < W → windowEnergies input1 w = windowEnergies input2 w) →
      (stateAfter input1 W).beats = (stateAfter input2 W).beats
      ∧ (stateAfter input1 W).peak = (stateAfter input2 W).peak
      ∧ (stateAfter input1 W).log = (stateAfter input2 W).log := by
  intro W
  induction W with
  | zero => intro _; exact ⟨rfl, rfl, rfl⟩
  | succ W ih =>
    intro h
    obtain ⟨hb, hp, hl⟩ := ih (fun w hw => h w (by omega))
    have hej := h W (by omega)
    have hs1 := stateAfter_samples input1 W
    have hs2 := stateAfter_samples input2 W
    have hq1 := stateAfter_samplesPerBlock input1 W
    have hq2 := stateAfter_samplesPerBlock input2 W
    refine ⟨?_, ?_, ?_⟩
    · rw [stateAfter_succ, stateAfter_succ, windowRest_beats, windowRest_beats, hej, hb, hp]
    · rw [stateAfter_succ, stateAfter_succ, windowRest_peak, windowRest_peak, hej, hb, hp]
    · rw [stateAfter_succ, stateAfter_succ, windowRest_log, windowRest_log, hej, hb, hp, hl,
        hs1, hs2, hq1, hq2]

theorem getD_append_replicate_left (n m k : Nat) (a b : ℚ) (hk : k < n) :
    (List.replicate n a ++ List.replicate m b).getD k 0 = a := by
  rw [List.getD_eq_getElem?_getD,
    List.getElem?_append_left (by rw [List.length_replicate]; exact hk),
    List.getElem?_replicate, if_pos hk, Option.getD_some]

/-! ## Claim C11: the run counter across windows -/

/-- Claim C11 (run state carries across windows).  The driver passes the values of
`beats` and `peak` left by one window to the beat loop of the next window without
resetting `peak`: for every two consecutive windows, the state after the second window is
the state obtained by running the single-step rule over the concatenation of the 86
comparison outcomes of the two windows (each block compared with the threshold of its own
window), started from the state with which the first window started.  For example,
starting from `peak = 0`, a window that ends in exactly two blocks above its threshold
leaves `peak = 2`, and when the next window begins with two blocks above its threshold no
beat is counted at its first block and one beat is counted at its second block. -/
theorem peak_carries_across_windows (input : List ℚ) (beats : Int) (front rest : List ℚ)
    (l h1 h2 h3 h4 t0 t1 : ℚ)
    (hfront : front.length = 40) (hrest : rest.length = 41)
    (hl : l ≤ t0) (hh1 : h1 > t0) (hh2 : h2 > t0) (hh3 : h3 > t1) (hh4 : h4 > t1) :
    (∃ s, run input = .ok s
        ∧ s.log.length = input.length / 44100
        ∧ ∀ (w : Nat) (r0 r1 : WindowRecord), s.log[w]? = some r0 → s.log[w + 1]? = some r1 →
            entryState s.log (w + 1) = (r0.beats, r0.peak)
            ∧ (r1.beats, r1.peak) = beatLoop r1.ej (r1.c * r1.avg) r0.beats r0.peak
            ∧ (outcomes r0.ej (r0.c * r0.avg) ++ outcomes r1.ej (r1.c * r1.avg)).length = 86
            ∧ (r1.beats, r1.peak)
                = (outcomes r0.ej (r0.c * r0.avg) ++ outcomes r1.ej (r1.c * r1.avg)).foldl
                    outcomeStep (entryState s.log w))
      ∧ (beatLoop (front ++ [l, h1, h2]) t0 beats 0).2 = 2
      ∧ beatLoopUpTo 1 (h3 :: h4 :: rest) t1 (beatLoop (front ++ [l, h1, h2]) t0 beats 0).1
            (beatLoop (front ++ [l, h1, h2]) t0 beats 0).2
          = ((beatLoop (front ++ [l, h1, h2]) t0 beats 0).1, 3)
      ∧ beatLoopUpTo 2 (h3 :: h4 :: rest) t1 (beatLoop (front ++ [l, h1, h2]) t0 beats 0).1
            (beatLoop (front ++ [l, h1, h2]) t0 beats 0).2
          = ((beatLoop (front ++ [l, h1, h2]) t0 beats 0).1 + 1, 0)
      ∧ beatLoop (h3 :: h4 :: rest) t1 (beatLoop (front ++ [l, h1, h2]) t0 beats 0).1
            (beatLoop (front ++ [l, h1, h2]) t0 beats 0).2
          = rest.foldl (beatRule t1) ((beatLoop (front ++ [l, h1, h2]) t0 beats 0).1 + 1, 0) := by
  refine ⟨?_, ?_⟩
  · refine ⟨stateAfter input (input.length / 44100), run_eq input,
      stateAfter_log_length input _, ?_⟩
    intro w r0 r1 hr0 hr1
    obtain ⟨hw0, rfl⟩ := log_getElem?_eq input _ w r0 hr0
    obtain ⟨hw1, rfl⟩ := log_getElem?_eq input _ (w + 1) r1 hr1
    have hentry1 : entryState (stateAfter input (input.length / 44100)).log (w + 1)
        = ((recordAfter input w).beats, (recordAfter input w).peak) := by
      rw [entryState_stateAfter input _ (w + 1) (by omega)]
      rfl
    have hloop1 := recordAfter_loop input _ (w + 1) hw1
    rw [hentry1] at hloop1
    have hloop0 := recordAfter_loop input _ w hw0
    refine ⟨hentry1, hloop1, ?_, ?_⟩
    · unfold outcomes
      rw [List.length_append, List.length_map, List.length_map, recordAfter_ej_length,
        recordAfter_ej_length]
      rfl
    · rw [List.foldl_append, ← beatLoop_eq_outcomes _ _ _ _ (recordAfter_ej_length input w),
        ← hloop0, ← beatLoop_eq_outcomes _ _ _ _ (recordAfter_ej_length input (w + 1))]
      exact hloop1
  · have hlen0 : (front ++ [l, h1, h2]).length = BLOCKS := by
      rw [List.length_append, hfront]; rfl
    have hnl : ¬ l > t0 := not_lt.mpr hl
    have h0 : beatLoop (front ++ [l, h1, h2]) t0 beats 0
        = ((front.foldl (beatRule t0) (beats, 0)).1, 2) := by
      rw [beatLoop_eq_foldl _ _ _ _ hlen0, List.foldl_append]
      simp [beatRule, hnl, hh1, hh2]
    have hlen1 : (h3 :: h4 :: rest).length = BLOCKS := by
      rw [List.length_cons, List.length_cons, hrest]
    rw [h0]
    refine ⟨rfl, ?_, ?_, ?_⟩
    · rw [beatLoopUpTo_eq_foldl 1 _ _ _ _ (by rw [hlen1]; norm_num)]
      simp [beatRule, hh3]
    · rw [beatLoopUpTo_eq_foldl 2 _ _ _ _ (by rw [hlen1]; norm_num)]
      simp [beatRule, hh3, hh4]
    · rw [beatLoop_eq_foldl _ _ _ _ hlen1]
      simp [beatRule, hh3, hh4]

/-- Witness for C11: low entries 0, high entries 5 and thresholds 1. -/
theorem peak_carries_across_windows_witness :
    (beatLoop (List.replicate 40 0 ++ [0, 5, 5]) 1 7 0).2 = 2
      ∧ beatLoopUpTo 2 (5 :: 5 :: List.replicate 41 0) 1
            (beatLoop (List.replicate 40 0 ++ [0, 5, 5]) 1 7 0).1
            (beatLoop (List.replicate 40 0 ++ [0, 5, 5]) 1 7 0).2
          = ((beatLoop (List.replicate 40 0 ++ [0, 5, 5]) 1 7 0).1 + 1, 0) := by
  have h := peak_carries_across_windows [] 7 (List.replicate 40 0) (List.replicate 41 0)
    0 5 5 5 5 1 1 (List.length_replicate _ _) (List.length_replicate _ _)
    (by norm_num) (by norm_num) (by norm_num) (by norm_num) (by norm_num)
  exact ⟨h.2.1, h.2.2.2.1⟩

/-! ## Claim C12: the footprint of `calculateSample` -/

/-- Claim C13 (WindowStatistics).  For every 43-element vector `v`, `getAvg v` is
`sum v / 43`, and for every value `m`, `getVariance v m` is the sum of the squares
`(m - v[i])^2` divided by 43 (exact arithmetic), although the code divides each squared
term by 43 before it accumulates it. -/
theorem window_statistics (v : List ℚ) (m : ℚ) (h : v.length = 43) :
    getAvg v = v.sum / 43
      ∧ getVariance v m = (v.map (fun x => (m - x) ^ 2)).sum / 43
      ∧ getVariance v m = (∑ i in Finset.range 43, (m - v.getD i 0) ^ 2) / 43 := by
  have hsq : (fun x : ℚ => (m - x) ^ 2) = (fun x => (m - x) * (m - x)) := by
    funext x; ring
  have h2 : getVariance v m = (v.map (fun x => (m - x) ^ 2)).sum / 43 := by
    rw [hsq]; exact getVariance_eq_sum v m h
  refine ⟨getAvg_eq_sum v h, h2, ?_⟩
  rw [h2]
  have hv : (List.range 43).map (fun j => v.getD j 0) = v := by
    have := range_map_getD v
    rw [h] at this
    exact this
  have : (v.map (fun x => (m - x) ^ 2)).sum
      = ∑ i in Finset.range 43, (m - v.getD i 0) ^ 2 := by
    conv_lhs => rw [← hv]
    rw [List.map_map]
    exact sum_map_range (fun i => (m - v.getD i 0) ^ 2) 43
  rw [this]

/-- Witness for C13: the window with one entry 8192 followed by 42 zeros. -/
theorem window_statistics_witness :
    (8192 :: List.replicate 42 (0 : ℚ)).length = 43
      ∧ getAvg (8192 :: List.replicate 42 0) = (8192 :: List.replicate 42 (0 : ℚ)).sum / 43 := by
  have h : (8192 :: List.replicate 42 (0 : ℚ)).length = 43 := by
    rw [List.length_cons, List.length_replicate]
  exact ⟨h, (window_statistics (8192 :: List.replicate 42 0) 0 h).1⟩

/-! ## Claim C15: the number of windows -/

/-- Claim C15 (window count).  For every sample sequence the driver runs the window body
exactly `totalSamples / 44100` times, once for each index `i` with `0 ≤ i < totalSamples`
and `i + 1` a multiple of 44100 (window `w` at `i = 44100 * (w + 1) - 1`); the samples of
a trailing partial window are left untouched.  In particular for
`0 < totalSamples < 44100` no window is processed, the beat count stays 0 and the BPM
is 0. -/
theorem window_count (input : List ℚ) :
    ∃ s, run input = .ok s
      ∧ s.log.length = input.length / 44100
      ∧ (∀ (w : Nat) (r : WindowRecord), s.log[w]? = some r →
          r.samples - 1 = 44100 * ((w : Int) + 1) - 1)
      ∧ (∀ i : Int, (∃ r ∈ s.log, i = r.samples - 1)
          ↔ (0 ≤ i ∧ i < input.length ∧ (i + 1) % 44100 = 0))
      ∧ (∀ k : Nat, 44100 * (input.length / 44100) ≤ k →
          s.sampleArray.getD k 0 = input.getD k 0)
      ∧ (0 < input.length → input.length < 44100 →
          s.log = [] ∧ s.beats = 0 ∧ main input = .ok 0) := by
  have hW := Nat.mul_div_le input.length 44100
  refine ⟨stateAfter input (input.length / 44100), run_eq input,
    stateAfter_log_length input _, ?_, ?_, ?_, ?_⟩
  · intro w r hr
    obtain ⟨_, rfl⟩ := log_getElem?_eq input _ w r hr
    rw [recordAfter_samples]
  · intro i
    constructor
    · rintro ⟨r, hr, rfl⟩
      obtain ⟨w, hw, rfl⟩ := (mem_stateAfter_log input _ r).mp hr
      have hlen := window_le_length input w hw
      rw [recordAfter_samples]
      omega
    · rintro ⟨h0, hlt, hmod⟩
      have hw : ((i + 1) / 44100 - 1).toNat < input.length / 44100 := by omega
      refine ⟨recordAfter input ((i + 1) / 44100 - 1).toNat,
        (mem_stateAfter_log input _ _).mpr ⟨_, hw, rfl⟩, ?_⟩
      rw [recordAfter_samples]
      omega
  · intro k hk
    rw [stateAfter_sampleArray, energized_getD, if_neg (by omega)]
  · intro hpos hlt
    have h0 : input.length / 44100 = 0 := Nat.div_eq_of_lt hlt
    refine ⟨?_, ?_, ?_⟩
    · rw [h0]; rfl
    · rw [h0]; rfl
    · rw [main_eq, h0]
      exact bpmExpr_zero _ (by exact_mod_cast hpos.ne')

/-! ## Claim C16: the argument `samplesPerBlock` of `getBlocks` -/

/-- Claim C16, at a failing input.  On two seconds of samples the driver calls
`getBlocks` twice; the second call passes `samplesPerBlock = 45124 = 44 * 1024 + 68`,
which is not a multiple of 1024 as the comment of `getBlocks` requires. -/
theorem samplesPerBlock_not_multiple :
    ∃ s r0 r1, run (List.replicate 88200 0) = .ok s
      ∧ s.log = [r0, r1]
      ∧ r0.samplesPerBlock = 1024
      ∧ r1.samplesPerBlock = 45124
      ∧ r1.samplesPerBlock % SAMPLES_PER_BLOCK = 68
      ∧ ¬ (SAMPLES_PER_BLOCK ∣ r1.samplesPerBlock) := by
  have h := run_eq (List.replicate 88200 0)
  rw [two_seconds_length] at h
  have e0 : (recordAfter (List.replicate 88200 0) 0).samplesPerBlock = 1024 := by
    rw [recordAfter_samplesPerBlock]; norm_num
  have e1 : (recordAfter (List.replicate 88200 0) 1).samplesPerBlock = 45124 := by
    rw [recordAfter_samplesPerBlock]; norm_num
  refine ⟨stateAfter (List.replicate 88200 0) 2, recordAfter (List.replicate 88200 0) 0,
    recordAfter (List.replicate 88200 0) 1, h, two_seconds_log, e0, e1, ?_, ?_⟩
  · rw [e1]; rfl
  · rw [e1]; simp only [SAMPLES_PER_BLOCK]; omega

/-! ## Claim C17: the invariant of the beat state -/

/-- Claim C17 (beat-state invariant).  In every window processed by the driver, after
each of the first `k ≤ 43` block steps of the beat loop, `0 ≤ peak ≤ 3` and
`4 * beats + peak` is at most the number of blocks processed so far (in the earlier
windows and among the first `k` blocks of this window) whose energy exceeded the threshold
of their window, which is at most `43 * w + k ≤ 43 * (w + 1)`; the state after the 43rd
step is the one left by the window.  So at the end of the run `0 ≤ peak ≤ 3`,
`4 * beats + peak` is at most the number of blocks above threshold, which is at most
`43 * W`, and `beats ≤ 43 * W / 4` for the number `W` of windows processed. -/
theorem beat_state_invariant (input : List ℚ) :
    ∃ s, run input = .ok s
      ∧ s.log.length = input.length / 44100
      ∧ (∀ (w : Nat) (r : WindowRecord), s.log[w]? = some r →
          beatLoopUpTo 43 r.ej (r.c * r.avg) (entryState s.log w).1 (entryState s.log w).2
              = (r.beats, r.peak)
          ∧ ∀ k, k ≤ 43 →
              0 ≤ (beatLoopUpTo k r.ej (r.c * r.avg) (entryState s.log w).1
                    (entryState s.log w).2).2
              ∧ (beatLoopUpTo k r.ej (r.c * r.avg) (entryState s.log w).1
                    (entryState s.log w).2).2 ≤ 3
              ∧ 4 * (beatLoopUpTo k r.ej (r.c * r.avg) (entryState s.log w).1
                      (entryState s.log w).2).1
                  + (beatLoopUpTo k r.ej (r.c * r.avg) (entryState s.log w).1
                      (entryState s.log w).2).2
                ≤ ((aboveTotal (s.log.take w) + aboveCount r.ej (r.c * r.avg) k : Nat) : Int)
              ∧ aboveTotal (s.log.take w) + aboveCount r.ej (r.c * r.avg) k ≤ 43 * w + k
              ∧ 43 * w + k ≤ 43 * (w + 1))
      ∧ 0 ≤ s.peak ∧ s.peak ≤ 3
      ∧ 0 ≤ s.beats
      ∧ 4 * s.beats + s.peak ≤ (aboveTotal s.log : Int)
      ∧ aboveTotal s.log ≤ 43 * s.log.length
      ∧ s.beats ≤ 43 * (s.log.length : Int) / 4 := by
  obtain ⟨f0, f3, fb, ft⟩ := stateAfter_invariant input (input.length / 44100)
  have fle := aboveTotal_stateAfter_le input (input.length / 44100)
  refine ⟨stateAfter input (input.length / 44100), run_eq input,
    stateAfter_log_length input _, ?_, f0, f3, fb, ft, ?_, ?_⟩
  · intro w r hr
    obtain ⟨hw, rfl⟩ := log_getElem?_eq input _ w r hr
    rw [entryState_stateAfter input _ w (by omega), stateAfter_log_take input _ w (by omega)]
    refine ⟨recordAfter_loop_state input w, ?_⟩
    intro k hk
    obtain ⟨i0, i3, ib, it⟩ := stateAfter_invariant input w
    obtain ⟨a0, a3, ab, at4⟩ := beatLoopUpTo_invariant k (recordAfter input w).ej
      ((recordAfter input w).c * (recordAfter input w).avg)
      (stateAfter input w).beats (stateAfter input w).peak
      (by rw [recordAfter_ej_length]; exact hk) i0 i3
    have hle := aboveTotal_stateAfter_le input w
    have hck := aboveCount_le (recordAfter input w).ej
      ((recordAfter input w).c * (recordAfter input w).avg) k
    refine ⟨a0, a3, ?_, by omega, by omega⟩
    push_cast
    omega
  · rw [stateAfter_log_length]; exact fle
  · rw [stateAfter_log_length]
    have : (aboveTotal (stateAfter input (input.length / 44100)).log : Int)
        ≤ 43 * ((input.length / 44100 : Nat) : Int) := by exact_mod_cast fle
    omega

/-! ## Claim C19: samples that are never summed -/

/-- Claim C19 (unread samples do not influence the result).  For every two sample
sequences of the same length that agree at every index `i` with
`i < (totalSamples / 44100) * 44100` and `i % 44100 < 44032`, the driver logs the same
windows (in particular the same block energies, means, variances and thresholds), and
computes the same beat count and the same BPM: the last 68 samples of every full window
and the samples of the trailing partial window are never summed. -/
theorem unread_samples_irrelevant (input1 input2 : List ℚ)
    (hlen : input1.length = input2.length)
    (hagree : ∀ i, i < input1.length / 44100 * 44100 → i % 44100 < 44032 →
      input1.getD i 0 = input2.getD i 0) :
    ∃ s1 s2, run input1 = .ok s1 ∧ run input2 = .ok s2
      ∧ s1.log.length = input1.length / 44100
      ∧ s1.log = s2.log
      ∧ (∀ (w : Nat) (r1 r2 : WindowRecord), s1.log[w]? = some r1 → s2.log[w]? = some r2 →
          r1.ej = r2.ej)
      ∧ s1.beats = s2.beats
      ∧ s1.peak = s2.peak
      ∧ main input1 = main input2 := by
  have hE : ∀ w, w < input1.length / 44100 →
      windowEnergies input1 w = windowEnergies input2 w := by
    intro w hw
    apply windowEnergies_congr
    intro i hi hmod
    exact hagree i (by
      have : 44100 * (w + 1) ≤ 44100 * (input1.length / 44100) := Nat.mul_le_mul_left _ hw
      omega) hmod
  obtain ⟨hb, hp, hl⟩ := stateAfter_congr input1 input2 (input1.length / 44100) hE
  have hrun2 : run input2 = .ok (stateAfter input2 (input1.length / 44100)) := by
    have h := run_eq input2
    rw [← hlen] at h
    exact h
  refine ⟨stateAfter input1 (input1.length / 44100), stateAfter input2 (input1.length / 44100),
    run_eq input1, hrun2, stateAfter_log_length input1 _, hl, ?_, hb, hp, ?_⟩
  · intro w r1 r2 h1 h2
    rw [hl] at h1
    have : some r1 = some r2 := h1.symm.trans h2
    rw [Option.some.inj this]
  · rw [main_eq, main_eq, ← hlen, hb]

/-- Witness for C19: one second of silence, and the same second with its last 68 samples
replaced by 7. -/
theorem unread_samples_irrelevant_witness :
    (List.replicate 44100 (0 : ℚ)).length
        = (List.replicate 44032 (0 : ℚ) ++ List.replicate 68 7).length
      ∧ main (List.replicate 44100 0)
          = main (List.replicate 44032 0 ++ List.replicate 68 7) := by
  have hlen : (List.replicate 44100 (0 : ℚ)).length
      = (List.replicate 44032 (0 : ℚ) ++ List.replicate 68 7).length := by
    rw [List.length_append, List.length_replicate, List.length_replicate,
      List.length_replicate]
  have hagree : ∀ i, i < (List.replicate 44100 (0 : ℚ)).length / 44100 * 44100 →
      i % 44100 < 44032 →
      (List.replicate 44100 (0 : ℚ)).getD i 0
        = (List.replicate 44032 (0 : ℚ) ++ List.replicate 68 7).getD i 0 := by
    intro i hi hmod
    rw [List.length_replicate] at hi
    have hi' : i < 44032 := by omega
    rw [getD_append_replicate_left 44032 68 i 0 7 hi', List.getD_eq_getElem?_getD,
      List.getElem?_replicate, if_pos (by omega), Option.getD_some]
  obtain ⟨s1, s2, _, _, _, _, _, _, _, hmain⟩ :=
    unread_samples_irrelevant (List.replicate 44100 0)
      (List.replicate 44032 0 ++ List.replicate 68 7) hlen hagree
  exact ⟨hlen, hmain⟩

/-! ## Claim C20: the upper bound of the tempo -/

/-- Claim C20 (upper bound of the tempo estimate).  For every sample sequence with
`totalSamples > 0`, the beat count produced by the driver satisfies
`beats * 44100 * 60 / totalSamples ≤ 645` (floor of the exact quotient), because
`4 * beats ≤ 43 * W` and `44100 * W ≤ totalSamples` for the number `W` of windows
processed. -/
theorem tempo_upper_bound (input : List ℚ) (hpos : 0 < input.length) :
    ∃ s, run input = .ok s
      ∧ 0 ≤ s.beats
      ∧ 4 * s.beats ≤ 43 * (s.log.length : Int)
      ∧ SAMPLES_PER_SECOND * (s.log.length : Int) ≤ input.length
      ∧ s.beats * SAMPLES_PER_SECOND * 60 / (input.length : Int) ≤ 645 := by
  obtain ⟨f0, f3, fb, ft⟩ := stateAfter_invariant input (input.length / 44100)
  have fle := aboveTotal_stateAfter_le input (input.length / 44100)
  have hW := Nat.mul_div_le input.length 44100
  have h4 : 4 * (stateAfter input (input.length / 44100)).beats
      ≤ 43 * ((input.length / 44100 : Nat) : Int) := by
    have : (aboveTotal (stateAfter input (input.length / 44100)).log : Int)
        ≤ 43 * ((input.length / 44100 : Nat) : Int) := by exact_mod_cast fle
    omega
  have hT : (44100 : Int) * ((input.length / 44100 : Nat) : Int) ≤ input.length := by
    exact_mod_cast hW
  refine ⟨stateAfter input (input.length / 44100), run_eq input, fb, ?_, ?_, ?_⟩
  · rw [stateAfter_log_length]; exact h4
  · rw [stateAfter_log_length]; exact hT
  · apply Int.ediv_le_of_le_mul (by exact_mod_cast hpos)
    simp only [SAMPLES_PER_SECOND]
    omega

/-- Witness for C20: 76 seconds of the pulse signal, where the bound 645 is attained. -/
theorem tempo_upper_bound_witness :
    0 < (pulseInput 76).length
      ∧ ∃ s, run (pulseInput 76) = .ok s
          ∧ s.beats * SAMPLES_PER_SECOND * 60 / ((pulseInput 76).length : Int) ≤ 645 := by
  have hpos : 0 < (pulseInput 76).length := by rw [pulseInput_length]; norm_num
  obtain ⟨s, hrun, _, _, _, hb⟩ := tempo_upper_bound (pulseInput 76) hpos
  exact ⟨hpos, s, hrun, hb⟩

/-! # The program in binary32 arithmetic -/

/-! ## Rounding -/

theorem log2Fuel_spec (fuel n : Nat) (hn : 0 < n) (hf : n ≤ fuel) :
    2 ^ log2Fuel fuel n ≤ n ∧ n < 2 ^ (log2Fuel fuel n + 1) := by
  induction fuel generalizing n with
  | zero => omega
  | succ f ih =>
    unfold log2Fuel
    split
    · have h1 : n = 1 := by omega
      subst h1
      simp
    · have h2 : 0 < n / 2 := by omega
      have hf2 : n / 2 ≤ f := by omega
      obtain ⟨h1, h3⟩ := ih (n / 2) h2 hf2
      constructor
      · rw [pow_succ]; omega
      · rw [pow_succ]; omega

theorem natLog2_spec (n : Nat) (hn : 0 < n) :
    2 ^ natLog2 n ≤ n ∧ n < 2 ^ (natLog2 n + 1) :=
  log2Fuel_spec n n hn le_rfl

theorem two_zpow_pos (k : ℤ) : (0 : ℚ) < 2 ^ k := zpow_pos (by norm_num) k

theorem two_zpow_le {a b : ℤ} (h : a ≤ b) : (2 : ℚ) ^ a ≤ 2 ^ b :=
  zpow_le_zpow_right₀ (by norm_num) h

theorem two_zpow_lt_iff {a b : ℤ} : (2 : ℚ) ^ a < 2 ^ b ↔ a < b :=
  zpow_lt_zpow_iff_right₀ (by norm_num)

theorem two_zpow_succ (k : ℤ) : (2 : ℚ) ^ (k + 1) = 2 ^ k * 2 := by
  rw [zpow_add₀ (by norm_num), zpow_one]

theorem ilog2_spec (x : ℚ) (hx : 0 < x) :
    (2 : ℚ) ^ ilog2 x ≤ x ∧ x < 2 ^ (ilog2 x + 1) := by
  have hnum : 0 < x.num := Rat.num_pos.mpr hx
  have hN : 0 < x.num.natAbs := Int.natAbs_pos.mpr hnum.ne'
  have hD : 0 < x.den := x.den_pos
  obtain ⟨hN1, hN2⟩ := natLog2_spec _ hN
  obtain ⟨hD1, hD2⟩ := natLog2_spec _ hD
  set a := natLog2 x.num.natAbs with ha
  set b := natLog2 x.den with hb
  have hxe : x = (x.num.natAbs : ℚ) / (x.den : ℚ) := by
    have h1 : ((x.num.natAbs : ℕ) : ℚ) = (x.num : ℚ) := by
      rw [Nat.cast_natAbs, abs_of_pos hnum]
    rw [h1]
    exact (Rat.num_div_den x).symm
  have hDq : (0 : ℚ) < (x.den : ℚ) := by exact_mod_cast hD
  have hN1q : (2 : ℚ) ^ a ≤ (x.num.natAbs : ℚ) := by exact_mod_cast hN1
  have hN2q : (x.num.natAbs : ℚ) < 2 ^ (a + 1) := by exact_mod_cast hN2
  have hD1q : (2 : ℚ) ^ b ≤ (x.den : ℚ) := by exact_mod_cast hD1
  have hD2q : (x.den : ℚ) < 2 ^ (b + 1) := by exact_mod_cast hD2
  have hk : (2 : ℚ) ^ ((a : ℤ) - (b : ℤ)) = 2 ^ a / 2 ^ b := by
    rw [zpow_sub₀ (by norm_num), zpow_natCast, zpow_natCast]
  have hpa : (0 : ℚ) < 2 ^ a := by positivity
  have hpb : (0 : ℚ) < 2 ^ b := by positivity
  unfold ilog2
  simp only [← ha, ← hb]
  split
  · rename_i h
    refine ⟨h, ?_⟩
    rw [two_zpow_succ, hk]
    rw [hxe, div_mul_eq_mul_div, div_lt_div_iff₀ hDq hpb]
    rw [pow_succ] at hN2q
    nlinarith
  · rename_i h
    constructor
    · have : (2 : ℚ) ^ ((a : ℤ) - (b : ℤ) - 1) = 2 ^ a / 2 ^ (b + 1) := by
        rw [zpow_sub₀ (by norm_num), hk, zpow_one, pow_succ]
        field_simp
      rw [this, hxe, div_le_div_iff₀ (by positivity) hDq]
      nlinarith
    · rw [sub_add_cancel]
      exact lt_of_not_le h

theorem ilog2_unique (x : ℚ) (k : ℤ) (h1 : (2 : ℚ) ^ k ≤ x) (h2 : x < 2 ^ (k + 1)) :
    ilog2 x = k := by
  have hx : 0 < x := lt_of_lt_of_le (two_zpow_pos k) h1
  obtain ⟨s1, s2⟩ := ilog2_spec x hx
  have a1 : ilog2 x < k + 1 := two_zpow_lt_iff.mp (lt_of_le_of_lt s1 h2)
  have a2 : k < ilog2 x + 1 := two_zpow_lt_iff.mp (lt_of_le_of_lt h1 s2)
  omega

/-! ### Rounding to the nearest integer -/

theorem rne_spec (m : ℚ) :
    |m - rne m| < 1 / 2 ∨ (|m - rne m| = 1 / 2 ∧ rne m % 2 = 0) := by
  have h1 : (⌊m⌋ : ℚ) ≤ m := Int.floor_le m
  have h2 : m < ⌊m⌋ + 1 := Int.lt_floor_add_one m
  unfold rne
  split
  · rename_i h
    left
    rw [abs_lt]; constructor <;> linarith
  · rename_i h
    split
    · rename_i h'
      left
      push_cast
      rw [abs_lt]; constructor <;> linarith
    · rename_i h'
      have he : m - ⌊m⌋ = 1 / 2 := le_antisymm (not_lt.mp h') (not_lt.mp h)
      right
      split
      · rename_i hp
        refine ⟨?_, hp⟩
        rw [he]; norm_num
      · rename_i hp
        refine ⟨?_, by omega⟩
        push_cast
        have : m - (⌊m⌋ + 1) = -(1 / 2) := by linarith
        rw [this]; norm_num

theorem rne_unique (m : ℚ) (n : ℤ)
    (h : |m - n| < 1 / 2 ∨ (|m - n| = 1 / 2 ∧ n % 2 = 0)) : rne m = n := by
  have hs := rne_spec m
  have key : |((rne m - n : ℤ) : ℚ)| ≤ |m - n| + |m - rne m| := by
    have : ((rne m - n : ℤ) : ℚ) = (m - n) - (m - rne m) := by push_cast; ring
    rw [this]
    exact abs_sub _ _
  rcases h with h | ⟨h, hp⟩
  · have hlt : |((rne m - n : ℤ) : ℚ)| < 1 := by
      rcases hs with hs | ⟨hs, _⟩ <;> linarith
    have : |rne m - n| < 1 := by exact_mod_cast hlt
    rw [abs_lt] at this
    omega
  · rcases hs with hs | ⟨hs, hq⟩
    · have hlt : |((rne m - n : ℤ) : ℚ)| < 1 := by linarith
      have : |rne m - n| < 1 := by exact_mod_cast hlt
      rw [abs_lt] at this
      omega
    · have hle : |((rne m - n : ℤ) : ℚ)| ≤ 1 := by linarith
      have : |rne m - n| ≤ 1 := by exact_mod_cast hle
      rw [abs_le] at this
      omega

theorem rne_intCast (n : ℤ) : rne (n : ℚ) = n :=
  rne_unique _ _ (Or.inl (by simp))

theorem rne_neg (m : ℚ) : rne (-m) = -rne m := by
  apply rne_unique
  have e : -m - ((-rne m : ℤ) : ℚ) = -(m - rne m) := by push_cast; ring
  rw [e, abs_neg]
  rcases rne_spec m with h | ⟨h, hp⟩
  · exact Or.inl h
  · exact Or.inr ⟨h, by omega⟩

theorem rne_mono {a b : ℚ} (h : a ≤ b) : rne a ≤ rne b := by
  by_contra hc
  have hc' : rne b + 1 ≤ rne a := by omega
  have hq : ((rne b : ℤ) : ℚ) + 1 ≤ rne a := by exact_mod_cast hc'
  have ha : |a - rne a| ≤ 1 / 2 := by
    rcases rne_spec a with h | ⟨h, _⟩ <;> linarith
  have hb : |b - rne b| ≤ 1 / 2 := by
    rcases rne_spec b with h | ⟨h, _⟩ <;> linarith
  rw [abs_le] at ha hb
  have hab : a = b := by linarith [ha.1, hb.2]
  subst hab
  omega

/-! ### Rounding to a format -/

theorem Format.ulp_pos (f : Format) (x : ℚ) : 0 < f.ulp x := two_zpow_pos _

theorem Format.ulp_neg (f : Format) (x : ℚ) : f.ulp (-x) = f.ulp x := by
  unfold Format.ulp
  rw [abs_neg]

/-- The exponent chosen for `x`: at least `emin`, above `|x|`, and below `|x|` unless it
is `emin`. -/
theorem Format.exponent_spec (f : Format) (x : ℚ) :
    f.emin ≤ max (ilog2 |x|) f.emin
      ∧ |x| < 2 ^ (max (ilog2 |x|) f.emin + 1)
      ∧ (x ≠ 0 → f.emin < max (ilog2 |x|) f.emin → (2 : ℚ) ^ (max (ilog2 |x|) f.emin) ≤ |x|) := by
  refine ⟨le_max_right _ _, ?_, ?_⟩
  · by_cases hx : x = 0
    · subst hx
      rw [abs_zero]
      exact two_zpow_pos _
    · have hpos : 0 < |x| := abs_pos.mpr hx
      exact lt_of_lt_of_le (ilog2_spec _ hpos).2 (two_zpow_le (by
        have := le_max_left (ilog2 |x|) f.emin
        omega))
  · intro hx hlt
    have hpos : 0 < |x| := abs_pos.mpr hx
    have : max (ilog2 |x|) f.emin = ilog2 |x| := by
      rcases le_total (ilog2 |x|) f.emin with h | h
      · rw [max_eq_right h] at hlt
        omega
      · exact max_eq_left h
    rw [this]
    exact (ilog2_spec _ hpos).1

theorem Format.exponent_eq_of (f : Format) (x : ℚ) (e : ℤ) (hx : x ≠ 0) (he : f.emin ≤ e)
    (hhi : |x| < 2 ^ (e + 1)) (hlo : e = f.emin ∨ (2 : ℚ) ^ e ≤ |x|) :
    max (ilog2 |x|) f.emin = e := by
  have hpos : 0 < |x| := abs_pos.mpr hx
  rcases hlo with hlo | hlo
  · have h1 : ilog2 |x| < e + 1 :=
      two_zpow_lt_iff.mp (lt_of_le_of_lt (ilog2_spec _ hpos).1 hhi)
    rw [hlo]
    apply max_eq_right
    omega
  · rw [ilog2_unique _ e hlo hhi]
    exact max_eq_left he

theorem Format.round_zero (f : Format) : f.round 0 = 0 := by
  unfold Format.round
  rw [zero_div]
  have : rne 0 = 0 := by
    have := rne_intCast 0
    simpa using this
  rw [this]
  simp

theorem Format.round_neg (f : Format) (x : ℚ) : f.round (-x) = -f.round x := by
  unfold Format.round
  rw [Format.ulp_neg, neg_div, rne_neg]
  push_cast
  ring

/-- Evaluation of a rounding: `n` is the integer nearest to `x / 2 ^ (e - (prec - 1))`
(the even one in case of a tie), where `e` is the exponent of `x`. -/
theorem Format.round_eq_of (f : Format) (x : ℚ) (e n : ℤ) (he : f.emin ≤ e)
    (hhi : |x| < 2 ^ (e + 1)) (hlo : e = f.emin ∨ (2 : ℚ) ^ e ≤ |x|)
    (hn : |x / 2 ^ (e - ((f.prec : ℤ) - 1)) - n| < 1 / 2
      ∨ (|x / 2 ^ (e - ((f.prec : ℤ) - 1)) - n| = 1 / 2 ∧ n % 2 = 0)) :
    f.round x = n * 2 ^ (e - ((f.prec : ℤ) - 1)) := by
  by_cases hx : x = 0
  · subst hx
    rw [zero_div, zero_sub, abs_neg] at hn
    have hn0 : n = 0 := by
      have h1 : |(n : ℚ)| < 1 := by
        rcases hn with h | ⟨h, _⟩ <;> linarith
      have h2 : |n| < 1 := by exact_mod_cast h1
      rw [abs_lt] at h2
      omega
    rw [Format.round_zero, hn0]
    simp
  · unfold Format.round Format.ulp
    rw [Format.exponent_eq_of f x e hx he hhi hlo, rne_unique _ n hn]

theorem zpow_natCast_int (m : ℕ) : ((2 : ℚ) ^ (m : ℤ)) = (((2 : ℤ) ^ m : ℤ) : ℚ) := by
  rw [zpow_natCast]
  push_cast
  rfl

theorem Format.round_exact_lt (f : Format) (x : ℚ) (n k : ℤ) (hx : x = n * 2 ^ k)
    (hn : |n| < 2 ^ f.prec) (hk : f.emin - ((f.prec : ℤ) - 1) ≤ k) : f.round x = x := by
  by_cases hx0 : x = 0
  · rw [hx0, Format.round_zero]
  obtain ⟨h1, h2, h3⟩ := f.exponent_spec x
  have hle : max (ilog2 |x|) f.emin - ((f.prec : ℤ) - 1) ≤ k := by
    by_contra hc
    have hgt : f.emin < max (ilog2 |x|) f.emin := by omega
    have h4 := h3 hx0 hgt
    have h5 : |x| < 2 ^ ((f.prec : ℤ) + k) := by
      rw [hx, abs_mul, abs_of_pos (two_zpow_pos k), zpow_add₀ (by norm_num), zpow_natCast]
      have : |(n : ℚ)| < 2 ^ f.prec := by exact_mod_cast hn
      exact mul_lt_mul_of_pos_right this (two_zpow_pos k)
    have := two_zpow_lt_iff.mp (lt_of_le_of_lt h4 h5)
    omega
  obtain ⟨m, hm⟩ := Int.eq_ofNat_of_zero_le (sub_nonneg.mpr hle)
  have hdiv : x / f.ulp x = ((n * 2 ^ m : ℤ) : ℚ) := by
    have hu : f.ulp x = 2 ^ (max (ilog2 |x|) f.emin - ((f.prec : ℤ) - 1)) := rfl
    rw [hu]
    generalize max (ilog2 |x|) f.emin - ((f.prec : ℤ) - 1) = E at hm
    rw [hx, mul_div_assoc, ← zpow_sub₀ (by norm_num), hm, zpow_natCast]
    norm_num
  unfold Format.round
  rw [hdiv, rne_intCast, ← hdiv]
  exact div_mul_cancel₀ _ (f.ulp_pos x).ne'

/-- A value `n * 2 ^ k` with `|n| ≤ 2 ^ prec` and `k` in range is not changed by
rounding. -/
theorem Format.round_exact (f : Format) (hp : 1 ≤ f.prec) (x : ℚ) (n k : ℤ)
    (hx : x = n * 2 ^ k) (hn : |n| ≤ 2 ^ f.prec)
    (hk : f.emin - ((f.prec : ℤ) - 1) ≤ k) : f.round x = x := by
  rcases lt_or_eq_of_le hn with hlt | heq
  · exact f.round_exact_lt x n k hx hlt hk
  · obtain ⟨q, hq⟩ := Nat.exists_eq_add_of_le hp
    have hpow : (2 : ℤ) ^ f.prec = 2 * 2 ^ q := by
      rw [hq, add_comm, pow_succ]; ring
    have hn2 : ∃ n2 : ℤ, n = 2 * n2 ∧ |n2| < 2 ^ f.prec := by
      rcases abs_choice n with h | h
      · refine ⟨2 ^ q, by rw [← hpow, ← heq, h], ?_⟩
        rw [abs_of_pos (by positivity), hpow]
        have : (0 : ℤ) < 2 ^ q := by positivity
        omega
      · refine ⟨-2 ^ q, ?_, ?_⟩
        · have : -n = 2 * 2 ^ q := by rw [← hpow, ← heq, h]
          linarith
        · rw [abs_neg, abs_of_pos (by positivity), hpow]
          have : (0 : ℤ) < 2 ^ q := by positivity
          omega
    obtain ⟨n2, hn2, hlt⟩ := hn2
    refine f.round_exact_lt x n2 (k + 1) ?_ hlt (by omega)
    rw [hx, hn2, two_zpow_succ]
    push_cast
    ring

/-- The rounded value is of the form `n * 2 ^ k` of `Format.round_exact`. -/
theorem Format.round_repr (f : Format) (x : ℚ) :
    ∃ n k : ℤ, f.round x = n * 2 ^ k ∧ |n| ≤ 2 ^ f.prec
      ∧ f.emin - ((f.prec : ℤ) - 1) ≤ k := by
  obtain ⟨h1, h2, _⟩ := f.exponent_spec x
  refine ⟨rne (x / f.ulp x), max (ilog2 |x|) f.emin - ((f.prec : ℤ) - 1), rfl, ?_, by omega⟩
  have hu : f.ulp x * 2 ^ (f.prec : ℤ) = 2 ^ (max (ilog2 |x|) f.emin + 1) := by
    unfold Format.ulp
    rw [← zpow_add₀ (by norm_num)]
    congr 1
    ring
  have hq : |x / f.ulp x| < 2 ^ (f.prec : ℤ) := by
    rw [abs_div, abs_of_pos (f.ulp_pos x), div_lt_iff₀ (f.ulp_pos x), mul_comm, hu]
    exact h2
  rw [abs_lt] at hq
  have hc : ((2 : ℚ) ^ (f.prec : ℤ)) = (((2 : ℤ) ^ f.prec : ℤ) : ℚ) := zpow_natCast_int _
  rw [abs_le]
  constructor
  · have := rne_mono (le_of_lt hq.1)
    rw [hc, ← Int.cast_neg, rne_intCast] at this
    exact this
  · have := rne_mono (le_of_lt hq.2)
    rw [hc, rne_intCast] at this
    exact this

theorem Format.round_idem (f : Format) (hp : 1 ≤ f.prec) (x : ℚ) :
    f.round (f.round x) = f.round x := by
  obtain ⟨n, k, h1, h2, h3⟩ := f.round_repr x
  exact f.round_exact hp _ n k h1 h2 h3

theorem Format.round_nonneg (f : Format) (x : ℚ) (hx : 0 ≤ x) : 0 ≤ f.round x := by
  unfold Format.round
  have h1 : 0 ≤ x / f.ulp x := div_nonneg hx (f.ulp_pos x).le
  have h2 := rne_mono h1
  have h0 : rne 0 = 0 := by simpa using rne_intCast 0
  rw [h0] at h2
  exact mul_nonneg (by exact_mod_cast h2) (f.ulp_pos x).le

theorem Format.round_mono_pos (f : Format) (hp : 1 ≤ f.prec) (x y : ℚ) (hx : 0 < x)
    (hxy : x ≤ y) : f.round x ≤ f.round y := by
  have hy : 0 < y := lt_of_lt_of_le hx hxy
  obtain ⟨a1, a2, a3⟩ := f.exponent_spec x
  obtain ⟨b1, b2, b3⟩ := f.exponent_spec y
  have hle : max (ilog2 |x|) f.emin ≤ max (ilog2 |y|) f.emin := by
    apply max_le_max _ le_rfl
    rw [abs_of_pos hx, abs_of_pos hy]
    have h1 := (ilog2_spec x hx).1
    have h2 := (ilog2_spec y hy).2
    have := two_zpow_lt_iff.mp (lt_of_le_of_lt (le_trans h1 hxy) h2)
    omega
  rcases eq_or_lt_of_le hle with heq | hlt
  · have hu : f.ulp x = f.ulp y := by
      unfold Format.ulp
      rw [heq]
    unfold Format.round
    rw [hu]
    have h1 : x / f.ulp y ≤ y / f.ulp y := div_le_div_of_nonneg_right hxy (f.ulp_pos y).le
    have h2 := rne_mono h1
    exact mul_le_mul_of_nonneg_right (by exact_mod_cast h2) (f.ulp_pos y).le
  · -- the exponents differ: a power of two separates the two rounded values
    have hxle : f.round x ≤ 2 ^ (max (ilog2 |x|) f.emin + 1) := by
      have hu : f.ulp x * 2 ^ (f.prec : ℤ) = 2 ^ (max (ilog2 |x|) f.emin + 1) := by
        unfold Format.ulp
        rw [← zpow_add₀ (by norm_num)]
        congr 1
        ring
      have hq : x / f.ulp x ≤ 2 ^ (f.prec : ℤ) := by
        rw [div_le_iff₀ (f.ulp_pos x), mul_comm, hu]
        exact (lt_of_le_of_lt (le_abs_self x) a2).le
      have h2 := rne_mono hq
      rw [zpow_natCast_int, rne_intCast] at h2
      unfold Format.round
      rw [← hu, mul_comm (f.ulp x)]
      apply mul_le_mul_of_nonneg_right _ (f.ulp_pos x).le
      rw [zpow_natCast_int]
      exact_mod_cast h2
    have hyge : (2 : ℚ) ^ (max (ilog2 |y|) f.emin) ≤ f.round y := by
      obtain ⟨q, hq⟩ := Nat.exists_eq_add_of_le hp
      have hu : f.ulp y * 2 ^ (q : ℤ) = 2 ^ (max (ilog2 |y|) f.emin) := by
        unfold Format.ulp
        rw [← zpow_add₀ (by norm_num)]
        congr 1
        rw [hq]
        push_cast
        ring
      have h4 := (b3 hy.ne' (by omega)).trans_eq (abs_of_pos hy)
      have hq2 : (2 : ℚ) ^ (q : ℤ) ≤ y / f.ulp y := by
        rw [le_div_iff₀ (f.ulp_pos y), mul_comm, hu]
        exact h4
      have h2 := rne_mono hq2
      rw [zpow_natCast_int, rne_intCast] at h2
      unfold Format.round
      rw [← hu, mul_comm (f.ulp y)]
      apply mul_le_mul_of_nonneg_right _ (f.ulp_pos y).le
      rw [zpow_natCast_int]
      exact_mod_cast h2
    have hpw : (2 : ℚ) ^ (max (ilog2 |x|) f.emin + 1) ≤ 2 ^ (max (ilog2 |y|) f.emin) :=
      two_zpow_le (by omega)
    linarith

/-- Rounding is monotone. -/
theorem Format.round_mono (f : Format) (hp : 1 ≤ f.prec) {x y : ℚ} (hxy : x ≤ y) :
    f.round x ≤ f.round y := by
  rcases lt_trichotomy 0 x with hx | hx | hx
  · exact f.round_mono_pos hp x y hx hxy
  · subst hx
    rw [Format.round_zero]
    exact f.round_nonneg y hxy
  · rcases le_or_lt 0 y with hy | hy
    · have h1 : 0 ≤ f.round (-x) := f.round_nonneg (-x) (by linarith)
      rw [Format.round_neg] at h1
      have h2 := f.round_nonneg y hy
      linarith
    · have h1 := f.round_mono_pos hp (-y) (-x) (by linarith) (by linarith)
      rw [Format.round_neg, Format.round_neg] at h1
      linarith

/-- A rounded value of magnitude at least `2 ^ j` is a multiple of
`2 ^ (j - (prec - 1))`. -/
theorem Format.round_grid (f : Format) (x : ℚ) (j : ℤ) (hj : (2 : ℚ) ^ j ≤ |x|) :
    ∃ n : ℤ, f.round x = n * 2 ^ (j - ((f.prec : ℤ) - 1)) := by
  have hx : 0 < |x| := lt_of_lt_of_le (two_zpow_pos j) hj
  have h1 : j ≤ max (ilog2 |x|) f.emin := by
    have := two_zpow_lt_iff.mp (lt_of_le_of_lt hj (ilog2_spec _ hx).2)
    have := le_max_left (ilog2 |x|) f.emin
    omega
  obtain ⟨m, hm⟩ := Int.eq_ofNat_of_zero_le (sub_nonneg.mpr h1)
  refine ⟨rne (x / f.ulp x) * 2 ^ m, ?_⟩
  have hu : f.ulp x = 2 ^ (m : ℤ) * 2 ^ (j - ((f.prec : ℤ) - 1)) := by
    unfold Format.ulp
    rw [← zpow_add₀ (by norm_num)]
    congr 1
    omega
  unfold Format.round
  rw [hu, zpow_natCast]
  push_cast
  ring

namespace Binary32

/-! ## The binary32 program: array loops -/

theorem fp_readAt_ok (a : List Fp) (m : Nat) (h : m < a.length) :
    readAt a (m : Int) = .ok (a.getD m (Fp.fin 0)) := by
  have h1 : (0 : Int) ≤ (m : Int) ∧ (m : Int) < (a.length : Int) :=
    ⟨Int.natCast_nonneg m, by exact_mod_cast h⟩
  simp only [readAt, if_pos h1, Int.toNat_ofNat]

theorem fp_writeAt_ok (a : List Fp) (m : Nat) (v : Fp) (h : m < a.length) :
    writeAt a (m : Int) v = .ok (a.set m v) := by
  have h1 : (0 : Int) ≤ (m : Int) ∧ (m : Int) < (a.length : Int) :=
    ⟨Int.natCast_nonneg m, by exact_mod_cast h⟩
  simp only [writeAt, if_pos h1, Int.toNat_ofNat]

theorem fp_sumLoop_ok (a : List Fp) :
    ∀ (n m : Nat) (sum : Fp), m + n ≤ a.length →
      sumLoop a n (m : Int) sum
        = .ok ((List.range n).foldl
            (fun s t => Fp.add binary32 s (a.getD (m + t) (Fp.fin 0))) sum) := by
  intro n
  induction n with
  | zero => intro m sum _; simp [sumLoop]
  | succ n ih =>
    intro m sum h
    have hm : m < a.length := by omega
    have hcast : ((m : Int) + 1) = ((m + 1 : Nat) : Int) := by push_cast; rfl
    simp only [sumLoop, fp_readAt_ok a m hm, bind, Except.bind]
    rw [hcast, ih (m + 1) (Fp.add binary32 sum (a.getD m (Fp.fin 0))) (by omega),
      List.range_succ_eq_map, List.foldl_cons, List.foldl_map]
    have : ∀ t, m + 1 + t = m + Nat.succ t := fun t => by omega
    simp only [this, add_zero]

theorem ofRat_zero (f : Format) : f.ofRat 0 = Fp.fin 0 := by
  unfold Format.ofRat
  rw [Format.round_zero, abs_zero, if_neg (not_le.mpr (two_zpow_pos _))]

theorem energy_fin_zero : energy (Fp.fin 0) = Fp.fin 0 := by
  show Fp.mul binary32 (binary32.ofRat (0 * 0)) (Fp.fin 2) = _
  rw [mul_zero, ofRat_zero]
  show binary32.ofRat (0 * 2) = _
  rw [zero_mul, ofRat_zero]

theorem fp_calculateSampleLoop_ok :
    ∀ (n m : Nat) (a : List Fp), m + n ≤ a.length →
      ∃ b, calculateSampleLoop n (m : Int) a = .ok b ∧ b.length = a.length ∧
        ∀ k, b.getD k (Fp.fin 0)
          = if m ≤ k ∧ k < m + n then energy (a.getD k (Fp.fin 0)) else a.getD k (Fp.fin 0) := by
  intro n
  induction n with
  | zero =>
    intro m a _
    refine ⟨a, rfl, rfl, fun k => ?_⟩
    have : ¬ (m ≤ k ∧ k < m + 0) := by omega
    rw [if_neg this]
  | succ n ih =>
    intro m a h
    have hm : m < a.length := by omega
    have hcast : ((m : Int) + 1) = ((m + 1 : Nat) : Int) := by push_cast; rfl
    obtain ⟨b, hb, hlen, hget⟩ := ih (m + 1) (a.set m (energy (a.getD m (Fp.fin 0))))
      (by rw [List.length_set]; omega)
    refine ⟨b, ?_, by rw [hlen, List.length_set], fun k => ?_⟩
    · simp only [calculateSampleLoop, fp_readAt_ok a m hm, fp_writeAt_ok a m _ hm, bind,
        Except.bind]
      rw [hcast]
      exact hb
    · rw [hget k]
      simp only [List.getD_eq_getElem?_getD, List.getElem?_set]
      by_cases hk : m = k
      · subst hk
        have h1 : ¬ (m + 1 ≤ m ∧ m < m + 1 + n) := by omega
        have h2 : m ≤ m ∧ m < m + (n + 1) := by omega
        simp [h1, h2, hm, List.getElem?_eq_getElem hm]
      · by_cases hr : m + 1 ≤ k ∧ k < m + 1 + n
        · have h2 : m ≤ k ∧ k < m + (n + 1) := by omega
          simp [hr, h2, hk]
        · have h2 : ¬ (m ≤ k ∧ k < m + (n + 1)) := by omega
          simp [hr, h2, hk]

theorem fp_list_eq_of_getD (l1 l2 : List Fp) (hlen : l1.length = l2.length)
    (h : ∀ k, l1.getD k (Fp.fin 0) = l2.getD k (Fp.fin 0)) : l1 = l2 := by
  apply List.ext_getElem hlen
  intro n h1 h2
  have := h n
  simpa [List.getD_eq_getElem?_getD, List.getElem?_eq_getElem h1,
    List.getElem?_eq_getElem h2] using this

theorem fp_energized_length (input : List Fp) (N : Nat) :
    (energized input N).length = input.length := by
  simp only [energized, List.length_append, List.length_map, List.length_take,
    List.length_drop]
  omega

theorem fp_energized_getD (input : List Fp) (N k : Nat) :
    (energized input N).getD k (Fp.fin 0)
      = if k < N then energy (input.getD k (Fp.fin 0)) else input.getD k (Fp.fin 0) := by
  simp only [energized, List.getD_eq_getElem?_getD]
  by_cases hk : k < N
  · rw [if_pos hk]
    by_cases hl : k < input.length
    · rw [List.getElem?_append_left (by simp; omega)]
      simp [List.getElem?_take, hk, List.getElem?_eq_getElem hl]
    · rw [List.getElem?_append_right (by simp; omega)]
      have h1 : input[k]? = none := List.getElem?_eq_none (by omega)
      have h2 : input[N + (k - (List.map energy (List.take N input)).length)]? = none :=
        List.getElem?_eq_none (by simp; omega)
      rw [List.getElem?_drop, h1, h2]
      simp [energy_fin_zero]
  · rw [if_neg hk]
    rw [List.getElem?_append_right (by simp; omega)]
    simp only [List.length_map, List.length_take, List.getElem?_drop]
    by_cases hl : N ≤ input.length
    · rw [min_eq_left hl]
      congr 2; omega
    · rw [min_eq_right (by omega)]
      have h1 : input[k]? = none := List.getElem?_eq_none (by omega)
      have h2 : input[N + (k - input.length)]? = none := List.getElem?_eq_none (by omega)
      rw [h1, h2]

theorem fp_energized_zero (input : List Fp) : energized input 0 = input := by
  simp [energized]

theorem fp_calculateSample_eq_loop (a : List Fp) (N : Nat) :
    calculateSample a ((N : Int) + 44100) = calculateSampleLoop 44100 N a := by
  have h1 : (N : Int) + 44100 - SAMPLES_PER_SECOND = (N : Int) := by
    simp only [SAMPLES_PER_SECOND]; omega
  have h2 : ((N : Int) + 44100 - (N : Int)).toNat = 44100 := by omega
  show calculateSampleLoop
      ((N : Int) + 44100 - ((N : Int) + 44100 - SAMPLES_PER_SECOND)).toNat
      ((N : Int) + 44100 - SAMPLES_PER_SECOND) a = _
  rw [h1]
  rw [h2]

theorem fp_calculateSample_energized (input : List Fp) (N : Nat)
    (h : N + 44100 ≤ input.length) :
    calculateSample (energized input N) ((N : Int) + 44100)
      = .ok (energized input (N + 44100)) := by
  obtain ⟨b, hb, hlen, hget⟩ := fp_calculateSampleLoop_ok 44100 N (energized input N)
    (by rw [fp_energized_length]; exact h)
  refine (fp_calculateSample_eq_loop _ N).trans (hb.trans ?_)
  have hbe : b = energized input (N + 44100) := by
    apply fp_list_eq_of_getD
    · rw [hlen, fp_energized_length, fp_energized_length]
    · intro k
      rw [hget k, fp_energized_getD, fp_energized_getD]
      by_cases h3 : N ≤ k ∧ k < N + 44100
      · have h4 : ¬ k < N := by omega
        rw [if_pos h3, if_neg h4, if_pos h3.2]
      · rw [if_neg h3]
        by_cases h4 : k < N
        · rw [if_pos h4, if_pos (by omega)]
        · rw [if_neg h4, if_neg (by omega)]
  rw [hbe]

/-! ## The binary32 program: the block sums of `getBlocks` -/

theorem fp_bind_ok {α β : Type} (x : α) (f : α → Except Fault β) :
    (Except.ok x >>= f) = f x := rfl

theorem fp_getBlocksLoop_succ (a : List Fp) (k : Nat) (i spb : Int) :
    getBlocksLoop a (k + 1) i spb
      = (sumLoop a (spb - i).toNat i (Fp.fin 0) >>= fun sum =>
          getBlocksLoop a k (i + (spb - i).toNat) (spb + SAMPLES_PER_BLOCK) >>= fun rest =>
            .ok (sum :: rest)) := rfl

theorem fp_getBlocksLoop_ok (a : List Fp) :
    ∀ (k m : Nat), m + 1024 * k ≤ a.length →
      getBlocksLoop a k (m : Int) ((m : Int) + 1024)
        = .ok ((List.range k).map
            (fun j => (List.range 1024).foldl
              (fun s t => Fp.add binary32 s (a.getD (m + 1024 * j + t) (Fp.fin 0)))
              (Fp.fin 0))) := by
  intro k
  induction k with
  | zero => intro m _; rfl
  | succ k ih =>
    intro m h
    have h1 : ((m : Int) + 1024 - (m : Int)).toNat = 1024 := by omega
    have h2 : (m : Int) + ((1024 : Nat) : Int) = ((m + 1024 : Nat) : Int) := by push_cast; rfl
    have h3 : (m : Int) + 1024 + SAMPLES_PER_BLOCK = ((m + 1024 : Nat) : Int) + 1024 := by
      simp only [SAMPLES_PER_BLOCK]; push_cast; rfl
    have h4 := fp_sumLoop_ok a 1024 m (Fp.fin 0) (by omega)
    have h5 := ih (m + 1024) (by omega)
    rw [fp_getBlocksLoop_succ]
    rw [h1]
    rw [h2]
    rw [h3]
    rw [h4]
    rw [h5]
    rw [fp_bind_ok, fp_bind_ok]
    rw [List.range_succ_eq_map k, List.map_cons, List.map_map]
    have hmap : List.map
          (fun j => (List.range 1024).foldl
            (fun s t => Fp.add binary32 s (a.getD (m + 1024 + 1024 * j + t) (Fp.fin 0)))
            (Fp.fin 0))
          (List.range k)
        = List.map ((fun j => (List.range 1024).foldl
            (fun s t => Fp.add binary32 s (a.getD (m + 1024 * j + t) (Fp.fin 0)))
            (Fp.fin 0)) ∘ Nat.succ) (List.range k) :=
      by
        apply List.map_congr_left
        intro j _
        have e : ∀ t, m + 1024 + 1024 * j + t = m + 1024 * (j + 1) + t := fun t => by ring
        simp only [Function.comp, Nat.succ_eq_add_one, e]
    rw [hmap]
    simp only [Nat.mul_zero, Nat.add_zero]

theorem foldl_range_congr {β : Type} (f g : β → Nat → β) (n : Nat) (init : β)
    (h : ∀ s t, t < n → f s t = g s t) :
    (List.range n).foldl f init = (List.range n).foldl g init := by
  induction n with
  | zero => rfl
  | succ n ih =>
    rw [List.range_succ, List.foldl_append, List.foldl_append,
      ih (fun s t ht => h s t (by omega))]
    simp only [List.foldl_cons, List.foldl_nil]
    exact h _ n (Nat.lt_succ_self n)

theorem fp_getBlocks_energized (input : List Fp) (w : Nat)
    (h : 44100 * (w + 1) ≤ input.length) :
    getBlocks (energized input (44100 * (w + 1))) (1024 + 44100 * (w : Int))
        (44100 * ((w : Int) + 1))
      = .ok (windowEnergies input w) := by
  have h1 : 44100 * ((w : Int) + 1) - SAMPLES_PER_SECOND = ((44100 * w : Nat) : Int) := by
    simp only [SAMPLES_PER_SECOND]; push_cast; ring
  have h2 : 1024 + 44100 * (w : Int) = ((44100 * w : Nat) : Int) + 1024 := by
    push_cast; ring
  show getBlocksLoop _ BLOCKS (44100 * ((w : Int) + 1) - SAMPLES_PER_SECOND) _ = _
  have h3 := fp_getBlocksLoop_ok (energized input (44100 * (w + 1))) BLOCKS (44100 * w)
    (by rw [fp_energized_length]; simp only [BLOCKS]; omega)
  rw [h1]
  rw [h2]
  rw [h3]
  apply congrArg Except.ok
  apply List.map_congr_left
  intro j hj
  have hj' : j < 43 := List.mem_range.mp hj
  refine foldl_range_congr
    (fun s t => Fp.add binary32 s
      ((energized input (44100 * (w + 1))).getD (44100 * w + 1024 * j + t) (Fp.fin 0)))
    (fun s t => Fp.add binary32 s
      (energy (input.getD (44100 * w + 1024 * j + t) (Fp.fin 0)))) 1024 (Fp.fin 0) ?_
  intro s t ht
  show Fp.add binary32 s _ = Fp.add binary32 s _
  rw [fp_energized_getD, if_pos (by omega)]

theorem fp_windowEnergies_length (input : List Fp) (w : Nat) :
    (windowEnergies input w).length = BLOCKS := by
  simp [windowEnergies]

/-! ## The binary32 program: the driver loop -/

theorem fp_stateAfter_succ (input : List Fp) (W : Nat) :
    stateAfter input (W + 1)
      = windowRest (stateAfter input W) (energized input (44100 * (W + 1)))
          (windowEnergies input W) := rfl

theorem fp_stateAfter_samples (input : List Fp) (W : Nat) :
    (stateAfter input W).samples = 44100 * ((W : Int) + 1) := by
  induction W with
  | zero => rfl
  | succ W ih =>
    have e : (stateAfter input (W + 1)).samples = (stateAfter input W).samples + 44100 := rfl
    rw [e, ih]
    push_cast
    ring

theorem fp_stateAfter_samplesPerBlock (input : List Fp) (W : Nat) :
    (stateAfter input W).samplesPerBlock = 1024 + 44100 * (W : Int) := by
  induction W with
  | zero => rfl
  | succ W ih =>
    have e : (stateAfter input (W + 1)).samplesPerBlock
        = (stateAfter input W).samplesPerBlock + 44100 := rfl
    rw [e, ih]
    push_cast
    ring

theorem fp_stateAfter_sampleArray (input : List Fp) (W : Nat) :
    (stateAfter input W).sampleArray = energized input (44100 * W) := by
  cases W with
  | zero => exact (fp_energized_zero input).symm
  | succ W => rfl

theorem fp_windowBody_eq (s : MainState) :
    windowBody s
      = (calculateSample s.sampleArray s.samples >>= fun sampleArray =>
          getBlocks sampleArray s.samplesPerBlock s.samples >>= fun ej =>
            .ok (windowRest s sampleArray ej)) := rfl

theorem fp_calculateSample_window (input : List Fp) (W : Nat)
    (h : 44100 * (W + 1) ≤ input.length) :
    calculateSample (energized input (44100 * W)) (44100 * ((W : Int) + 1))
      = .ok (energized input (44100 * (W + 1))) := by
  have h1 : (44100 : Int) * ((W : Int) + 1) = ((44100 * W : Nat) : Int) + 44100 := by
    push_cast; ring
  have h2 := fp_calculateSample_energized input (44100 * W) (by omega)
  have h3 : 44100 * W + 44100 = 44100 * (W + 1) := by ring
  rw [h3, ← h1] at h2
  exact h2

theorem fp_windowBody_stateAfter (input : List Fp) (W : Nat)
    (h : 44100 * (W + 1) ≤ input.length) :
    windowBody (stateAfter input W) = .ok (stateAfter input (W + 1)) := by
  have h2 := fp_calculateSample_window input W h
  have h4 := fp_getBlocks_energized input W h
  rw [fp_windowBody_eq]
  rw [fp_stateAfter_sampleArray, fp_stateAfter_samples, fp_stateAfter_samplesPerBlock, h2]
  rw [fp_bind_ok, h4, fp_bind_ok, fp_stateAfter_succ]

theorem fp_mainLoop_succ (n : Nat) (i : Int) (s : MainState) :
    mainLoop (n + 1) i s
      = if i = s.samples - 1 then windowBody s >>= fun s => mainLoop n (i + 1) s
        else mainLoop n (i + 1) s := rfl

theorem fp_mainLoop_skip : ∀ (n : Nat) (i : Int) (s : MainState),
    i + n ≤ s.samples - 1 → mainLoop n i s = .ok s := by
  intro n
  induction n with
  | zero => intro i s _; rfl
  | succ n ih =>
    intro i s h
    have hne : ¬ i = s.samples - 1 := by push_cast at h; omega
    rw [fp_mainLoop_succ, if_neg hne]
    exact ih (i + 1) s (by push_cast at h; omega)

theorem fp_mainLoop_add : ∀ (a b : Nat) (i : Int) (s : MainState),
    mainLoop (a + b) i s = mainLoop a i s >>= fun s => mainLoop b (i + a) s := by
  intro a
  induction a with
  | zero =>
    intro b i s
    simp only [Nat.zero_add, Nat.cast_zero, add_zero]
    rfl
  | succ a ih =>
    intro b i s
    have e : a + 1 + b = (a + b) + 1 := by omega
    have ei : ∀ s, mainLoop b (i + 1 + (a : Int)) s = mainLoop b (i + ((a + 1 : Nat) : Int)) s := by
      intro s; congr 1; push_cast; ring
    rw [e, fp_mainLoop_succ, fp_mainLoop_succ]
    by_cases hi : i = s.samples - 1
    · rw [if_pos hi, if_pos hi]
      cases hw : windowBody s with
      | error e => rfl
      | ok s1 =>
        simp only [bind, Except.bind]
        rw [ih b (i + 1) s1]
        simp only [bind, Except.bind, ei]
    · rw [if_neg hi, if_neg hi, ih b (i + 1) s]
      simp only [bind, Except.bind, ei]

theorem fp_mainLoop_stateAfter (input : List Fp) :
    ∀ (q w n : Nat), n / 44100 = q → 44100 * w + n ≤ input.length →
      mainLoop n (44100 * (w : Int)) (stateAfter input w)
        = .ok (stateAfter input (w + q)) := by
  intro q
  induction q with
  | zero =>
    intro w n hq _
    have hn : n < 44100 := by omega
    exact fp_mainLoop_skip n _ _ (by rw [fp_stateAfter_samples]; omega)
  | succ q ih =>
    intro w n hq hlen
    obtain ⟨n1, rfl⟩ : ∃ n1, n = 44099 + (n1 + 1) := ⟨n - 44100, by omega⟩
    rw [fp_mainLoop_add, fp_mainLoop_skip 44099 _ _
      (by rw [fp_stateAfter_samples]; push_cast; omega), fp_bind_ok]
    have hi : 44100 * (w : Int) + ((44099 : Nat) : Int) = (stateAfter input w).samples - 1 := by
      rw [fp_stateAfter_samples]; push_cast; ring
    rw [fp_mainLoop_succ, if_pos hi, fp_windowBody_stateAfter input w (by omega), fp_bind_ok]
    have hi2 : 44100 * (w : Int) + ((44099 : Nat) : Int) + 1 = 44100 * ((w + 1 : Nat) : Int) := by
      push_cast; ring
    rw [hi2, ih (w + 1) n1 (by omega) (by omega)]
    have : w + 1 + q = w + (q + 1) := by omega
    rw [this]

/-- The binary32 driver loop never faults, and it ends in the closed-form state after
`totalSamples / 44100` windows. -/
theorem fp_run_eq (input : List Fp) :
    run input = .ok (stateAfter input (input.length / 44100)) := by
  have h := fp_mainLoop_stateAfter input (input.length / 44100) 0 input.length rfl (by omega)
  simpa [run, stateAfter] using h

theorem fp_main_eq (input : List Fp) :
    main input = bpmExpr (stateAfter input (input.length / 44100)).beats input.length := by
  unfold main
  rw [fp_run_eq, fp_bind_ok]

/-! ## The binary32 program: the log of processed windows -/

theorem fp_stateAfter_log_succ (input : List Fp) (W : Nat) :
    (stateAfter input (W + 1)).log = (stateAfter input W).log ++ [recordAfter input W] := rfl

theorem fp_stateAfter_log (input : List Fp) (W : Nat) :
    (stateAfter input W).log = (List.range W).map (recordAfter input) := by
  induction W with
  | zero => rfl
  | succ W ih =>
    rw [fp_stateAfter_log_succ, ih, List.range_succ, List.map_append, List.map_singleton]

theorem fp_stateAfter_log_length (input : List Fp) (W : Nat) :
    (stateAfter input W).log.length = W := by
  rw [fp_stateAfter_log, List.length_map, List.length_range]

theorem fp_stateAfter_log_getElem? (input : List Fp) (W w : Nat) :
    (stateAfter input W).log[w]? = if w < W then some (recordAfter input w) else none := by
  rw [fp_stateAfter_log, List.getElem?_map]
  by_cases h : w < W
  · rw [if_pos h, List.getElem?_range h]; rfl
  · rw [if_neg h, List.getElem?_eq_none (by simpa using h)]; rfl

theorem fp_log_getElem?_eq (input : List Fp) (W w : Nat) (r : WindowRecord)
    (h : (stateAfter input W).log[w]? = some r) : w < W ∧ r = recordAfter input w := by
  rw [fp_stateAfter_log_getElem?] at h
  by_cases hw : w < W
  · rw [if_pos hw] at h
    exact ⟨hw, (Option.some.inj h).symm⟩
  · rw [if_neg hw] at h
    exact absurd h (by simp)

theorem fp_recordAfter_beats_peak (input : List Fp) (w : Nat) :
    ((recordAfter input w).beats, (recordAfter input w).peak)
      = beatLoop (windowEnergies input w)
          (Fp.mul binary32 (recordAfter input w).c (recordAfter input w).avg)
          (stateAfter input w).beats (stateAfter input w).peak := by
  simp only [recordAfter]

theorem fp_stateAfter_succ_beats (input : List Fp) (W : Nat) :
    (stateAfter input (W + 1)).beats = (recordAfter input W).beats := rfl

theorem fp_stateAfter_succ_peak (input : List Fp) (W : Nat) :
    (stateAfter input (W + 1)).peak = (recordAfter input W).peak := rfl

theorem fp_entryState_stateAfter (input : List Fp) (W w : Nat) (h : w ≤ W) :
    entryState (stateAfter input W).log w
      = ((stateAfter input w).beats, (stateAfter input w).peak) := by
  cases w with
  | zero => rfl
  | succ w =>
    have hlog : (stateAfter input W).log[w]? = some (recordAfter input w) := by
      rw [fp_stateAfter_log_getElem?, if_pos (by omega)]
    show (match (stateAfter input W).log[w]? with
      | some r => (r.beats, r.peak)
      | none => (0, 0)) = _
    rw [hlog]
    rfl

/-! ## The binary32 program: the beat loop -/

theorem fp_range_map_getD (l : List Fp) :
    (List.range l.length).map (fun j => l.getD j (Fp.fin 0)) = l := by
  apply List.ext_getElem
  · simp
  · intro n h1 h2
    simp [List.getD_eq_getElem?_getD, List.getElem?_eq_getElem h2]

theorem fp_range_foldl_getD {β : Type} (f : β → Fp → β) (init : β) (l : List Fp) (n : Nat)
    (h : l.length = n) :
    (List.range n).foldl (fun st j => f st (l.getD j (Fp.fin 0))) init = l.foldl f init := by
  subst h
  conv_rhs => rw [← fp_range_map_getD l]
  rw [List.foldl_map]

theorem fp_beatLoop_eq_foldl (ej : List Fp) (threshold : Fp) (beats peak : Int)
    (h : ej.length = BLOCKS) :
    beatLoop ej threshold beats peak = ej.foldl (beatRule threshold) (beats, peak) :=
  fp_range_foldl_getD (beatRule threshold) (beats, peak) ej BLOCKS h

theorem fp_foldl_beatRule_low (threshold : Fp) (lows : List Fp)
    (h : ∀ e ∈ lows, Fp.gt e threshold = false) (beats : Int) :
    lows.foldl (beatRule threshold) (beats, 0) = (beats, 0) := by
  induction lows with
  | nil => rfl
  | cons e t ih =>
    have he : Fp.gt e threshold = false := h e (List.mem_cons_self e t)
    simp only [List.foldl_cons, beatRule, he, Bool.false_eq_true, if_false]
    exact ih (fun x hx => h x (List.mem_cons_of_mem e hx))

theorem fp_foldl_beatRule_high (threshold : Fp) (highs : List Fp)
    (h : ∀ e ∈ highs, Fp.gt e threshold = true) :
    ∀ beats peak : Int, 0 ≤ peak → peak < 4 →
      highs.foldl (beatRule threshold) (beats, peak)
        = (beats + (peak + highs.length) / 4, (peak + highs.length) % 4) := by
  induction highs with
  | nil =>
    intro beats peak h0 h4
    simp only [List.foldl_nil, List.length_nil, Nat.cast_zero, add_zero]
    have h1 : peak / 4 = 0 := by omega
    have h2 : peak % 4 = peak := by omega
    rw [h1, h2, add_zero]
  | cons e t ih =>
    intro beats peak h0 h4
    have he : Fp.gt e threshold = true := h e (List.mem_cons_self e t)
    have ht : ∀ x ∈ t, Fp.gt x threshold = true :=
      fun x hx => h x (List.mem_cons_of_mem e hx)
    simp only [List.foldl_cons, beatRule, he, if_true, List.length_cons, Nat.cast_add,
      Nat.cast_one]
    by_cases hp : peak + 1 = 4
    · rw [if_pos hp, ih ht (beats + 1) 0 (by omega) (by omega)]
      refine Prod.ext ?_ ?_ <;> simp only <;> omega
    · rw [if_neg hp, ih ht beats (peak + 1) (by omega) (by omega)]
      refine Prod.ext ?_ ?_ <;> simp only <;> omega

theorem fp_beatLoop_all_high (ej : List Fp) (threshold : Fp) (beats peak : Int)
    (hlen : ej.length = BLOCKS) (hhigh : ∀ e ∈ ej, Fp.gt e threshold = true)
    (h0 : 0 ≤ peak) (h4 : peak < 4) :
    beatLoop ej threshold beats peak = (beats + (peak + 43) / 4, (peak + 43) % 4) := by
  rw [fp_beatLoop_eq_foldl _ _ _ _ hlen,
    fp_foldl_beatRule_high threshold ej hhigh beats peak h0 h4, hlen]
  rfl

theorem fp_beatLoop_all_low (ej : List Fp) (threshold : Fp) (beats : Int)
    (hlen : ej.length = BLOCKS) (hlow : ∀ e ∈ ej, Fp.gt e threshold = false) :
    beatLoop ej threshold beats 0 = (beats, 0) := by
  rw [fp_beatLoop_eq_foldl _ _ _ _ hlen]
  exact fp_foldl_beatRule_low threshold ej hlow beats

theorem fp_foldl_beatRule_peak (threshold : Fp) : ∀ (l : List Fp) (beats peak : Int),
    0 ≤ peak → peak ≤ 3 →
      0 ≤ (l.foldl (beatRule threshold) (beats, peak)).2
      ∧ (l.foldl (beatRule threshold) (beats, peak)).2 ≤ 3 := by
  intro l
  induction l with
  | nil => intro beats peak h0 h3; exact ⟨h0, h3⟩
  | cons e t ih =>
    intro beats peak h0 h3
    rw [List.foldl_cons]
    unfold beatRule
    by_cases he : Fp.gt e threshold = true
    · rw [if_pos he]
      by_cases hp : peak + 1 = 4
      · rw [if_pos hp]
        exact ih _ 0 (le_refl 0) (by norm_num)
      · rw [if_neg hp]
        exact ih _ (peak + 1) (by omega) (by omega)
    · rw [if_neg he]
      exact ih _ 0 (le_refl 0) (by norm_num)

theorem fp_stateAfter_peak (input : List Fp) (W : Nat) :
    0 ≤ (stateAfter input W).peak ∧ (stateAfter input W).peak ≤ 3 := by
  induction W with
  | zero => exact ⟨le_refl _, (by show (0 : Int) ≤ 3; norm_num)⟩
  | succ W ih =>
    obtain ⟨i0, i3⟩ := ih
    have h := fp_foldl_beatRule_peak
      (Fp.mul binary32 (recordAfter input W).c (recordAfter input W).avg)
      (windowEnergies input W) (stateAfter input W).beats (stateAfter input W).peak i0 i3
    rw [← fp_beatLoop_eq_foldl _ _ _ _ (fp_windowEnergies_length input W),
      ← fp_recordAfter_beats_peak] at h
    rw [fp_stateAfter_succ_peak]
    dsimp only at h
    exact h

end Binary32

/-! ## Floating-point operations -/

theorem Format.round_pow (f : Format) (hp : 1 ≤ f.prec) (j : ℤ)
    (hj : f.emin - ((f.prec : ℤ) - 1) ≤ j) : f.round (2 ^ j) = 2 ^ j := by
  refine f.round_exact hp _ 1 j (by simp) ?_ hj
  rw [abs_one]
  exact one_le_pow₀ (by norm_num)

theorem Format.round_le_pow (f : Format) (hp : 1 ≤ f.prec) (x : ℚ) (j : ℤ)
    (hj : f.emin - ((f.prec : ℤ) - 1) ≤ j) (hx : x ≤ 2 ^ j) : f.round x ≤ 2 ^ j := by
  have := f.round_mono hp hx
  rwa [f.round_pow hp j hj] at this

theorem Format.round_abs_le (f : Format) (hp : 1 ≤ f.prec) (x : ℚ) (j : ℤ)
    (hj : f.emin - ((f.prec : ℤ) - 1) ≤ j) (hx : |x| ≤ 2 ^ j) : |f.round x| ≤ 2 ^ j := by
  rw [abs_le] at hx ⊢
  constructor
  · have h := f.round_le_pow hp (-x) j hj (by linarith [hx.1])
    rw [Format.round_neg] at h
    linarith
  · exact f.round_le_pow hp x j hj hx.2

/-- An operation whose exact result has magnitude at most `2 ^ j`, `j ≤ emax`, does not
overflow. -/
theorem Format.ofRat_eq_fin (f : Format) (hp : 1 ≤ f.prec) (x : ℚ) (j : ℤ)
    (hj : f.emin - ((f.prec : ℤ) - 1) ≤ j) (hj2 : j ≤ f.emax) (hx : |x| ≤ 2 ^ j) :
    f.ofRat x = Fp.fin (f.round x) := by
  unfold Format.ofRat
  rw [if_neg]
  have h1 := f.round_abs_le hp x j hj hx
  have h2 : (2 : ℚ) ^ j < 2 ^ (f.emax + 1) := two_zpow_lt_iff.mpr (by omega)
  exact not_le.mpr (lt_of_le_of_lt h1 h2)

theorem Format.ofRat_cases (f : Format) (x : ℚ) :
    (f.ofRat x = Fp.fin (f.round x) ∧ |f.round x| < 2 ^ (f.emax + 1))
      ∨ (f.ofRat x = Fp.pinf ∧ 0 < x) ∨ (f.ofRat x = Fp.ninf ∧ x < 0) := by
  unfold Format.ofRat
  by_cases h : (2 : ℚ) ^ (f.emax + 1) ≤ |f.round x|
  · rw [if_pos h]
    right
    by_cases hx : 0 < x
    · left; rw [if_pos hx]; exact ⟨rfl, hx⟩
    · right
      rw [if_neg hx]
      refine ⟨rfl, lt_of_le_of_ne (not_lt.mp hx) ?_⟩
      intro h0
      rw [h0, Format.round_zero, abs_zero] at h
      exact absurd h (not_le.mpr (two_zpow_pos _))
  · rw [if_neg h]
    left
    exact ⟨rfl, not_le.mp h⟩

theorem Format.ofRat_nonneg (f : Format) (x : ℚ) (hx : 0 ≤ x) :
    f.ofRat x = Fp.pinf ∨ (f.ofRat x = Fp.fin (f.round x) ∧ 0 ≤ f.round x) := by
  rcases f.ofRat_cases x with h | h | h
  · exact Or.inr ⟨h.1, f.round_nonneg x hx⟩
  · exact Or.inl h.1
  · exact absurd h.2 (not_lt.mpr hx)

theorem Format.ofRat_nonpos (f : Format) (x : ℚ) (hx : x ≤ 0) :
    f.ofRat x = Fp.ninf ∨ (f.ofRat x = Fp.fin (f.round x) ∧ f.round x ≤ 0) := by
  rcases f.ofRat_cases x with h | h | h
  · refine Or.inr ⟨h.1, ?_⟩
    have := f.round_nonneg (-x) (by linarith)
    rw [Format.round_neg] at this
    linarith
  · exact absurd h.2 (not_lt.mpr hx)
  · exact Or.inl h.1

theorem Fp.notNeg_cases (x : Fp) (h : x.notNeg = true) :
    (∃ q, x = Fp.fin q ∧ 0 ≤ q) ∨ x = Fp.pinf ∨ x = Fp.nan := by
  cases x with
  | fin q => exact Or.inl ⟨q, rfl, of_decide_eq_true h⟩
  | pinf => exact Or.inr (Or.inl rfl)
  | ninf => exact absurd h Bool.false_ne_true
  | nan => exact Or.inr (Or.inr rfl)

theorem Fp.notNeg_fin (q : ℚ) (h : 0 ≤ q) : (Fp.fin q).notNeg = true :=
  decide_eq_true h

theorem Fp.notNeg_ofRat (f : Format) (x : ℚ) (hx : 0 ≤ x) : (f.ofRat x).notNeg = true := by
  rcases f.ofRat_nonneg x hx with h | ⟨h, h0⟩
  · rw [h]; rfl
  · rw [h]; exact Fp.notNeg_fin _ h0

theorem Fp.notNeg_add (f : Format) (x y : Fp) (hx : x.notNeg = true) (hy : y.notNeg = true) :
    (Fp.add f x y).notNeg = true := by
  rcases Fp.notNeg_cases x hx with ⟨a, rfl, ha⟩ | rfl | rfl <;>
    rcases Fp.notNeg_cases y hy with ⟨b, rfl, hb⟩ | rfl | rfl
  · exact Fp.notNeg_ofRat f _ (add_nonneg ha hb)
  all_goals rfl

theorem Fp.add_nan_right (f : Format) (x : Fp) : Fp.add f x Fp.nan = Fp.nan := by
  cases x <;> rfl

theorem Fp.add_nan_left (f : Format) (y : Fp) : Fp.add f Fp.nan y = Fp.nan := by
  cases y <;> rfl

/-- A finite sum has finite operands, and is the rounded exact sum. -/
theorem Fp.add_eq_fin (f : Format) (x y : Fp) (v : ℚ) (h : Fp.add f x y = Fp.fin v) :
    ∃ a b, x = Fp.fin a ∧ y = Fp.fin b ∧ v = f.round (a + b)
      ∧ |f.round (a + b)| < 2 ^ (f.emax + 1) := by
  cases x with
  | fin a =>
    cases y with
    | fin b =>
      refine ⟨a, b, rfl, rfl, ?_⟩
      have h' : f.ofRat (a + b) = Fp.fin v := h
      rcases f.ofRat_cases (a + b) with h1 | h1 | h1
      · rw [h1.1] at h'
        exact ⟨(Fp.fin.inj h').symm, h1.2⟩
      · rw [h1.1] at h'; exact Fp.noConfusion h'
      · rw [h1.1] at h'; exact Fp.noConfusion h'
    | pinf => exact Fp.noConfusion (show Fp.pinf = Fp.fin v from h)
    | ninf => exact Fp.noConfusion (show Fp.ninf = Fp.fin v from h)
    | nan => exact Fp.noConfusion (show Fp.nan = Fp.fin v from h)
  | pinf =>
    cases y with
    | fin b => exact Fp.noConfusion (show Fp.pinf = Fp.fin v from h)
    | pinf => exact Fp.noConfusion (show Fp.pinf = Fp.fin v from h)
    | ninf => exact Fp.noConfusion (show Fp.nan = Fp.fin v from h)
    | nan => exact Fp.noConfusion (show Fp.nan = Fp.fin v from h)
  | ninf =>
    cases y with
    | fin b => exact Fp.noConfusion (show Fp.ninf = Fp.fin v from h)
    | pinf => exact Fp.noConfusion (show Fp.nan = Fp.fin v from h)
    | ninf => exact Fp.noConfusion (show Fp.ninf = Fp.fin v from h)
    | nan => exact Fp.noConfusion (show Fp.nan = Fp.fin v from h)
  | nan => cases y <;> exact Fp.noConfusion (show Fp.nan = Fp.fin v from h)

/-! ### Sums accumulated in a loop -/

theorem foldl_range_succ {β : Type} (f : β → Nat → β) (n : Nat) (init : β) :
    (List.range (n + 1)).foldl f init = f ((List.range n).foldl f init) n := by
  rw [List.range_succ, List.foldl_append]
  rfl

theorem foldl_add_notNeg (f : Format) (g : Nat → Fp) (n : Nat)
    (hg : ∀ i, i < n → (g i).notNeg = true) :
    ((List.range n).foldl (fun s i => Fp.add f s (g i)) (Fp.fin 0)).notNeg = true := by
  induction n with
  | zero => exact Fp.notNeg_fin 0 le_rfl
  | succ n ih =>
    rw [foldl_range_succ]
    exact Fp.notNeg_add f _ _ (ih (fun i hi => hg i (by omega))) (hg n (by omega))

theorem foldl_add_nan (f : Format) (g : Nat → Fp) (n : Nat) (init : Fp)
    (hg : ∃ i, i < n ∧ g i = Fp.nan) :
    (List.range n).foldl (fun s i => Fp.add f s (g i)) init = Fp.nan := by
  induction n with
  | zero => obtain ⟨i, hi, _⟩ := hg; omega
  | succ n ih =>
    rw [foldl_range_succ]
    obtain ⟨i, hi, hn⟩ := hg
    by_cases h : i = n
    · subst h
      show Fp.add f _ (g i) = _
      rw [hn, Fp.add_nan_right]
    · show Fp.add f _ (g n) = _
      rw [ih ⟨i, by omega, hn⟩, Fp.add_nan_left]

/-- A sum of data that are not negative, one of which is not finite, is `+∞` or a
NaN. -/
theorem foldl_add_not_finite (f : Format) (g : Nat → Fp) (n : Nat)
    (hg : ∀ i, i < n → (g i).notNeg = true)
    (hi : ∃ i, i < n ∧ (g i = Fp.pinf ∨ g i = Fp.nan)) :
    (List.range n).foldl (fun s i => Fp.add f s (g i)) (Fp.fin 0) = Fp.pinf
      ∨ (List.range n).foldl (fun s i => Fp.add f s (g i)) (Fp.fin 0) = Fp.nan := by
  induction n with
  | zero => obtain ⟨i, hi, _⟩ := hi; omega
  | succ n ih =>
    rw [foldl_range_succ]
    have hacc := foldl_add_notNeg f g n (fun i hi => hg i (by omega))
    have hgn := hg n (by omega)
    obtain ⟨i, hin, hv⟩ := hi
    by_cases h : i = n
    · subst h
      rcases hv with hv | hv
      · show Fp.add f _ (g i) = _ ∨ Fp.add f _ (g i) = _
        rw [hv]
        rcases Fp.notNeg_cases _ hacc with ⟨a, ha, _⟩ | ha | ha <;> rw [ha]
        · left; rfl
        · left; rfl
        · right; rfl
      · right
        show Fp.add f _ (g i) = _
        rw [hv, Fp.add_nan_right]
    · have := ih (fun i hi => hg i (by omega)) ⟨i, by omega, hv⟩
      show Fp.add f _ (g n) = _ ∨ Fp.add f _ (g n) = _
      rcases this with h1 | h1 <;> rw [h1]
      · rcases Fp.notNeg_cases _ hgn with ⟨b, hb, _⟩ | hb | hb <;> rw [hb]
        · left; rfl
        · left; rfl
        · right; rfl
      · right; exact Fp.add_nan_left f _

/-- A sum of `n` finite terms in `[0, 2 ^ k]` is finite and at most `n * 2 ^ k`. -/
theorem foldl_add_le (f : Format) (hp : 1 ≤ f.prec) (g : Nat → Fp) (k : ℤ) (n : Nat)
    (hk : f.emin - ((f.prec : ℤ) - 1) ≤ k) (hk2 : k + f.prec ≤ f.emax)
    (hn : n ≤ 2 ^ f.prec)
    (hg : ∀ i, i < n → ∃ t, g i = Fp.fin t ∧ 0 ≤ t ∧ t ≤ 2 ^ k) :
    ∃ v, (List.range n).foldl (fun s i => Fp.add f s (g i)) (Fp.fin 0) = Fp.fin v
      ∧ 0 ≤ v ∧ v ≤ n * 2 ^ k := by
  induction n with
  | zero => exact ⟨0, rfl, le_rfl, by simp⟩
  | succ n ih =>
    obtain ⟨a, ha, ha0, ha1⟩ := ih (by omega) (fun i hi => hg i (by omega))
    obtain ⟨t, ht, ht0, ht1⟩ := hg n (by omega)
    rw [foldl_range_succ]
    show ∃ v, Fp.add f _ (g n) = _ ∧ _
    rw [ha, ht]
    have hsum : a + t ≤ ((n + 1 : ℕ) : ℚ) * 2 ^ k := by push_cast; linarith
    have hexact : f.round (((n + 1 : ℕ) : ℚ) * 2 ^ k) = ((n + 1 : ℕ) : ℚ) * 2 ^ k := by
      refine f.round_exact hp _ ((n + 1 : ℕ) : ℤ) k (by push_cast; rfl) ?_ hk
      rw [abs_of_nonneg (by positivity)]
      exact_mod_cast hn
    have hle : f.round (a + t) ≤ ((n + 1 : ℕ) : ℚ) * 2 ^ k := by
      have := f.round_mono hp hsum
      rwa [hexact] at this
    have h0 : 0 ≤ f.round (a + t) := f.round_nonneg _ (by linarith)
    have hbig : ((n + 1 : ℕ) : ℚ) * 2 ^ k ≤ 2 ^ (k + f.prec) := by
      rw [zpow_add₀ (by norm_num), zpow_natCast, mul_comm]
      apply mul_le_mul_of_nonneg_left _ (two_zpow_pos k).le
      exact_mod_cast hn
    have hfin : f.ofRat (a + t) = Fp.fin (f.round (a + t)) := by
      unfold Format.ofRat
      rw [if_neg]
      rw [abs_of_nonneg h0]
      have h2 : (2 : ℚ) ^ (k + f.prec) < 2 ^ (f.emax + 1) := two_zpow_lt_iff.mpr (by omega)
      exact not_le.mpr (by linarith)
    exact ⟨f.round (a + t), hfin, h0, hle⟩

/-- A sum of finite nonnegative terms is `+∞`, or finite, nonnegative and at least
`2 ^ k` if one of the terms is. -/
theorem foldl_add_ge (f : Format) (hp : 1 ≤ f.prec) (g : Nat → Fp) (k : ℤ) (n : Nat)
    (hk : f.emin - ((f.prec : ℤ) - 1) ≤ k)
    (hg : ∀ i, i < n → ∃ q, g i = Fp.fin q ∧ 0 ≤ q) :
    (List.range n).foldl (fun s i => Fp.add f s (g i)) (Fp.fin 0) = Fp.pinf
      ∨ ∃ s, (List.range n).foldl (fun s i => Fp.add f s (g i)) (Fp.fin 0) = Fp.fin s
          ∧ 0 ≤ s
          ∧ ((∃ i, i < n ∧ ∃ q, g i = Fp.fin q ∧ 2 ^ k ≤ q) → 2 ^ k ≤ s) := by
  induction n with
  | zero =>
    right
    refine ⟨0, rfl, le_rfl, ?_⟩
    rintro ⟨i, hi, _⟩
    omega
  | succ n ih =>
    obtain ⟨q, hq, hq0⟩ := hg n (by omega)
    rw [foldl_range_succ]
    rcases ih (fun i hi => hg i (by omega)) with h | ⟨s, hs, hs0, hsk⟩
    · left
      show Fp.add f _ (g n) = _
      rw [h, hq]
      rfl
    · show Fp.add f _ (g n) = _ ∨ ∃ s, Fp.add f _ (g n) = _ ∧ _
      rw [hs, hq]
      rcases f.ofRat_nonneg (s + q) (by linarith) with h | ⟨h, h0⟩
      · exact Or.inl h
      · right
        refine ⟨_, h, h0, ?_⟩
        rintro ⟨i, hi, q', hq', hbig⟩
        have hge : (2 : ℚ) ^ k ≤ s + q := by
          by_cases hin : i = n
          · subst hin
            rw [hq] at hq'
            have : q = q' := Fp.fin.inj hq'
            linarith
          · have := hsk ⟨i, by omega, q', hq', hbig⟩
            linarith
        have := f.round_mono hp hge
        rwa [f.round_pow hp k hk] at this

/-! ## The constants of the threshold policy -/

theorem round64_eq_of (x : ℚ) (e n : ℤ) (he : -1022 ≤ e) (hhi : |x| < 2 ^ (e + 1))
    (hlo : e = -1022 ∨ (2 : ℚ) ^ e ≤ |x|)
    (hn : |x / 2 ^ (e - 52) - n| < 1 / 2 ∨ (|x / 2 ^ (e - 52) - n| = 1 / 2 ∧ n % 2 = 0)) :
    binary64.round x = n * 2 ^ (e - 52) :=
  binary64.round_eq_of x e n he hhi hlo hn

theorem round32_eq_of (x : ℚ) (e n : ℤ) (he : -126 ≤ e) (hhi : |x| < 2 ^ (e + 1))
    (hlo : e = -126 ∨ (2 : ℚ) ^ e ≤ |x|)
    (hn : |x / 2 ^ (e - 23) - n| < 1 / 2 ∨ (|x / 2 ^ (e - 23) - n| = 1 / 2 ∧ n % 2 = 0)) :
    binary32.round x = n * 2 ^ (e - 23) :=
  binary32.round_eq_of x e n he hhi hlo hn

theorem round64_exact (x : ℚ) (n k : ℤ) (hx : x = n * 2 ^ k) (hn : |n| ≤ 2 ^ 53)
    (hk : -1074 ≤ k) : binary64.round x = x :=
  binary64.round_exact (by decide) x n k hx hn hk

theorem round32_exact (x : ℚ) (n k : ℤ) (hx : x = n * 2 ^ k) (hn : |n| ≤ 2 ^ 24)
    (hk : -149 ≤ k) : binary32.round x = x :=
  binary32.round_exact (by decide) x n k hx hn hk

/-- The `double` literal `-0.0000015`. -/
theorem round64_slope : binary64.round (-0.0000015) = -7083549724304468 / 2 ^ 72 := by
  rw [round64_eq_of (-0.0000015) (-20) (-7083549724304468) (by norm_num)
    (by rw [abs_lt]; constructor <;> norm_num)
    (Or.inr (by rw [le_abs]; right; norm_num))
    (Or.inl (by rw [abs_lt]; constructor <;> norm_num))]
  norm_num

/-- The `double` literal `1.5142857`. -/
theorem round64_intercept :
    binary64.round 1.5142857 = 6819736514252471 / 2 ^ 52 := by
  rw [round64_eq_of 1.5142857 0 6819736514252471 (by norm_num)
    (by rw [abs_lt]; constructor <;> norm_num)
    (Or.inr (by rw [le_abs]; left; norm_num))
    (Or.inl (by rw [abs_lt]; constructor <;> norm_num))]
  norm_num

/-- The `float` nearest to the `double` literal `1.5142857`. -/
theorem round32_intercept :
    binary32.round (6819736514252471 / 2 ^ 52) = 12702749 / 8388608 := by
  rw [round32_eq_of (6819736514252471 / 2 ^ 52) 0 12702749 (by norm_num)
    (by rw [abs_lt]; constructor <;> norm_num)
    (Or.inr (by rw [le_abs]; left; norm_num))
    (Or.inl (by rw [abs_lt]; constructor <;> norm_num))]
  norm_num

namespace Binary32

/-! ## The sensitivity constant in binary32 arithmetic -/

theorem ofRat64_slope :
    binary64.ofRat (-0.0000015) = Fp.fin (-7083549724304468 / 2 ^ 72) := by
  rw [binary64.ofRat_eq_fin (by decide) _ 0 (by decide) (by decide)
    (by rw [abs_le]; constructor <;> norm_num), round64_slope]

theorem ofRat64_intercept :
    binary64.ofRat 1.5142857 = Fp.fin (6819736514252471 / 2 ^ 52) := by
  rw [binary64.ofRat_eq_fin (by decide) _ 1 (by decide) (by decide)
    (by rw [abs_le]; constructor <;> norm_num), round64_intercept]

/-- For a finite variance of magnitude at most `2 ^ 128` no operation of the assignment
of `c` overflows. -/
theorem sensitivity_fin (v : ℚ) (hv : |v| ≤ 2 ^ (128 : ℤ)) :
    sensitivity (Fp.fin v) = Fp.fin (sensitivityValue v) := by
  have hp : 1 ≤ binary64.prec := by decide
  have h1 : binary64.ofRat v = Fp.fin (binary64.round v) :=
    binary64.ofRat_eq_fin hp v 128 (by decide) (by decide) hv
  have b1 : |binary64.round v| ≤ 2 ^ (128 : ℤ) :=
    binary64.round_abs_le hp v 128 (by decide) hv
  have hk : |(-7083549724304468 / 2 ^ 72 : ℚ)| ≤ 2 ^ (-19 : ℤ) := by
    rw [abs_le]; constructor <;> norm_num
  have b2 : |(-7083549724304468 / 2 ^ 72 : ℚ) * binary64.round v| ≤ 2 ^ (109 : ℤ) := by
    rw [abs_mul]
    have e : (2 : ℚ) ^ (109 : ℤ) = 2 ^ (-19 : ℤ) * 2 ^ (128 : ℤ) := by
      rw [← zpow_add₀ (by norm_num)]; norm_num
    rw [e]
    exact mul_le_mul hk b1 (abs_nonneg _) (two_zpow_pos _).le
  have h2 : binary64.ofRat ((-7083549724304468 / 2 ^ 72 : ℚ) * binary64.round v)
      = Fp.fin (binary64.round ((-7083549724304468 / 2 ^ 72 : ℚ) * binary64.round v)) :=
    binary64.ofRat_eq_fin hp _ 109 (by decide) (by decide) b2
  have b3 := binary64.round_abs_le hp _ 109 (by decide) b2
  have b4 : |binary64.round ((-7083549724304468 / 2 ^ 72 : ℚ) * binary64.round v)
      + 6819736514252471 / 2 ^ 52| ≤ 2 ^ (110 : ℤ) := by
    have e : (2 : ℚ) ^ (110 : ℤ) = 2 ^ (109 : ℤ) + 2 ^ (109 : ℤ) := by
      rw [show (110 : ℤ) = 109 + 1 by norm_num, two_zpow_succ]; ring
    have hK2 : |(6819736514252471 / 2 ^ 52 : ℚ)| ≤ 2 ^ (109 : ℤ) := by
      have : (2 : ℚ) ^ (1 : ℤ) ≤ 2 ^ (109 : ℤ) := two_zpow_le (by norm_num)
      have h' : |(6819736514252471 / 2 ^ 52 : ℚ)| ≤ 2 ^ (1 : ℤ) := by
        rw [abs_le]; constructor <;> norm_num
      linarith
    rw [e]
    exact le_trans (abs_add _ _) (add_le_add b3 hK2)
  have h3 := binary64.ofRat_eq_fin hp _ 110 (by decide) (by decide) b4
  have b5 := binary64.round_abs_le hp _ 110 (by decide) b4
  have h4 := binary32.ofRat_eq_fin (by decide) _ 110 (by decide) (by decide) b5
  unfold sensitivity sensitivityValue
  rw [ofRat64_slope, ofRat64_intercept, round64_slope, round64_intercept]
  show Fp.convert binary32 (Fp.add binary64 (Fp.mul binary64 _ (binary64.ofRat v)) _) = _
  rw [h1]
  show Fp.convert binary32 (Fp.add binary64 (binary64.ofRat _) _) = _
  rw [h2]
  show Fp.convert binary32 (binary64.ofRat _) = _
  rw [h3]
  exact h4

theorem sensitivity_pinf : sensitivity Fp.pinf = Fp.ninf := by
  unfold sensitivity
  rw [ofRat64_slope, ofRat64_intercept]
  have h : Fp.mul binary64 (Fp.fin (-7083549724304468 / 2 ^ 72))
      (Fp.convert binary64 Fp.pinf) = Fp.ninf := by
    show Fp.infTimes true _ = _
    unfold Fp.infTimes
    rw [if_neg (by norm_num), if_neg]
    simp only [decide_eq_true_eq]
    norm_num
  rw [h]
  rfl

theorem sensitivityValue_antitone {v w : ℚ} (h : v ≤ w) :
    sensitivityValue w ≤ sensitivityValue v := by
  have hp : 1 ≤ binary64.prec := by decide
  unfold sensitivityValue
  apply binary32.round_mono (by decide)
  apply binary64.round_mono hp
  apply add_le_add_right
  apply binary64.round_mono hp
  rw [round64_slope]
  have := binary64.round_mono hp h
  have hneg : (-7083549724304468 / 2 ^ 72 : ℚ) ≤ 0 := by norm_num
  exact mul_le_mul_of_nonpos_left this hneg

/-- For every variance from 0 to `1 / 64` the constant is the `float` nearest to
1.5142857. -/
theorem sensitivityValue_small (v : ℚ) (h0 : 0 ≤ v) (h1 : v ≤ 1 / 64) :
    sensitivityValue v = 12702749 / 8388608 := by
  have hp : 1 ≤ binary64.prec := by decide
  have hv0 : 0 ≤ binary64.round v := binary64.round_nonneg v h0
  have hv1 : binary64.round v ≤ 2 ^ (-6 : ℤ) :=
    binary64.round_le_pow hp v (-6) (by decide) (by norm_num; linarith)
  have hprod0 : (-7083549724304468 / 2 ^ 72 : ℚ) * binary64.round v ≤ 0 :=
    mul_nonpos_of_nonpos_of_nonneg (by norm_num) hv0
  have hprod1 : -(2 : ℚ) ^ (-25 : ℤ) ≤ (-7083549724304468 / 2 ^ 72 : ℚ) * binary64.round v := by
    have e : (2 : ℚ) ^ (-6 : ℤ) = 1 / 64 := by norm_num
    rw [e] at hv1
    have e2 : (2 : ℚ) ^ (-25 : ℤ) = 1 / 33554432 := by norm_num
    rw [e2]
    have hk : (-1 / 524288 : ℚ) ≤ -7083549724304468 / 2 ^ 72 := by norm_num
    nlinarith
  have hr0 : binary64.round ((-7083549724304468 / 2 ^ 72 : ℚ) * binary64.round v) ≤ 0 := by
    have := binary64.round_mono hp hprod0
    rwa [Format.round_zero] at this
  have hr1 : -(2 : ℚ) ^ (-25 : ℤ)
      ≤ binary64.round ((-7083549724304468 / 2 ^ 72 : ℚ) * binary64.round v) := by
    have := binary64.round_mono hp hprod1
    rwa [Format.round_neg, binary64.round_pow hp (-25) (by decide)] at this
  have hK2 : binary64.round (6819736514252471 / 2 ^ 52) = 6819736514252471 / 2 ^ 52 := by
    rw [← round64_intercept]
    exact binary64.round_idem hp _
  have hlo : binary64.round (6819736380034743 / 2 ^ 52) = 6819736380034743 / 2 ^ 52 :=
    round64_exact _ 6819736380034743 (-52) (by norm_num) (by norm_num) (by decide)
  have hy1 : binary64.round
      (binary64.round ((-7083549724304468 / 2 ^ 72 : ℚ) * binary64.round v)
        + 6819736514252471 / 2 ^ 52) ≤ 6819736514252471 / 2 ^ 52 := by
    have := binary64.round_mono hp (show
      binary64.round ((-7083549724304468 / 2 ^ 72 : ℚ) * binary64.round v)
        + 6819736514252471 / 2 ^ 52 ≤ 6819736514252471 / 2 ^ 52 by linarith)
    rwa [hK2] at this
  have hy0 : (6819736380034743 / 2 ^ 52 : ℚ) ≤ binary64.round
      (binary64.round ((-7083549724304468 / 2 ^ 72 : ℚ) * binary64.round v)
        + 6819736514252471 / 2 ^ 52) := by
    have e2 : (2 : ℚ) ^ (-25 : ℤ) = 1 / 33554432 := by norm_num
    rw [e2] at hr1
    have := binary64.round_mono hp (show (6819736380034743 / 2 ^ 52 : ℚ)
      ≤ binary64.round ((-7083549724304468 / 2 ^ 72 : ℚ) * binary64.round v)
        + 6819736514252471 / 2 ^ 52 by
      have : (6819736380034743 / 2 ^ 52 : ℚ) = 6819736514252471 / 2 ^ 52 - 1 / 33554432 := by
        norm_num
      linarith)
    rwa [hlo] at this
  have hlo32 : binary32.round (6819736380034743 / 2 ^ 52) = 12702749 / 8388608 := by
    rw [round32_eq_of (6819736380034743 / 2 ^ 52) 0 12702749 (by norm_num)
      (by rw [abs_lt]; constructor <;> norm_num)
      (Or.inr (by rw [le_abs]; left; norm_num))
      (Or.inl (by rw [abs_lt]; constructor <;> norm_num))]
    norm_num
  unfold sensitivityValue
  rw [round64_slope, round64_intercept]
  apply le_antisymm
  · have := binary32.round_mono (by decide) hy1
    rwa [round32_intercept] at this
  · have := binary32.round_mono (by decide) hy0
    rwa [hlo32] at this

/-- From the first `float` above `1.5142857 / 0.0000015` on, the constant is at most
`-2 ^ (-26)`. -/
theorem sensitivityValue_neg (v : ℚ) (hv : 16152381 / 16 ≤ v) :
    sensitivityValue v ≤ -(2 : ℚ) ^ (-26 : ℤ) := by
  have hp : 1 ≤ binary64.prec := by decide
  refine le_trans (sensitivityValue_antitone hv) ?_
  have hg : binary64.round (16152381 / 16) = 16152381 / 16 :=
    round64_exact _ 16152381 (-4) (by norm_num) (by norm_num) (by decide)
  have hU : binary64.round (-6819736581361335 / 2 ^ 52) = -6819736581361335 / 2 ^ 52 :=
    round64_exact _ (-6819736581361335) (-52) (by norm_num) (by norm_num) (by decide)
  have h1 : binary64.round ((-7083549724304468 / 2 ^ 72 : ℚ) * (16152381 / 16))
      ≤ -6819736581361335 / 2 ^ 52 := by
    have := binary64.round_mono hp (show (-7083549724304468 / 2 ^ 72 : ℚ) * (16152381 / 16)
      ≤ -6819736581361335 / 2 ^ 52 by norm_num)
    rwa [hU] at this
  have h2 : binary64.round
      (binary64.round ((-7083549724304468 / 2 ^ 72 : ℚ) * (16152381 / 16))
        + 6819736514252471 / 2 ^ 52) ≤ -(2 : ℚ) ^ (-26 : ℤ) := by
    have := binary64.round_mono hp (show
      binary64.round ((-7083549724304468 / 2 ^ 72 : ℚ) * (16152381 / 16))
        + 6819736514252471 / 2 ^ 52 ≤ -(2 : ℚ) ^ (-26 : ℤ) by
      have e : (2 : ℚ) ^ (-26 : ℤ) = 1 / 67108864 := by norm_num
      rw [e]
      have : (-6819736581361335 / 2 ^ 52 : ℚ) + 6819736514252471 / 2 ^ 52
          = -(1 / 67108864) := by norm_num
      linarith)
    rwa [Format.round_neg, binary64.round_pow hp (-26) (by decide)] at this
  unfold sensitivityValue
  rw [round64_slope, round64_intercept, hg]
  have := binary32.round_mono (by decide) h2
  rwa [Format.round_neg, binary32.round_pow (by decide) (-26) (by decide)] at this


/-! ## A window whose binary32 variance exceeds the bound -/

theorem getVariance_eq (ej : List Fp) (avg : Fp) :
    getVariance ej avg
      = (List.range 43).foldl
          (fun s i => Fp.add binary32 s (varianceTerm avg (ej.getD i (Fp.fin 0))))
          (Fp.fin 0) := rfl

theorem getAvg_eq (ej : List Fp) :
    getAvg ej
      = Fp.divNat binary32
          ((List.range 43).foldl (fun s i => Fp.add binary32 s (ej.getD i (Fp.fin 0)))
            (Fp.fin 0)) 43 := rfl

theorem varianceTerm_nan (e : Fp) : varianceTerm Fp.nan e = Fp.nan := by
  cases e <;> rfl

/-- A block energy within 512 of the mean contributes at most 8192 to the variance. -/
theorem varianceTerm_small (m q : ℚ) (h : |m - q| ≤ 2 ^ (9 : ℤ)) :
    ∃ t, varianceTerm (Fp.fin m) (Fp.fin q) = Fp.fin t ∧ 0 ≤ t ∧ t ≤ 2 ^ (13 : ℤ) := by
  have hp : 1 ≤ binary32.prec := by decide
  have h1 : binary32.ofRat (m - q) = Fp.fin (binary32.round (m - q)) :=
    binary32.ofRat_eq_fin hp _ 9 (by decide) (by decide) h
  have b1 : |binary32.round (m - q)| ≤ 2 ^ (9 : ℤ) :=
    binary32.round_abs_le hp _ 9 (by decide) h
  have hsq0 : 0 ≤ binary32.round (m - q) * binary32.round (m - q) := mul_self_nonneg _
  have hsq : |binary32.round (m - q) * binary32.round (m - q)| ≤ 2 ^ (18 : ℤ) := by
    rw [abs_mul]
    have e : (2 : ℚ) ^ (18 : ℤ) = 2 ^ (9 : ℤ) * 2 ^ (9 : ℤ) := by
      rw [← zpow_add₀ (by norm_num)]; norm_num
    rw [e]
    exact mul_le_mul b1 b1 (abs_nonneg _) (two_zpow_pos _).le
  have h2 := binary32.ofRat_eq_fin hp _ 18 (by decide) (by decide) hsq
  have b2 := binary32.round_abs_le hp _ 18 (by decide) hsq
  have p0 := binary32.round_nonneg _ hsq0
  rw [abs_of_nonneg p0] at b2
  have hq0 : 0 ≤ binary32.round (binary32.round (m - q) * binary32.round (m - q)) / 43 :=
    div_nonneg p0 (by norm_num)
  have hq1 : |binary32.round (binary32.round (m - q) * binary32.round (m - q)) / 43|
      ≤ 2 ^ (13 : ℤ) := by
    rw [abs_of_nonneg hq0, div_le_iff₀ (by norm_num)]
    have e : (2 : ℚ) ^ (18 : ℤ) = 262144 := by norm_num
    have e2 : (2 : ℚ) ^ (13 : ℤ) = 8192 := by norm_num
    rw [e] at b2
    rw [e2]
    linarith
  have h3 := binary32.ofRat_eq_fin hp _ 13 (by decide) (by decide) hq1
  have b3 := binary32.round_abs_le hp _ 13 (by decide) hq1
  have t0 := binary32.round_nonneg _ hq0
  rw [abs_of_nonneg t0] at b3
  refine ⟨_, ?_, t0, b3⟩
  show Fp.divNat binary32 (Fp.mul binary32 (binary32.ofRat (m - q)) (binary32.ofRat (m - q)))
    43 = _
  rw [h1]
  show Fp.divNat binary32 (binary32.ofRat _) 43 = _
  rw [h2]
  show binary32.ofRat (_ / ((43 : ℕ) : ℚ)) = _
  rw [show ((43 : ℕ) : ℚ) = 43 by norm_num]
  exact h3

theorem getD_mem_of_lt (l : List Fp) (i : Nat) (h : i < l.length) :
    l.getD i (Fp.fin 0) ∈ l := by
  rw [List.getD_eq_getElem?_getD, List.getElem?_eq_getElem h]
  exact List.getElem_mem h

theorem exists_getD_of_mem (l : List Fp) (e : Fp) (h : e ∈ l) :
    ∃ i, i < l.length ∧ l.getD i (Fp.fin 0) = e := by
  obtain ⟨i, hi, rfl⟩ := List.getElem_of_mem h
  refine ⟨i, hi, ?_⟩
  rw [List.getD_eq_getElem?_getD, List.getElem?_eq_getElem hi]
  rfl

/-- If the variance of a window of data that are not negative is not a NaN, all its
block energies are finite. -/
theorem window_finite (ej : List Fp) (hlen : ej.length = 43)
    (hnn : ∀ e ∈ ej, e.notNeg = true) (hv : getVariance ej (getAvg ej) ≠ Fp.nan) :
    ∀ i, i < 43 → ∃ q, ej.getD i (Fp.fin 0) = Fp.fin q ∧ 0 ≤ q := by
  intro i hi
  have hg : ∀ j, j < 43 → (ej.getD j (Fp.fin 0)).notNeg = true :=
    fun j hj => hnn _ (getD_mem_of_lt ej j (by omega))
  rcases Fp.notNeg_cases _ (hg i hi) with h | h
  · exact h
  · exfalso
    apply hv
    have hS := foldl_add_not_finite binary32 (fun j => ej.getD j (Fp.fin 0)) 43 hg ⟨i, hi, h⟩
    rw [getVariance_eq]
    apply foldl_add_nan
    refine ⟨i, hi, ?_⟩
    rw [getAvg_eq]
    rcases hS with hS | hS
    · rw [hS]
      show varianceTerm Fp.pinf _ = _
      rcases h with h | h <;> rw [h] <;> rfl
    · rw [hS]
      exact varianceTerm_nan _

theorem gt_fin_iff (a b : ℚ) : Fp.gt (Fp.fin a) (Fp.fin b) = true ↔ b < a :=
  decide_eq_true_iff

/-- The product `c * avg` for a constant `c ≤ -2 ^ (-26)` and a mean `avg ≥ 8` is
negative. -/
theorem threshold_negative (c avg : Fp)
    (hc : c = Fp.ninf ∨ ∃ q, c = Fp.fin q ∧ q ≤ -(2 : ℚ) ^ (-26 : ℤ))
    (havg : avg = Fp.pinf ∨ ∃ m, avg = Fp.fin m ∧ 8 ≤ m) :
    Fp.mul binary32 c avg = Fp.ninf ∨ ∃ t, Fp.mul binary32 c avg = Fp.fin t ∧ t < 0 := by
  have e26 : (2 : ℚ) ^ (-26 : ℤ) = 1 / 67108864 := by norm_num
  rcases hc with rfl | ⟨q, rfl, hq⟩ <;> rcases havg with rfl | ⟨m, rfl, hm⟩
  · left; rfl
  · left
    show Fp.infTimes false m = _
    unfold Fp.infTimes
    rw [if_neg (by linarith), if_neg]
    simp only [decide_eq_false_iff_not, not_not]
    linarith
  · left
    show Fp.infTimes true q = _
    rw [e26] at hq
    unfold Fp.infTimes
    rw [if_neg (by linarith), if_neg]
    simp only [decide_eq_true_eq, not_lt]
    linarith
  · rw [e26] at hq
    have hprod : q * m ≤ -(2 : ℚ) ^ (-23 : ℤ) := by
      have e23 : (2 : ℚ) ^ (-23 : ℤ) = 1 / 8388608 := by norm_num
      rw [e23]
      nlinarith
    have hr : binary32.round (q * m) ≤ -(2 : ℚ) ^ (-23 : ℤ) := by
      have := binary32.round_mono (by decide) hprod
      rwa [Format.round_neg, binary32.round_pow (by decide) (-23) (by decide)] at this
    have hneg : q * m ≤ 0 := le_trans hprod (by norm_num)
    show binary32.ofRat (q * m) = _ ∨ ∃ t, binary32.ofRat (q * m) = _ ∧ _
    rcases binary32.ofRat_nonpos (q * m) hneg with h | ⟨h, _⟩
    · exact Or.inl h
    · exact Or.inr ⟨_, h, lt_of_le_of_lt hr (by norm_num)⟩

theorem gt_of_threshold_negative (e thr : Fp) (he : ∃ q, e = Fp.fin q ∧ 0 ≤ q)
    (ht : thr = Fp.ninf ∨ ∃ t, thr = Fp.fin t ∧ t < 0) : Fp.gt e thr = true := by
  obtain ⟨q, rfl, hq⟩ := he
  rcases ht with rfl | ⟨t, rfl, ht⟩
  · rfl
  · exact (gt_fin_iff q t).mpr (lt_of_lt_of_le ht hq)

/-- The core of the saturation argument: in a window whose binary32 variance exceeds
`1.5142857 / 0.0000015`, all block energies are finite, the mean is at least 8 and the
constant `c` is at most `-2 ^ (-26)`. -/
theorem window_saturates (ej : List Fp) (hlen : ej.length = 43)
    (hnn : ∀ e ∈ ej, e.notNeg = true)
    (hvar : Fp.gt (getVariance ej (getAvg ej)) (Fp.fin (1.5142857 / 0.0000015)) = true) :
    (∀ i, i < 43 → ∃ q, ej.getD i (Fp.fin 0) = Fp.fin q ∧ 0 ≤ q)
      ∧ (getAvg ej = Fp.pinf ∨ ∃ m, getAvg ej = Fp.fin m ∧ 8 ≤ m)
      ∧ (sensitivity (getVariance ej (getAvg ej)) = Fp.ninf
          ∨ ∃ c, sensitivity (getVariance ej (getAvg ej)) = Fp.fin c
              ∧ c ≤ -(2 : ℚ) ^ (-26 : ℤ)) := by
  have hp : 1 ≤ binary32.prec := by decide
  have hnan : getVariance ej (getAvg ej) ≠ Fp.nan := by
    intro h
    rw [h] at hvar
    exact absurd hvar Bool.false_ne_true
  have hfin := window_finite ej hlen hnn hnan
  refine ⟨hfin, ?_⟩
  -- the value of the variance: `+∞`, or a finite value above the bound
  have hV : getVariance ej (getAvg ej) = Fp.pinf
      ∨ ∃ v, getVariance ej (getAvg ej) = Fp.fin v ∧ (1.5142857 / 0.0000015 : ℚ) < v := by
    cases hX : getVariance ej (getAvg ej) with
    | fin v =>
      rw [hX] at hvar
      exact Or.inr ⟨v, rfl, (gt_fin_iff _ _).mp hvar⟩
    | pinf => exact Or.inl rfl
    | ninf => rw [hX] at hvar; exact absurd hvar Bool.false_ne_true
    | nan => exact absurd hX hnan
  -- the constant `c`
  have hC : sensitivity (getVariance ej (getAvg ej)) = Fp.ninf
      ∨ ∃ c, sensitivity (getVariance ej (getAvg ej)) = Fp.fin c
          ∧ c ≤ -(2 : ℚ) ^ (-26 : ℤ) := by
    rcases hV with hV | ⟨v, hV, hB⟩
    · left
      rw [hV]
      exact sensitivity_pinf
    · right
      have hlast : getVariance ej (getAvg ej)
          = Fp.add binary32
              ((List.range 42).foldl
                (fun s i => Fp.add binary32 s
                  (varianceTerm (getAvg ej) (ej.getD i (Fp.fin 0)))) (Fp.fin 0))
              (varianceTerm (getAvg ej) (ej.getD 42 (Fp.fin 0))) := by
        rw [getVariance_eq]
        exact foldl_range_succ _ 42 _
      rw [hV] at hlast
      obtain ⟨a, b, _, _, hv, hlt⟩ := Fp.add_eq_fin binary32 _ _ v hlast.symm
      have hz : (2 : ℚ) ^ (19 : ℤ) ≤ |a + b| := by
        by_contra hcon
        have h1 : a + b ≤ 2 ^ (19 : ℤ) := le_trans (le_abs_self _) (not_le.mp hcon).le
        have h2 := binary32.round_le_pow hp _ 19 (by decide) h1
        rw [← hv] at h2
        have e : (2 : ℚ) ^ (19 : ℤ) = 524288 := by norm_num
        rw [e] at h2
        have : (1.5142857 / 0.0000015 : ℚ) < 524288 := lt_of_lt_of_le hB h2
        norm_num at this
      obtain ⟨n, hn⟩ := binary32.round_grid (a + b) 19 hz
      rw [← hv] at hn hlt
      have hn' : v = n / 16 := by
        rw [hn]
        have : (2 : ℚ) ^ ((19 : ℤ) - (((binary32.prec : ℕ) : ℤ) - 1)) = 1 / 16 := by
          show (2 : ℚ) ^ ((19 : ℤ) - (((24 : ℕ) : ℤ) - 1)) = 1 / 16
          norm_num
        rw [this]
        ring
      have hn1 : (16152380 : ℚ) < n := by
        rw [hn'] at hB
        have := (lt_div_iff₀ (by norm_num : (0 : ℚ) < 16)).mp hB
        norm_num at this
        linarith
      have hn2 : (16152380 : ℤ) < n := by exact_mod_cast hn1
      have hn3 : (16152381 : ℚ) ≤ n := by exact_mod_cast (show (16152381 : ℤ) ≤ n by omega)
      have hg : (16152381 / 16 : ℚ) ≤ v := by
        rw [hn']
        exact div_le_div_of_nonneg_right hn3 (by norm_num)
      have hv128 : |v| ≤ 2 ^ (128 : ℤ) := hlt.le
      refine ⟨sensitivityValue v, ?_, sensitivityValue_neg v hg⟩
      rw [hV]
      exact sensitivity_fin v hv128
  refine ⟨?_, hC⟩
  -- the mean
  have hsum := foldl_add_ge binary32 hp (fun i => ej.getD i (Fp.fin 0)) 9 43 (by decide) hfin
  rcases hsum with hS | ⟨s, hS, hs0, hsbig⟩
  · left
    rw [getAvg_eq, hS]
    rfl
  · have havg : getAvg ej = binary32.ofRat (s / 43) := by
      rw [getAvg_eq, hS]
      show binary32.ofRat (s / ((43 : ℕ) : ℚ)) = _
      rw [show ((43 : ℕ) : ℚ) = 43 by norm_num]
    rcases binary32.ofRat_nonneg (s / 43) (div_nonneg hs0 (by norm_num)) with hA | ⟨hA, hm0⟩
    · left
      rw [havg, hA]
    · right
      refine ⟨_, by rw [havg, hA], ?_⟩
      -- some block energy is more than 512 away from the mean
      have hfar : ∃ i, i < 43 ∧ ∃ q, ej.getD i (Fp.fin 0) = Fp.fin q
          ∧ (2 : ℚ) ^ (9 : ℤ) < |binary32.round (s / 43) - q| := by
        by_contra hcon
        have hterms : ∀ i, i < 43 → ∃ t,
            (fun i => varianceTerm (Fp.fin (binary32.round (s / 43)))
              (ej.getD i (Fp.fin 0))) i = Fp.fin t ∧ 0 ≤ t ∧ t ≤ 2 ^ (13 : ℤ) := by
          intro i hi
          obtain ⟨q, hq, _⟩ := hfin i hi
          show ∃ t, varianceTerm _ (ej.getD i (Fp.fin 0)) = _ ∧ _
          rw [hq]
          apply varianceTerm_small
          by_contra hc2
          exact hcon ⟨i, hi, q, hq, not_le.mp hc2⟩
        obtain ⟨v, hv, _, hv1⟩ := foldl_add_le binary32 hp _ 13 43 (by decide) (by decide)
          (by decide) hterms
        have hX : getVariance ej (getAvg ej) = Fp.fin v := by
          rw [getVariance_eq, havg, hA]
          exact hv
        rw [hX] at hvar
        have h1 := (gt_fin_iff _ _).mp hvar
        have e : (2 : ℚ) ^ (13 : ℤ) = 8192 := by norm_num
        rw [e] at hv1
        have h2 : (1.5142857 / 0.0000015 : ℚ) < ((43 : ℕ) : ℚ) * 8192 := lt_of_lt_of_le h1 hv1
        norm_num at h2
      obtain ⟨i, hi, q, hq, hd⟩ := hfar
      obtain ⟨q', hq', hq0⟩ := hfin i hi
      have hqq : q' = q := by
        rw [hq] at hq'
        exact (Fp.fin.inj hq').symm
      subst hqq
      have e9 : (2 : ℚ) ^ (9 : ℤ) = 512 := by norm_num
      rw [e9] at hd
      rcases lt_abs.mp hd with h1 | h1
      · linarith
      · have hq512 : (2 : ℚ) ^ (9 : ℤ) ≤ q' := by rw [e9]; linarith
        have hs512 := hsbig ⟨i, hi, q', hq, hq512⟩
        rw [e9] at hs512
        have h8 : (2 : ℚ) ^ (3 : ℤ) ≤ s / 43 := by
          rw [le_div_iff₀ (by norm_num)]
          norm_num
          linarith
        have := binary32.round_mono hp h8
        rw [binary32.round_pow hp 3 (by decide)] at this
        have e3 : (2 : ℚ) ^ (3 : ℤ) = 8 := by norm_num
        rw [e3] at this
        exact this


/-! ## Evaluation of binary32 operations on natural numbers -/

theorem strictNat_eq {α : Type} (f : Nat → α) (n : Nat) : strictNat f n = f n := by
  cases n <;> rfl

theorem lgStep_spec (k : Nat) (cont : Nat → Nat → Nat)
    (h : ∀ n acc, 0 < n → n < 2 ^ k →
      ∃ e, cont n acc = acc + e ∧ 2 ^ e ≤ n ∧ n < 2 ^ (e + 1)) :
    ∀ n acc, 0 < n → n < 2 ^ (k + k) →
      ∃ e, lgStep k cont n acc = acc + e ∧ 2 ^ e ≤ n ∧ n < 2 ^ (e + 1) := by
  intro n acc hn hlt
  unfold lgStep
  by_cases c : n < 2 ^ k
  · rw [if_pos c]
    exact h n acc hn c
  · rw [if_neg c, strictNat_eq, Nat.shiftRight_eq_div_pow]
    have hk : 0 < 2 ^ k := by positivity
    have hm0 : 0 < n / 2 ^ k := Nat.div_pos (not_lt.mp c) hk
    have hm1 : n / 2 ^ k < 2 ^ k := by
      rw [Nat.div_lt_iff_lt_mul hk, ← pow_add]
      exact hlt
    obtain ⟨e, he, h1, h2⟩ := h (n / 2 ^ k) (acc + k) hm0 hm1
    refine ⟨k + e, by rw [he]; omega, ?_, ?_⟩
    · rw [pow_add, mul_comm]
      exact (Nat.le_div_iff_mul_le hk).mp h1
    · have := (Nat.div_lt_iff_lt_mul hk).mp h2
      rw [show k + e + 1 = (e + 1) + k by omega, pow_add]
      exact this

theorem log2Bin_spec (n : Nat) (hn : 0 < n) (hlt : n < 2 ^ 256) :
    2 ^ log2Bin n ≤ n ∧ n < 2 ^ (log2Bin n + 1) := by
  have h0 : ∀ n acc : Nat, 0 < n → n < 2 ^ 1 →
      ∃ e, (fun (_ : Nat) (acc : Nat) => acc) n acc = acc + e ∧ 2 ^ e ≤ n ∧ n < 2 ^ (e + 1) := by
    intro n acc h1 h2
    exact ⟨0, rfl, h1, h2⟩
  have h1 := lgStep_spec 1 _ h0
  have h2 := lgStep_spec 2 _ h1
  have h4 := lgStep_spec 4 _ h2
  have h8 := lgStep_spec 8 _ h4
  have h16 := lgStep_spec 16 _ h8
  have h32 := lgStep_spec 32 _ h16
  have h64 := lgStep_spec 64 _ h32
  have h128 := lgStep_spec 128 _ h64
  obtain ⟨e, he, a1, a2⟩ := h128 n 0 hn hlt
  have hb : log2Bin n = e := by
    unfold log2Bin
    rw [he, Nat.zero_add]
  rw [hb]
  exact ⟨a1, a2⟩

theorem roundDivNat_spec (n d : Nat) (hd : 0 < d) (h : 2 ^ 23 ≤ n / d)
    (hlt : n / d < 2 ^ 256) :
    binary32.round ((n : ℚ) / (d : ℚ)) = (roundDivNat n d : ℚ) := by
  have hq0 : 0 < n / d := lt_of_lt_of_le (by norm_num) h
  obtain ⟨he1, he2⟩ := log2Bin_spec (n / d) hq0 hlt
  have he23 : 23 ≤ log2Bin (n / d) := by
    by_contra hc
    have h1 : log2Bin (n / d) + 1 ≤ 23 := by omega
    have h2 : 2 ^ (log2Bin (n / d) + 1) ≤ 2 ^ 23 := Nat.pow_le_pow_right (by norm_num) h1
    omega
  simp only [roundDivNat, strictNat_eq]
  generalize log2Bin (n / d) = e at he1 he2 he23
  obtain ⟨k, rfl⟩ : ∃ k, e = 23 + k := ⟨e - 23, by omega⟩
  have hk : 23 + k - 23 = k := by omega
  rw [hk]
  have hD : 0 < d * 2 ^ k := Nat.mul_pos hd (by positivity)
  have hmod : n % (d * 2 ^ k) < d * 2 ^ k := Nat.mod_lt _ hD
  have hdm : d * 2 ^ k * (n / (d * 2 ^ k)) + n % (d * 2 ^ k) = n := Nat.div_add_mod _ _
  generalize n / (d * 2 ^ k) = f at hdm
  generalize n % (d * 2 ^ k) = r at hdm hmod
  have hdq : (0 : ℚ) < d := by exact_mod_cast hd
  have hDq : (0 : ℚ) < (d : ℚ) * 2 ^ k := by positivity
  -- the exponent of `n / d`
  have hlo : (2 : ℚ) ^ ((23 + k : ℕ) : ℤ) ≤ |(n : ℚ) / d| := by
    rw [abs_of_nonneg (by positivity), zpow_natCast, le_div_iff₀ hdq]
    have h1 : 2 ^ (23 + k) * d ≤ n :=
      le_trans (Nat.mul_le_mul_right d he1) (Nat.div_mul_le_self n d)
    exact_mod_cast h1
  have hhi : |(n : ℚ) / d| < 2 ^ (((23 + k : ℕ) : ℤ) + 1) := by
    rw [abs_of_nonneg (by positivity), div_lt_iff₀ hdq]
    have h1 : n < (n / d + 1) * d := by
      have := Nat.lt_succ_self (n / d)
      exact (Nat.div_lt_iff_lt_mul hd).mp this
    have h2 : (n / d + 1) * d ≤ 2 ^ (23 + k + 1) * d := Nat.mul_le_mul_right d he2
    have h3 : n < 2 ^ (23 + k + 1) * d := lt_of_lt_of_le h1 h2
    have h4 : (2 : ℚ) ^ (((23 + k : ℕ) : ℤ) + 1) = ((2 ^ (23 + k + 1) : ℕ) : ℚ) := by
      rw [show (((23 + k : ℕ) : ℤ) + 1) = ((23 + k + 1 : ℕ) : ℤ) by push_cast; ring,
        zpow_natCast]
      push_cast
      rfl
    rw [h4]
    exact_mod_cast h3
  have hu : (2 : ℚ) ^ (((23 + k : ℕ) : ℤ) - 23) = 2 ^ k := by
    rw [show (((23 + k : ℕ) : ℤ) - 23) = (k : ℤ) by push_cast; ring, zpow_natCast]
  have hx : (n : ℚ) / d / 2 ^ (((23 + k : ℕ) : ℤ) - 23) = f + (r : ℚ) / ((d : ℚ) * 2 ^ k) := by
    rw [hu, div_div, ← hdm]
    push_cast
    field_simp
    ring
  have hr0 : (0 : ℚ) ≤ (r : ℚ) / ((d : ℚ) * 2 ^ k) := by positivity
  have key : ∀ m : ℕ,
      (|(n : ℚ) / d / 2 ^ (((23 + k : ℕ) : ℤ) - 23) - ((m : ℤ) : ℚ)| < 1 / 2
        ∨ (|(n : ℚ) / d / 2 ^ (((23 + k : ℕ) : ℤ) - 23) - ((m : ℤ) : ℚ)| = 1 / 2
            ∧ (m : ℤ) % 2 = 0)) →
      binary32.round ((n : ℚ) / d) = ((m * 2 ^ k : ℕ) : ℚ) := by
    intro m hm
    rw [round32_eq_of _ ((23 + k : ℕ) : ℤ) (m : ℤ) (by omega) hhi (Or.inr hlo) hm, hu]
    push_cast
    rfl
  by_cases c1 : 2 * r < d * 2 ^ k
  · rw [if_pos c1]
    apply key
    left
    rw [hx]
    have : (r : ℚ) / ((d : ℚ) * 2 ^ k) < 1 / 2 := by
      rw [div_lt_iff₀ hDq]
      have : ((2 * r : ℕ) : ℚ) < ((d * 2 ^ k : ℕ) : ℚ) := by exact_mod_cast c1
      push_cast at this
      linarith
    rw [abs_lt]
    push_cast
    constructor <;> linarith
  · rw [if_neg c1]
    by_cases c2 : d * 2 ^ k < 2 * r
    · rw [if_pos c2]
      apply key
      left
      rw [hx]
      have h1 : 1 / 2 < (r : ℚ) / ((d : ℚ) * 2 ^ k) := by
        rw [lt_div_iff₀ hDq]
        have : ((d * 2 ^ k : ℕ) : ℚ) < ((2 * r : ℕ) : ℚ) := by exact_mod_cast c2
        push_cast at this
        linarith
      have h2 : (r : ℚ) / ((d : ℚ) * 2 ^ k) < 1 := by
        rw [div_lt_iff₀ hDq]
        have : ((r : ℕ) : ℚ) < ((d * 2 ^ k : ℕ) : ℚ) := by exact_mod_cast hmod
        push_cast at this
        linarith
      rw [abs_lt]
      push_cast
      constructor <;> linarith
    · rw [if_neg c2]
      have hre : 2 * r = d * 2 ^ k := by omega
      have hhalf : (r : ℚ) / ((d : ℚ) * 2 ^ k) = 1 / 2 := by
        rw [div_eq_iff hDq.ne']
        have : ((2 * r : ℕ) : ℚ) = ((d * 2 ^ k : ℕ) : ℚ) := by exact_mod_cast hre
        push_cast at this
        linarith
      by_cases c3 : f % 2 = 0
      · rw [if_pos c3]
        apply key
        right
        rw [hx, hhalf]
        refine ⟨?_, by omega⟩
        push_cast
        rw [add_sub_cancel_left]
        norm_num
      · rw [if_neg c3]
        apply key
        right
        rw [hx, hhalf]
        refine ⟨?_, by push_cast; omega⟩
        push_cast
        have : (f : ℚ) + 1 / 2 - (f + 1) = -(1 / 2) := by ring
        rw [this]
        norm_num

theorem roundNat_spec (n : Nat) (hn : n < 2 ^ 256) :
    binary32.round (n : ℚ) = (roundNat n : ℚ) := by
  unfold roundNat
  by_cases h : n < 2 ^ 24
  · rw [if_pos h]
    refine round32_exact _ (n : ℤ) 0 (by simp) ?_ (by norm_num)
    rw [abs_of_nonneg (by positivity)]
    exact_mod_cast h.le
  · rw [if_neg h]
    have := roundDivNat_spec n 1 (by norm_num) (by rw [Nat.div_one]; omega)
      (by rw [Nat.div_one]; exact hn)
    rwa [Nat.cast_one, div_one] at this

theorem two_pow_128 : (2 : ℚ) ^ (binary32.emax + 1) = ((2 ^ 128 : ℕ) : ℚ) := by
  show (2 : ℚ) ^ ((127 : ℤ) + 1) = _
  norm_num

theorem ofRat_nat (n : Nat) (hn : n < 2 ^ 256) (h : roundNat n < 2 ^ 128) :
    binary32.ofRat (n : ℚ) = Fp.fin (roundNat n : ℚ) := by
  unfold Format.ofRat
  rw [roundNat_spec n hn, if_neg]
  rw [abs_of_nonneg (by positivity), two_pow_128, not_le]
  exact_mod_cast h

theorem ofRat_div_nat (n d : Nat) (hd : 0 < d) (h23 : 2 ^ 23 ≤ n / d)
    (hlt : n / d < 2 ^ 256) (h : roundDivNat n d < 2 ^ 128) :
    binary32.ofRat ((n : ℚ) / (d : ℚ)) = Fp.fin (roundDivNat n d : ℚ) := by
  unfold Format.ofRat
  rw [roundDivNat_spec n d hd h23 hlt, if_neg]
  rw [abs_of_nonneg (by positivity), two_pow_128, not_le]
  exact_mod_cast h

theorem add_nat (a b : Nat) (hn : a + b < 2 ^ 256) (h : roundNat (a + b) < 2 ^ 128) :
    Fp.add binary32 (Fp.fin a) (Fp.fin b) = Fp.fin (roundNat (a + b) : ℚ) := by
  show binary32.ofRat ((a : ℚ) + b) = _
  rw [← Nat.cast_add]
  exact ofRat_nat _ hn h

theorem mul_nat (a b : Nat) (hn : a * b < 2 ^ 256) (h : roundNat (a * b) < 2 ^ 128) :
    Fp.mul binary32 (Fp.fin a) (Fp.fin b) = Fp.fin (roundNat (a * b) : ℚ) := by
  show binary32.ofRat ((a : ℚ) * b) = _
  rw [← Nat.cast_mul]
  exact ofRat_nat _ hn h

/-- A binary32 sum of `n` equal natural terms, evaluated by `sumNat`. -/
theorem foldl_add_nat (v : Nat) (hv : v < 2 ^ 128) : ∀ (n s r : Nat), s < 2 ^ 128 →
    sumNat v n s = some r →
    (List.range n).foldl (fun acc _ => Fp.add binary32 acc (Fp.fin (v : ℚ))) (Fp.fin (s : ℚ))
      = Fp.fin (r : ℚ) := by
  intro n
  induction n with
  | zero =>
    intro s r _ h
    have : s = r := Option.some.inj h
    subst this
    rfl
  | succ n ih =>
    intro s r hs h
    simp only [sumNat, strictNat_eq] at h
    have hsv : s + v < 2 ^ 256 := by
      have : (2 : ℕ) ^ 128 + 2 ^ 128 ≤ 2 ^ 256 := by norm_num
      omega
    by_cases hlt : roundNat (s + v) < 2 ^ 128
    · rw [if_pos hlt] at h
      rw [List.range_succ_eq_map, List.foldl_cons, List.foldl_map, add_nat s v hsv hlt]
      exact ih _ r hlt h
    · rw [if_neg hlt] at h
      exact absurd h (by simp)


/-! ## Block energies are not negative -/

theorem energy_notNeg (x : Fp) : (energy x).notNeg = true := by
  have h2 : Fp.mul binary32 Fp.pinf (Fp.fin 2) = Fp.pinf := by
    show Fp.infTimes true 2 = _
    unfold Fp.infTimes
    rw [if_neg (by norm_num), if_pos]
    simp only [decide_eq_true_eq]
    norm_num
  unfold energy
  cases x with
  | fin a =>
    show (Fp.mul binary32 (binary32.ofRat (a * a)) (Fp.fin 2)).notNeg = true
    rcases binary32.ofRat_nonneg (a * a) (mul_self_nonneg a) with h | ⟨h, h0⟩
    · rw [h, h2]
      rfl
    · rw [h]
      exact Fp.notNeg_ofRat binary32 _ (mul_nonneg h0 (by norm_num))
  | pinf =>
    show (Fp.mul binary32 Fp.pinf (Fp.fin 2)).notNeg = true
    rw [h2]
    rfl
  | ninf =>
    show (Fp.mul binary32 Fp.pinf (Fp.fin 2)).notNeg = true
    rw [h2]
    rfl
  | nan => rfl

theorem blockEnergy_notNeg (input : List Fp) (w j : Nat) :
    (blockEnergy input w j).notNeg = true := by
  unfold blockEnergy
  exact foldl_add_notNeg binary32
    (fun t => energy (input.getD (44100 * w + 1024 * j + t) (Fp.fin 0))) 1024
    (fun _ _ => energy_notNeg _)

theorem windowEnergies_notNeg (input : List Fp) (w : Nat) :
    ∀ e ∈ windowEnergies input w, e.notNeg = true := by
  intro e he
  obtain ⟨j, _, rfl⟩ := List.mem_map.mp he
  exact blockEnergy_notNeg input w j

theorem fp_recordAfter_ej (input : List Fp) (w : Nat) :
    (recordAfter input w).ej = windowEnergies input w := rfl

theorem fp_recordAfter_avg (input : List Fp) (w : Nat) :
    (recordAfter input w).avg = getAvg (windowEnergies input w) := by
  simp only [recordAfter]

theorem fp_recordAfter_variance (input : List Fp) (w : Nat) :
    (recordAfter input w).variance
      = getVariance (windowEnergies input w) (getAvg (windowEnergies input w)) := by
  simp only [recordAfter]

theorem fp_recordAfter_c (input : List Fp) (w : Nat) :
    (recordAfter input w).c = sensitivity (recordAfter input w).variance := by
  simp only [recordAfter]


/-! ## Windows of a constant signal -/

theorem fp_getD_of_const (input : List Fp) (a : Fp) (h : ∀ x ∈ input, x = a) (k : Nat)
    (hk : k < input.length) : input.getD k (Fp.fin 0) = a := by
  rw [List.getD_eq_getElem?_getD, List.getElem?_eq_getElem hk]
  exact h _ (List.getElem_mem hk)

theorem fp_blockEnergy_const (input : List Fp) (a : Fp) (h : ∀ x ∈ input, x = a) (w j : Nat)
    (hw : 44100 * (w + 1) ≤ input.length) (hj : j < 43) :
    blockEnergy input w j = constantEnergy a := by
  unfold blockEnergy constantEnergy
  refine foldl_range_congr
    (fun s t => Fp.add binary32 s
      (energy (input.getD (44100 * w + 1024 * j + t) (Fp.fin 0))))
    (fun s _ => Fp.add binary32 s (energy a)) 1024 (Fp.fin 0) ?_
  intro s t ht
  show Fp.add binary32 s _ = Fp.add binary32 s _
  rw [fp_getD_of_const input a h _ (by omega)]

theorem fp_windowEnergies_const (input : List Fp) (a : Fp) (h : ∀ x ∈ input, x = a) (w : Nat)
    (hw : 44100 * (w + 1) ≤ input.length) :
    windowEnergies input w = List.replicate 43 (constantEnergy a) := by
  unfold windowEnergies
  rw [List.eq_replicate_iff]
  refine ⟨by simp, ?_⟩
  intro e he
  obtain ⟨j, hj, rfl⟩ := List.mem_map.mp he
  exact fp_blockEnergy_const input a h w j hw (List.mem_range.mp hj)

theorem constantEnergy_notNeg (a : Fp) : (constantEnergy a).notNeg = true := by
  unfold constantEnergy
  exact foldl_add_notNeg binary32 (fun _ => energy a) 1024 (fun _ _ => energy_notNeg _)

theorem getD_replicate_lt (E : Fp) (n i : Nat) (hi : i < n) :
    (List.replicate n E).getD i (Fp.fin 0) = E := by
  rw [List.getD_eq_getElem?_getD, List.getElem?_replicate, if_pos hi]
  rfl

theorem fp_getAvg_replicate (E : Fp) :
    getAvg (List.replicate 43 E)
      = Fp.divNat binary32
          ((List.range 43).foldl (fun s _ => Fp.add binary32 s E) (Fp.fin 0)) 43 := by
  rw [getAvg_eq]
  apply congrArg (fun x => Fp.divNat binary32 x 43)
  refine foldl_range_congr
    (fun s i => Fp.add binary32 s ((List.replicate 43 E).getD i (Fp.fin 0)))
    (fun s _ => Fp.add binary32 s E) 43 (Fp.fin 0) ?_
  intro s t ht
  show Fp.add binary32 s _ = Fp.add binary32 s _
  rw [getD_replicate_lt E 43 t ht]

theorem fp_getVariance_replicate (E avg : Fp) :
    getVariance (List.replicate 43 E) avg
      = (List.range 43).foldl (fun s _ => Fp.add binary32 s (varianceTerm avg E))
          (Fp.fin 0) := by
  rw [getVariance_eq]
  refine foldl_range_congr
    (fun s i => Fp.add binary32 s
      (varianceTerm avg ((List.replicate 43 E).getD i (Fp.fin 0))))
    (fun s _ => Fp.add binary32 s (varianceTerm avg E)) 43 (Fp.fin 0) ?_
  intro s t ht
  show Fp.add binary32 s _ = Fp.add binary32 s _
  rw [getD_replicate_lt E 43 t ht]

/-! ### A constant window whose mean is computed exactly -/

theorem foldl_add_zero (n : Nat) :
    (List.range n).foldl (fun s _ => Fp.add binary32 s (Fp.fin 0)) (Fp.fin 0) = Fp.fin 0 := by
  induction n with
  | zero => rfl
  | succ n ih =>
    rw [foldl_range_succ, ih]
    show binary32.ofRat (0 + 0) = _
    rw [add_zero, ofRat_zero]

theorem varianceTerm_self (E : ℚ) : varianceTerm (Fp.fin E) (Fp.fin E) = Fp.fin 0 := by
  show Fp.divNat binary32 (Fp.mul binary32 (binary32.ofRat (E - E)) (binary32.ofRat (E - E)))
    43 = _
  rw [sub_self, ofRat_zero]
  show Fp.divNat binary32 (binary32.ofRat (0 * 0)) 43 = _
  rw [mul_zero, ofRat_zero]
  show binary32.ofRat (0 / ((43 : ℕ) : ℚ)) = _
  rw [zero_div, ofRat_zero]

theorem sensitivity_zero : sensitivity (Fp.fin 0) = Fp.fin (12702749 / 8388608) := by
  rw [sensitivity_fin 0 (by rw [abs_zero]; exact (two_zpow_pos _).le),
    sensitivityValue_small 0 le_rfl (by norm_num)]

/-- In a window of 43 equal finite block energies `E` whose `float` mean is `E` again, the
variance is 0 and no block energy is above the threshold. -/
theorem window_exact (E : ℚ) (hE : 0 ≤ E)
    (havg : getAvg (List.replicate 43 (Fp.fin E)) = Fp.fin E) :
    getVariance (List.replicate 43 (Fp.fin E)) (Fp.fin E) = Fp.fin 0
      ∧ ∀ e ∈ List.replicate 43 (Fp.fin E),
          Fp.gt e (Fp.mul binary32 (Fp.fin (12702749 / 8388608)) (Fp.fin E)) = false := by
  have hp : 1 ≤ binary32.prec := by decide
  constructor
  · rw [fp_getVariance_replicate, varianceTerm_self]
    exact foldl_add_zero 43
  · intro e he
    rw [List.eq_of_mem_replicate he]
    -- `E` is a value of the format
    have hround : binary32.round E = E := by
      rw [fp_getAvg_replicate] at havg
      cases hX : (List.range 43).foldl (fun s _ => Fp.add binary32 s (Fp.fin E)) (Fp.fin 0) with
      | fin s =>
        rw [hX] at havg
        have h1 : binary32.ofRat (s / ((43 : ℕ) : ℚ)) = Fp.fin E := havg
        rcases binary32.ofRat_cases (s / ((43 : ℕ) : ℚ)) with h | h | h
        · rw [h.1] at h1
          rw [← Fp.fin.inj h1]
          exact binary32.round_idem hp _
        · rw [h.1] at h1; exact Fp.noConfusion h1
        · rw [h.1] at h1; exact Fp.noConfusion h1
      | pinf => rw [hX] at havg; exact Fp.noConfusion (show Fp.pinf = Fp.fin E from havg)
      | ninf => rw [hX] at havg; exact Fp.noConfusion (show Fp.ninf = Fp.fin E from havg)
      | nan => rw [hX] at havg; exact Fp.noConfusion (show Fp.nan = Fp.fin E from havg)
    have hprod : E ≤ 12702749 / 8388608 * E := by nlinarith
    have hle : E ≤ binary32.round (12702749 / 8388608 * E) := by
      have := binary32.round_mono hp hprod
      rwa [hround] at this
    show Fp.gt (Fp.fin E) (binary32.ofRat (12702749 / 8388608 * E)) = false
    rcases binary32.ofRat_nonneg (12702749 / 8388608 * E) (by linarith) with h | ⟨h, _⟩
    · rw [h]; rfl
    · rw [h]
      exact decide_eq_false (not_lt.mpr hle)

/-! ### Evaluation of a constant window with natural-number energies -/

theorem ofRat_neg_nat (n : Nat) (hn : n < 2 ^ 256) (h : roundNat n < 2 ^ 128) :
    binary32.ofRat (-(n : ℚ)) = Fp.fin (-(roundNat n : ℚ)) := by
  unfold Format.ofRat
  rw [Format.round_neg, roundNat_spec n hn, abs_neg, if_neg]
  rw [abs_of_nonneg (by positivity), two_pow_128, not_le]
  exact_mod_cast h

theorem energy_nat (a p e : Nat) (h0 : a * a < 2 ^ 256) (h1 : roundNat (a * a) = p)
    (h2 : roundNat (p * 2) = e) (h3 : p < 2 ^ 128) (h4 : e < 2 ^ 128) :
    energy (Fp.fin (a : ℚ)) = Fp.fin (e : ℚ) := by
  have hp2 : p * 2 < 2 ^ 256 := by
    have : (2 : ℕ) ^ 128 * 2 ≤ 2 ^ 256 := by norm_num
    omega
  unfold energy
  rw [mul_nat a a h0 (by rw [h1]; exact h3), h1]
  have := mul_nat p 2 hp2 (by rw [h2]; exact h4)
  rw [h2] at this
  rw [← this]
  norm_num

theorem constantEnergy_nat (a : Fp) (e E : Nat) (he : energy a = Fp.fin (e : ℚ))
    (hlt : e < 2 ^ 128) (hs : sumNat e 1024 0 = some E) :
    constantEnergy a = Fp.fin (E : ℚ) := by
  unfold constantEnergy
  rw [he]
  have := foldl_add_nat e hlt 1024 0 E (by norm_num) hs
  rw [Nat.cast_zero] at this
  exact this

theorem getAvg_replicate_nat (E S m : Nat) (hE : E < 2 ^ 128)
    (hs : sumNat E 43 0 = some S) (h23 : 2 ^ 23 ≤ S / 43) (h256 : S / 43 < 2 ^ 256)
    (hm : roundDivNat S 43 = m) (hlt : m < 2 ^ 128) :
    getAvg (List.replicate 43 (Fp.fin (E : ℚ))) = Fp.fin (m : ℚ) := by
  rw [fp_getAvg_replicate]
  have := foldl_add_nat E hE 43 0 S (by norm_num) hs
  rw [Nat.cast_zero] at this
  rw [this]
  show binary32.ofRat ((S : ℚ) / ((43 : ℕ) : ℚ)) = _
  rw [ofRat_div_nat S 43 (by norm_num) h23 h256 (by rw [hm]; exact hlt), hm]

theorem varianceTerm_nat (m E d p t : Nat) (hle : m ≤ E) (hE : E < 2 ^ 128)
    (hd : roundNat (E - m) = d)
    (hp : roundNat (d * d) = p) (h23 : 2 ^ 23 ≤ p / 43) (ht : roundDivNat p 43 = t)
    (bd : d < 2 ^ 128) (bp : p < 2 ^ 128) (bt : t < 2 ^ 128) :
    varianceTerm (Fp.fin (m : ℚ)) (Fp.fin (E : ℚ)) = Fp.fin (t : ℚ) := by
  have hsub : Fp.sub binary32 (Fp.fin (m : ℚ)) (Fp.fin (E : ℚ)) = Fp.fin (-(d : ℚ)) := by
    show binary32.ofRat ((m : ℚ) - E) = _
    have e : (m : ℚ) - E = -((E - m : ℕ) : ℚ) := by
      rw [Nat.cast_sub hle]; ring
    have h256 : E - m < 2 ^ 256 := by
      have : (2 : ℕ) ^ 128 ≤ 2 ^ 256 := by norm_num
      omega
    rw [e, ofRat_neg_nat _ h256 (by rw [hd]; exact bd), hd]
  have hmul : Fp.mul binary32 (Fp.fin (-(d : ℚ))) (Fp.fin (-(d : ℚ))) = Fp.fin (p : ℚ) := by
    show binary32.ofRat (-(d : ℚ) * -(d : ℚ)) = _
    have h256 : d * d < 2 ^ 256 := by
      have h1 : d * d < 2 ^ 128 * 2 ^ 128 :=
        Nat.mul_lt_mul_of_lt_of_le bd bd.le (by norm_num)
      have h2 : (2 : ℕ) ^ 128 * 2 ^ 128 = 2 ^ 256 := by norm_num
      rw [h2] at h1
      exact h1
    rw [neg_mul_neg, ← Nat.cast_mul, ofRat_nat _ h256 (by rw [hp]; exact bp), hp]
  unfold varianceTerm
  rw [hsub, hmul]
  show binary32.ofRat ((p : ℚ) / ((43 : ℕ) : ℚ)) = _
  have h256 : p / 43 < 2 ^ 256 := by
    have h1 : p / 43 ≤ p := Nat.div_le_self p 43
    have h2 : (2 : ℕ) ^ 128 ≤ 2 ^ 256 := by norm_num
    omega
  rw [ofRat_div_nat p 43 (by norm_num) h23 h256 (by rw [ht]; exact bt), ht]

theorem getVariance_replicate_nat (E avg : Fp) (t V : Nat)
    (hterm : varianceTerm avg E = Fp.fin (t : ℚ)) (ht : t < 2 ^ 128)
    (hs : sumNat t 43 0 = some V) :
    getVariance (List.replicate 43 E) avg = Fp.fin (V : ℚ) := by
  rw [fp_getVariance_replicate, hterm]
  have := foldl_add_nat t ht 43 0 V (by norm_num) hs
  rw [Nat.cast_zero] at this
  exact this

/-! ### One second of the constant amplitude 12345 -/

theorem energy_12345 : energy (Fp.fin 12345) = Fp.fin 304798048 := by
  have := energy_nat 12345 152399024 304798048 (by norm_num) (by decide!) (by decide!)
    (by norm_num) (by norm_num)
  push_cast at this
  exact this

set_option maxRecDepth 1000000 in
theorem sumNat_12345 : sumNat 304798048 1024 0 = some 312112021504 := by decide!

theorem constantEnergy_12345 : constantEnergy (Fp.fin 12345) = Fp.fin 312112021504 := by
  have := constantEnergy_nat (Fp.fin 12345) 304798048 312112021504
    (by rw [energy_12345]; norm_num) (by norm_num) sumNat_12345
  push_cast at this
  exact this

set_option maxRecDepth 100000 in
theorem getAvg_12345 :
    getAvg (List.replicate 43 (Fp.fin 312112021504)) = Fp.fin 312111890432 := by
  have := getAvg_replicate_nat 312112021504 13420811255808 312111890432 (by norm_num)
    (by decide!) (by norm_num) (by norm_num) (by decide!) (by norm_num)
  push_cast at this
  exact this

set_option maxRecDepth 100000 in
theorem getVariance_12345 :
    getVariance (List.replicate 43 (Fp.fin 312112021504)) (Fp.fin 312111890432)
      = Fp.fin 17179873280 := by
  have hterm := varianceTerm_nat 312111890432 312112021504 131072 17179869184 399531840
    (by norm_num) (by norm_num) (by decide!) (by decide!) (by norm_num) (by decide!)
    (by norm_num) (by norm_num) (by norm_num)
  have := getVariance_replicate_nat (Fp.fin ((312112021504 : ℕ) : ℚ))
    (Fp.fin ((312111890432 : ℕ) : ℚ)) 399531840 17179873280 hterm (by norm_num)
    (by decide!)
  push_cast at this
  exact this


/-! ## Saturated windows of the binary32 driver -/

theorem fp_mem_stateAfter_log (input : List Fp) (W : Nat) (r : WindowRecord) :
    r ∈ (stateAfter input W).log ↔ ∃ w, w < W ∧ r = recordAfter input w := by
  rw [fp_stateAfter_log, List.mem_map]
  constructor
  · rintro ⟨w, hw, rfl⟩
    exact ⟨w, List.mem_range.mp hw, rfl⟩
  · rintro ⟨w, hw, rfl⟩
    exact ⟨w, List.mem_range.mpr hw, rfl⟩

theorem fp_recordAfter_ej_length (input : List Fp) (w : Nat) :
    (recordAfter input w).ej.length = 43 := fp_windowEnergies_length input w

/-- A window of the driver whose binary32 variance exceeds the bound: the constant is
negative, the mean positive, the threshold negative, every block energy finite,
nonnegative and above the threshold, and the beat state advances by 43 blocks. -/
theorem recordAfter_saturates (input : List Fp) (w : Nat)
    (hvar : Fp.gt (recordAfter input w).variance (Fp.fin (1.5142857 / 0.0000015)) = true) :
    Fp.gt (Fp.fin 0) (recordAfter input w).c = true
      ∧ Fp.gt (recordAfter input w).avg (Fp.fin 0) = true
      ∧ Fp.gt (Fp.fin 0)
          (Fp.mul binary32 (recordAfter input w).c (recordAfter input w).avg) = true
      ∧ (∀ e ∈ (recordAfter input w).ej, (∃ q, e = Fp.fin q ∧ 0 ≤ q)
          ∧ Fp.gt e (Fp.mul binary32 (recordAfter input w).c (recordAfter input w).avg) = true)
      ∧ (recordAfter input w).beats
          = (stateAfter input w).beats + ((stateAfter input w).peak + 43) / 4
      ∧ (recordAfter input w).peak = ((stateAfter input w).peak + 43) % 4 := by
  have hlen : (windowEnergies input w).length = 43 := fp_windowEnergies_length input w
  rw [fp_recordAfter_variance] at hvar
  obtain ⟨hfin, havg, hc⟩ :=
    window_saturates (windowEnergies input w) hlen (windowEnergies_notNeg input w) hvar
  have hthr := threshold_negative _ _ hc havg
  have hmem : ∀ e ∈ windowEnergies input w, ∃ q, e = Fp.fin q ∧ 0 ≤ q := by
    intro e he
    obtain ⟨i, hi, rfl⟩ := exists_getD_of_mem _ e he
    exact hfin i (by omega)
  have hhigh : ∀ e ∈ windowEnergies input w,
      Fp.gt e (Fp.mul binary32 (sensitivity (getVariance (windowEnergies input w)
        (getAvg (windowEnergies input w)))) (getAvg (windowEnergies input w))) = true :=
    fun e he => gt_of_threshold_negative e _ (hmem e he) hthr
  obtain ⟨i0, i3⟩ := fp_stateAfter_peak input w
  have hloop := fp_recordAfter_beats_peak input w
  rw [fp_recordAfter_c, fp_recordAfter_variance, fp_recordAfter_avg,
    fp_beatLoop_all_high _ _ _ _ hlen hhigh i0 (by omega)] at hloop
  rw [fp_recordAfter_c, fp_recordAfter_variance, fp_recordAfter_avg, fp_recordAfter_ej]
  obtain ⟨hb, hpk⟩ := Prod.mk.inj hloop
  refine ⟨?_, ?_, ?_, fun e he => ⟨hmem e he, hhigh e he⟩, hb, hpk⟩
  · rcases hc with h | ⟨c, h, hc⟩
    · rw [h]; rfl
    · rw [h]
      exact (gt_fin_iff _ _).mpr (lt_of_le_of_lt hc (by norm_num))
  · rcases havg with h | ⟨m, h, hm⟩
    · rw [h]; rfl
    · rw [h]
      exact (gt_fin_iff _ _).mpr (by linarith)
  · rcases hthr with h | ⟨t, h, ht⟩
    · rw [h]; rfl
    · rw [h]
      exact (gt_fin_iff _ _).mpr ht

/-! ### One second of the constant amplitude 12345 in the driver -/

theorem one_second_12345 :
    run (List.replicate 44100 (Fp.fin 12345))
        = .ok (stateAfter (List.replicate 44100 (Fp.fin 12345)) 1)
      ∧ (stateAfter (List.replicate 44100 (Fp.fin 12345)) 1).log
          = [recordAfter (List.replicate 44100 (Fp.fin 12345)) 0]
      ∧ (recordAfter (List.replicate 44100 (Fp.fin 12345)) 0).ej
          = List.replicate 43 (Fp.fin 312112021504)
      ∧ (recordAfter (List.replicate 44100 (Fp.fin 12345)) 0).avg = Fp.fin 312111890432
      ∧ (recordAfter (List.replicate 44100 (Fp.fin 12345)) 0).variance
          = Fp.fin 17179873280 := by
  have hlen : (List.replicate 44100 (Fp.fin 12345)).length / 44100 = 1 := by
    rw [List.length_replicate]
  have hrun := fp_run_eq (List.replicate 44100 (Fp.fin 12345))
  rw [hlen] at hrun
  have hej : windowEnergies (List.replicate 44100 (Fp.fin 12345)) 0
      = List.replicate 43 (Fp.fin 312112021504) := by
    rw [fp_windowEnergies_const _ (Fp.fin 12345) (fun x hx => List.eq_of_mem_replicate hx) 0
      (le_of_eq (by rw [List.length_replicate])), constantEnergy_12345]
  refine ⟨hrun, ?_, ?_, ?_, ?_⟩
  · rw [fp_stateAfter_log]
    rfl
  · rw [fp_recordAfter_ej, hej]
  · rw [fp_recordAfter_avg, hej, getAvg_12345]
  · rw [fp_recordAfter_variance, hej, getAvg_12345, getVariance_12345]

theorem entryState_zero (log : List WindowRecord) : entryState log 0 = (0, 0) := rfl


/-! ## Constant input in the binary32 driver -/

theorem fp_recordAfter_const (input : List Fp) (a : Fp) (h : ∀ x ∈ input, x = a) (w : Nat)
    (hw : 44100 * (w + 1) ≤ input.length) :
    (recordAfter input w).ej = List.replicate 43 (constantEnergy a) := by
  rw [fp_recordAfter_ej, fp_windowEnergies_const input a h w hw]

theorem constantEnergy_nonneg (a : Fp) (E : ℚ) (hE : constantEnergy a = Fp.fin E) :
    0 ≤ E := by
  have := constantEnergy_notNeg a
  rw [hE] at this
  exact of_decide_eq_true this

theorem fp_recordAfter_exact (input : List Fp) (a : Fp) (E : ℚ) (h : ∀ x ∈ input, x = a)
    (hE : constantEnergy a = Fp.fin E)
    (havg : getAvg (List.replicate 43 (Fp.fin E)) = Fp.fin E) (w : Nat)
    (hw : 44100 * (w + 1) ≤ input.length)
    (hb : (stateAfter input w).beats = 0) (hp : (stateAfter input w).peak = 0) :
    (recordAfter input w).avg = Fp.fin E
      ∧ (recordAfter input w).variance = Fp.fin 0
      ∧ (recordAfter input w).c = Fp.fin (12702749 / 8388608)
      ∧ (∀ e ∈ (recordAfter input w).ej,
          Fp.gt e (Fp.mul binary32 (recordAfter input w).c (recordAfter input w).avg) = false)
      ∧ (recordAfter input w).beats = 0
      ∧ (recordAfter input w).peak = 0 := by
  have hej : windowEnergies input w = List.replicate 43 (Fp.fin E) := by
    rw [fp_windowEnergies_const input a h w hw, hE]
  obtain ⟨hvar0, hlow⟩ := window_exact E (constantEnergy_nonneg a E hE) havg
  have h1 : (recordAfter input w).avg = Fp.fin E := by
    rw [fp_recordAfter_avg, hej, havg]
  have h2 : (recordAfter input w).variance = Fp.fin 0 := by
    rw [fp_recordAfter_variance, hej, havg, hvar0]
  have h3 : (recordAfter input w).c = Fp.fin (12702749 / 8388608) := by
    rw [fp_recordAfter_c, h2, sensitivity_zero]
  have h4 : ∀ e ∈ (recordAfter input w).ej,
      Fp.gt e (Fp.mul binary32 (recordAfter input w).c (recordAfter input w).avg) = false := by
    rw [fp_recordAfter_ej, hej, h3, h1]
    exact hlow
  have hloop := fp_recordAfter_beats_peak input w
  rw [hb, hp, fp_beatLoop_all_low _ _ 0 (fp_windowEnergies_length input w)
    (by rw [← fp_recordAfter_ej]; exact h4)] at hloop
  obtain ⟨hb', hp'⟩ := Prod.mk.inj hloop
  exact ⟨h1, h2, h3, h4, hb', hp'⟩

theorem fp_stateAfter_exact (input : List Fp) (a : Fp) (E : ℚ) (h : ∀ x ∈ input, x = a)
    (hE : constantEnergy a = Fp.fin E)
    (havg : getAvg (List.replicate 43 (Fp.fin E)) = Fp.fin E) :
    ∀ W, 44100 * W ≤ input.length →
      (stateAfter input W).beats = 0 ∧ (stateAfter input W).peak = 0 := by
  intro W
  induction W with
  | zero => intro _; exact ⟨rfl, rfl⟩
  | succ W ih =>
    intro hW
    obtain ⟨hb, hp⟩ := ih (by omega)
    obtain ⟨_, _, _, _, hb', hp'⟩ := fp_recordAfter_exact input a E h hE havg W hW hb hp
    exact ⟨by rw [fp_stateAfter_succ_beats, hb'], by rw [fp_stateAfter_succ_peak, hp']⟩

/-! ### The constant amplitude 1 -/

theorem fp_energy_one : energy (Fp.fin 1) = Fp.fin 2 := by
  have := energy_nat 1 1 2 (by norm_num) (by decide!) (by decide!) (by norm_num)
    (by norm_num)
  push_cast at this
  exact this

set_option maxRecDepth 1000000 in
theorem sumNat_one : sumNat 2 1024 0 = some 2048 := by decide!

theorem constantEnergy_one : constantEnergy (Fp.fin 1) = Fp.fin 2048 := by
  have := constantEnergy_nat (Fp.fin 1) 2 2048 (by rw [fp_energy_one]; norm_num) (by norm_num)
    sumNat_one
  push_cast at this
  exact this

set_option maxRecDepth 100000 in
theorem getAvg_2048 : getAvg (List.replicate 43 (Fp.fin 2048)) = Fp.fin 2048 := by
  rw [fp_getAvg_replicate]
  have h1 := foldl_add_nat 2048 (by norm_num) 43 0 88064 (by norm_num) (by decide!)
  push_cast at h1
  rw [h1]
  show binary32.ofRat (88064 / ((43 : ℕ) : ℚ)) = _
  have e : (88064 : ℚ) / ((43 : ℕ) : ℚ) = ((2048 : ℕ) : ℚ) := by norm_num
  rw [e, ofRat_nat 2048 (by norm_num) (by decide!)]
  have e2 : roundNat 2048 = 2048 := by decide!
  rw [e2]
  norm_num

/-! ## Claim C5: constant input -/

/-- Counterexample for C5: one second of the constant amplitude 12345.  In `float`
arithmetic the 43 block energies are 312112021504 (not `1024 * 2 * 12345 * 12345`),
their mean is computed as 312111890432, the variance as 17179873280 (not 0), the
sensitivity constant is negative, every block energy is above the threshold, the beat
count is 10 and the BPM is 600. -/
theorem constant_input_rounding :
    (∀ x ∈ List.replicate 44100 (Fp.fin 12345), x = Fp.fin 12345)
      ∧ ∃ s, run (List.replicate 44100 (Fp.fin 12345)) = .ok s
          ∧ s.log.length = 1
          ∧ (∀ r ∈ s.log,
              r.ej = List.replicate 43 (Fp.fin 312112021504)
              ∧ (312112021504 : ℚ) ≠ 1024 * 2 * 12345 * 12345
              ∧ r.avg = Fp.fin 312111890432
              ∧ r.variance = Fp.fin 17179873280
              ∧ Fp.gt (Fp.fin 0) r.c = true
              ∧ ∀ e ∈ r.ej, Fp.gt e (Fp.mul binary32 r.c r.avg) = true)
          ∧ s.beats = 10
          ∧ main (List.replicate 44100 (Fp.fin 12345)) = .ok 600 := by
  obtain ⟨hrun, hlog, hej, havg, hvar⟩ := one_second_12345
  have hgt : Fp.gt (recordAfter (List.replicate 44100 (Fp.fin 12345)) 0).variance
      (Fp.fin (1.5142857 / 0.0000015)) = true := by
    rw [hvar]
    exact (gt_fin_iff _ _).mpr (by norm_num)
  obtain ⟨hc, _, _, hhigh, hb, _⟩ := recordAfter_saturates _ 0 hgt
  have hbeats : (stateAfter (List.replicate 44100 (Fp.fin 12345)) 1).beats = 10 := by
    rw [fp_stateAfter_succ_beats, hb]
    rfl
  refine ⟨fun x hx => List.eq_of_mem_replicate hx, _, hrun, by rw [hlog]; rfl, ?_, hbeats, ?_⟩
  · intro r hr
    rw [hlog, List.mem_singleton] at hr
    subst hr
    exact ⟨hej, by norm_num, havg, hvar, hc, fun e he => (hhigh e he).2⟩
  · rw [fp_main_eq, List.length_replicate]
    have hlen : 44100 / 44100 = 1 := rfl
    rw [hlen, hbeats]
    rfl

/-- Claim C5 (constant-amplitude input), in binary32 arithmetic.  For every amplitude `a`
and every sample sequence whose samples all equal `a`, the driver runs without fault and
every window it processes has 43 equal block energies, each the `float` sum
`constantEnergy a` of 1024 copies of `(a * a) * 2`.  Whenever that energy is a finite
value `E` and the `float` mean of 43 copies of `E` is `E` again, every window has mean
`E ≥ 0`, variance exactly 0, sensitivity constant `12702749 / 8388608` (the `float`
nearest to 1.5142857) and no block energy strictly above the threshold `c * mean`, and
the beat count is 0. -/
theorem constant_input (a : Fp) (input : List Fp) (hconst : ∀ x ∈ input, x = a) :
    ∃ s, run input = .ok s
      ∧ s.log.length = input.length / 44100
      ∧ (∀ r ∈ s.log,
          r.ej = List.replicate 43 (constantEnergy a)
          ∧ r.avg = getAvg r.ej
          ∧ r.variance = getVariance r.ej r.avg
          ∧ r.c = sensitivity r.variance)
      ∧ ∀ E, constantEnergy a = Fp.fin E →
          getAvg (List.replicate 43 (Fp.fin E)) = Fp.fin E →
          (∀ r ∈ s.log,
              r.avg = Fp.fin E ∧ 0 ≤ E
              ∧ r.variance = Fp.fin 0
              ∧ r.c = Fp.fin (12702749 / 8388608)
              ∧ ∀ e ∈ r.ej, Fp.gt e (Fp.mul binary32 r.c r.avg) = false)
            ∧ s.beats = 0 := by
  have hW : 44100 * (input.length / 44100) ≤ input.length := Nat.mul_div_le _ _
  refine ⟨stateAfter input (input.length / 44100), fp_run_eq input,
    fp_stateAfter_log_length input _, ?_, ?_⟩
  · intro r hr
    obtain ⟨w, hw, rfl⟩ := (fp_mem_stateAfter_log input _ r).mp hr
    have hw' : 44100 * (w + 1) ≤ input.length := by
      have : 44100 * (w + 1) ≤ 44100 * (input.length / 44100) := Nat.mul_le_mul_left _ hw
      omega
    refine ⟨fp_recordAfter_const input a hconst w hw', ?_, ?_, fp_recordAfter_c input w⟩
    · rw [fp_recordAfter_avg, fp_recordAfter_ej]
    · rw [fp_recordAfter_variance, fp_recordAfter_ej, fp_recordAfter_avg]
  · intro E hE havg
    refine ⟨?_, (fp_stateAfter_exact input a E hconst hE havg _ hW).1⟩
    intro r hr
    obtain ⟨w, hw, rfl⟩ := (fp_mem_stateAfter_log input _ r).mp hr
    have hw' : 44100 * (w + 1) ≤ input.length := by
      have : 44100 * (w + 1) ≤ 44100 * (input.length / 44100) := Nat.mul_le_mul_left _ hw
      omega
    obtain ⟨hb, hp⟩ := fp_stateAfter_exact input a E hconst hE havg w (by omega)
    obtain ⟨h1, h2, h3, h4, _, _⟩ := fp_recordAfter_exact input a E hconst hE havg w hw' hb hp
    exact ⟨h1, constantEnergy_nonneg a E hE, h2, h3, h4⟩

/-- Witness for C5: two seconds of the constant amplitude 1, whose block energy 2048 has
the `float` mean 2048. -/
theorem constant_input_witness :
    (∀ x ∈ List.replicate 88200 (Fp.fin 1), x = Fp.fin 1)
      ∧ constantEnergy (Fp.fin 1) = Fp.fin 2048
      ∧ getAvg (List.replicate 43 (Fp.fin 2048)) = Fp.fin 2048
      ∧ ∃ s, run (List.replicate 88200 (Fp.fin 1)) = .ok s ∧ s.log.length = 2
          ∧ s.beats = 0 := by
  have h : ∀ x ∈ List.replicate 88200 (Fp.fin 1), x = Fp.fin 1 :=
    fun x hx => List.eq_of_mem_replicate hx
  obtain ⟨s, hrun, hlen, _, hex⟩ := constant_input (Fp.fin 1) (List.replicate 88200 (Fp.fin 1)) h
  rw [List.length_replicate] at hlen
  exact ⟨h, constantEnergy_one, getAvg_2048, s, hrun, by rw [hlen],
    (hex 2048 constantEnergy_one getAvg_2048).2⟩

/-! ## Claim C14: the threshold policy -/

theorem fp_beatRule_eq_outcomeStep (threshold : Fp) (st : Int × Int) (e : Fp) :
    beatRule threshold st e = outcomeStep st (Fp.gt e threshold) := rfl

theorem sensitivityValue_large : 2 < sensitivityValue (-1000000) := by
  have hp : 1 ≤ binary64.prec := by decide
  have h0 : binary64.round (-1000000) = -1000000 :=
    round64_exact _ (-1000000) 0 (by norm_num) (by norm_num) (by decide)
  have h5 : binary64.round (5 / 4) = 5 / 4 :=
    round64_exact _ 5 (-2) (by norm_num) (by norm_num) (by decide)
  have h52 : binary64.round (5 / 2) = 5 / 2 :=
    round64_exact _ 5 (-1) (by norm_num) (by norm_num) (by decide)
  have h52' : binary32.round (5 / 2) = 5 / 2 :=
    round32_exact _ 5 (-1) (by norm_num) (by norm_num) (by decide)
  have h1 : (5 / 4 : ℚ) ≤ binary64.round ((-7083549724304468 / 2 ^ 72 : ℚ) * -1000000) := by
    have := binary64.round_mono hp (show (5 / 4 : ℚ)
      ≤ (-7083549724304468 / 2 ^ 72 : ℚ) * -1000000 by norm_num)
    rwa [h5] at this
  have h2 : (5 / 2 : ℚ) ≤ binary64.round
      (binary64.round ((-7083549724304468 / 2 ^ 72 : ℚ) * -1000000)
        + 6819736514252471 / 2 ^ 52) := by
    have := binary64.round_mono hp (show (5 / 2 : ℚ)
      ≤ binary64.round ((-7083549724304468 / 2 ^ 72 : ℚ) * -1000000)
        + 6819736514252471 / 2 ^ 52 by
      have : (5 / 4 : ℚ) ≤ 6819736514252471 / 2 ^ 52 := by norm_num
      linarith)
    rwa [h52] at this
  unfold sensitivityValue
  rw [round64_slope, round64_intercept, h0]
  have := binary32.round_mono (by decide) h2
  rw [h52'] at this
  linarith

/-- Counterexample for C14: the constant computed for the variance 0 is the `float`
`12702749 / 8388608`, not `-0.0000015 * 0 + 1.5142857`, and the greater variance `1 / 64`
gives the same constant. -/
theorem threshold_policy_rounding :
    sensitivity (Fp.fin 0) = Fp.fin (12702749 / 8388608)
      ∧ (12702749 / 8388608 : ℚ) ≠ -0.0000015 * 0 + 1.5142857
      ∧ (0 : ℚ) < 1 / 64
      ∧ sensitivity (Fp.fin (1 / 64)) = sensitivity (Fp.fin 0) := by
  refine ⟨sensitivity_zero, by norm_num, by norm_num, ?_⟩
  rw [sensitivity_zero, sensitivity_fin (1 / 64) (by
      rw [abs_of_nonneg (by norm_num)]
      exact le_trans (by norm_num) (two_zpow_le (show (0 : ℤ) ≤ 128 by norm_num))),
    sensitivityValue_small (1 / 64) (by norm_num) le_rfl]

/-- Claim C14 (ThresholdPolicy), in binary32 arithmetic.  For every finite variance the
sensitivity constant is `sensitivityValue variance`: the expression
`-0.0000015 * variance + 1.5142857` with the product and the sum rounded to `double` and
the result rounded to `float`, with no clamping; it is non-increasing in the variance; it
is `12702749 / 8388608` for the variance 0; values below 0 and above 2 occur and are
passed through; and in every window processed by the driver the logged `c` is this
function of the logged variance and the beat loop compares each block energy with the
`float` product `c * avg`, an energy equal to the threshold not counting as above it. -/
theorem threshold_policy (input : List Fp) :
    (∀ variance : ℚ, |variance| ≤ 2 ^ (128 : ℤ) →
        sensitivity (Fp.fin variance) = Fp.fin (sensitivityValue variance))
      ∧ (∀ v1 v2, v1 ≤ v2 → sensitivityValue v2 ≤ sensitivityValue v1)
      ∧ sensitivityValue 0 = 12702749 / 8388608
      ∧ sensitivityValue 2000000 < 0 ∧ 2 < sensitivityValue (-1000000)
      ∧ (∀ threshold st e, beatRule threshold st e = outcomeStep st (Fp.gt e threshold))
      ∧ (∀ (t : ℚ) (beats peak : Int),
          beatRule (Fp.fin t) (beats, peak) (Fp.fin t) = (beats, 0))
      ∧ ∃ s, run input = .ok s
          ∧ s.log.length = input.length / 44100
          ∧ ∀ (w : Nat) (r : WindowRecord), s.log[w]? = some r →
              r.avg = getAvg r.ej
              ∧ r.variance = getVariance r.ej r.avg
              ∧ r.c = sensitivity r.variance
              ∧ (r.beats, r.peak)
                  = beatLoop r.ej (Fp.mul binary32 r.c r.avg)
                      (entryState s.log w).1 (entryState s.log w).2 := by
  refine ⟨sensitivity_fin, fun v1 v2 h => sensitivityValue_antitone h,
    sensitivityValue_small 0 le_rfl (by norm_num), ?_, sensitivityValue_large,
    fp_beatRule_eq_outcomeStep, ?_, ?_⟩
  · exact lt_of_le_of_lt (sensitivityValue_neg 2000000 (by norm_num)) (by norm_num)
  · intro t beats peak
    unfold beatRule
    rw [if_neg]
    intro h
    exact lt_irrefl t ((gt_fin_iff t t).mp h)
  · refine ⟨stateAfter input (input.length / 44100), fp_run_eq input,
      fp_stateAfter_log_length input _, ?_⟩
    intro w r hr
    obtain ⟨hw, rfl⟩ := fp_log_getElem?_eq input _ w r hr
    refine ⟨?_, ?_, fp_recordAfter_c input w, ?_⟩
    · rw [fp_recordAfter_avg, fp_recordAfter_ej]
    · rw [fp_recordAfter_variance, fp_recordAfter_ej, fp_recordAfter_avg]
    · rw [fp_entryState_stateAfter input _ w (by omega), fp_recordAfter_ej]
      exact fp_recordAfter_beats_peak input w

/-! ## Claim C18: a negative threshold -/

/-- Claim C18 (negative threshold), in binary32 arithmetic.  For every window processed
by the driver whose block-energy variance, as computed by `getVariance` in `float`
arithmetic, exceeds `1.5142857 / 0.0000015`: the sensitivity constant is negative, the
mean is strictly positive, the threshold `c * avg` is negative, each of the 43 block
energies is finite and nonnegative and hence strictly above the threshold, and the window
adds exactly `(p + 43) / 4` beats and leaves `peak = (p + 43) % 4`, where `p` (with
`0 ≤ p ≤ 3`) is the value of `peak` with which the window starts. -/
theorem negative_threshold_saturates (input : List Fp) (s : MainState) (w : Nat)
    (r : WindowRecord) (hrun : run input = .ok s) (hr : s.log[w]? = some r)
    (hvar : Fp.gt r.variance (Fp.fin (1.5142857 / 0.0000015)) = true) :
    Fp.gt (Fp.fin 0) r.c = true
      ∧ Fp.gt r.avg (Fp.fin 0) = true
      ∧ Fp.gt (Fp.fin 0) (Fp.mul binary32 r.c r.avg) = true
      ∧ r.ej.length = 43
      ∧ (∀ e ∈ r.ej, (∃ q, e = Fp.fin q ∧ 0 ≤ q)
          ∧ Fp.gt e (Fp.mul binary32 r.c r.avg) = true)
      ∧ 0 ≤ (entryState s.log w).2 ∧ (entryState s.log w).2 ≤ 3
      ∧ r.beats = (entryState s.log w).1 + ((entryState s.log w).2 + 43) / 4
      ∧ r.peak = ((entryState s.log w).2 + 43) % 4 := by
  have hs : s = stateAfter input (input.length / 44100) :=
    (Except.ok.inj ((fp_run_eq input).symm.trans hrun)).symm
  subst hs
  obtain ⟨hw, rfl⟩ := fp_log_getElem?_eq input _ w r hr
  obtain ⟨h1, h2, h3, h4, h5, h6⟩ := recordAfter_saturates input w hvar
  obtain ⟨i0, i3⟩ := fp_stateAfter_peak input w
  rw [fp_entryState_stateAfter input _ w (by omega)]
  exact ⟨h1, h2, h3, fp_recordAfter_ej_length input w, h4, i0, i3, h5, h6⟩

/-- Witness for C18: the single window of one second of the constant amplitude 12345,
whose `float` variance is 17179873280; it starts with `peak = 0`, adds 10 beats and
leaves `peak = 3`. -/
theorem negative_threshold_saturates_witness :
    run (List.replicate 44100 (Fp.fin 12345))
        = .ok (stateAfter (List.replicate 44100 (Fp.fin 12345)) 1)
      ∧ (stateAfter (List.replicate 44100 (Fp.fin 12345)) 1).log[0]?
          = some (recordAfter (List.replicate 44100 (Fp.fin 12345)) 0)
      ∧ Fp.gt (recordAfter (List.replicate 44100 (Fp.fin 12345)) 0).variance
          (Fp.fin (1.5142857 / 0.0000015)) = true
      ∧ (recordAfter (List.replicate 44100 (Fp.fin 12345)) 0).beats = 10
      ∧ (recordAfter (List.replicate 44100 (Fp.fin 12345)) 0).peak = 3 := by
  obtain ⟨hrun, hlog, _, _, hvar⟩ := one_second_12345
  have hr : (stateAfter (List.replicate 44100 (Fp.fin 12345)) 1).log[0]?
      = some (recordAfter (List.replicate 44100 (Fp.fin 12345)) 0) := by
    rw [hlog]
    rfl
  have hgt : Fp.gt (recordAfter (List.replicate 44100 (Fp.fin 12345)) 0).variance
      (Fp.fin (1.5142857 / 0.0000015)) = true := by
    rw [hvar]
    exact (gt_fin_iff _ _).mpr (by norm_num)
  have h := negative_threshold_saturates (List.replicate 44100 (Fp.fin 12345))
    (stateAfter (List.replicate 44100 (Fp.fin 12345)) 1) 0
    (recordAfter (List.replicate 44100 (Fp.fin 12345)) 0) hrun hr hgt
  obtain ⟨_, _, _, _, _, _, _, hb, hp⟩ := h
  rw [entryState_zero] at hb hp
  exact ⟨hrun, hr, hgt, by rw [hb]; rfl, by rw [hp]; rfl⟩

end Binary32

end Bpm
